import Mathlib

/-!
Verification of the maze solver (`src/main.rs`).

The program parses a maze text into a `Grid` of `Cell`s, runs a best-first
search with a `BinaryHeap` frontier and a `HashSet` visited set, and
reconstructs the path by walking `parent_coord` links backwards from the exit.

The embedding below is a direct translation of `src/main.rs`:
* character data is modelled as `List Char` (the source measures the first
  row with `str::len`, which counts bytes; for the ASCII alphabet `-`/`#`
  used by mazes this is the character count);
* `Vec<Cell>` becomes `List Cell` with `List.get?`/`List.set` (an
  out-of-range index, which panics in Rust, surfaces as `none`);
* `std::collections::BinaryHeap` is modelled by its exact implementation:
  `push` appends and sifts up, `pop` removes the last element, swaps it with
  the root and runs `sift_down_to_bottom` (descend to a leaf along the
  greater child, then sift up); the element order is the source's custom
  `Ord for Cell`, which compares `cost` alone, reversed;
* `HashSet<Coordinate>` becomes a duplicate-free `List Coordinate`
  (only `insert`/`remove`/`contains` are used, never iteration);
* the `while` loops take a fuel parameter; panics (`unwrap` on `None`,
  index out of bounds) are explicit result constructors.
-/

namespace Maze

/-- `struct Coordinate` (main.rs lines 3-7). -/
structure Coordinate where
  x : Nat
  y : Nat
  deriving DecidableEq, Repr

/-- `enum CellType` (main.rs lines 9-15). -/
inductive CellType where
  | Entrance : CellType
  | Exit : CellType
  | Wall : CellType
  | Path : CellType
  deriving DecidableEq, Repr

/-- `struct Cell` (main.rs lines 17-24). -/
structure Cell where
  cell_type : CellType
  coordinate : Coordinate
  parent_coord : Coordinate
  manhattan_from_exit : Nat
  cost : Nat
  deriving DecidableEq, Repr

/-- `Cell::new` (main.rs lines 38-47): default parent `(0,0)`, heuristic 0, cost 0. -/
def Cell.new (coordinate : Coordinate) (cell_type : CellType) : Cell :=
  { cell_type := cell_type
    coordinate := coordinate
    parent_coord := { x := 0, y := 0 }
    manhattan_from_exit := 0
    cost := 0 }

/-- `struct Grid<Cell>` (main.rs lines 50-57). -/
structure Grid where
  width : Nat
  height : Nat
  entrance_location : Coordinate
  exit_location : Coordinate
  cells : List Cell
  deriving DecidableEq, Repr

/-! ### Maze text preprocessing (main.rs lines 60-67)

`read_to_string(..)?.replace(' ', "")`, then `.trim().lines().collect()`.
-/

/-- `.replace(' ', "")` on the raw text (main.rs line 62). -/
def removeSpaces (s : List Char) : List Char :=
  s.filter (fun c => c ≠ ' ')

/-- Whitespace as trimmed by `str::trim` (restricted to the ASCII whitespace
that can occur here; spaces are already gone when `trim` runs). -/
def isWsChar (c : Char) : Bool :=
  c == ' ' || c == '\t' || c == '\n' || c == '\r'

/-- `str::trim` (main.rs line 64). -/
def trimChars (s : List Char) : List Char :=
  ((s.dropWhile isWsChar).reverse.dropWhile isWsChar).reverse

/-- Split a character list at every newline. -/
def splitNl : List Char → List (List Char)
  | [] => [[]]
  | c :: rest =>
    match splitNl rest with
    | [] => [[]]
    | l :: ls => if c = '\n' then [] :: l :: ls else (c :: l) :: ls

/-- Drop a trailing carriage return, as `str::lines` does per line. -/
def dropTrailingCr (l : List Char) : List Char :=
  match l.getLast? with
  | some c => if c = '\r' then l.dropLast else l
  | none => l

/-- `str::lines` (main.rs line 64): the empty string yields no lines at all
(which is what makes `maze_as_vec[0]` panic on empty input); the input is
already trimmed, so there is no trailing-newline case to drop. -/
def linesOf (s : List Char) : List (List Char) :=
  if s.isEmpty then [] else (splitNl s).map dropTrailingCr

/-! ### Grid construction (main.rs lines 60-115) -/

/-- The inner `for (column, char)` loop of `Grid::new` (main.rs lines 74-99):
returns the cells pushed for this row, the boundary-opening coordinates
pushed into `exit_coordinates`, and the updated `entrance_found` flag. -/
def buildRow (width height row : Nat) :
    Nat → Bool → List Char → List Cell × List Coordinate × Bool
  | _col, found, [] => ([], [], found)
  | col, found, ch :: rest =>
    if ch = '-' then
      if row = 0 ∨ row = height - 1 ∨ col = 0 ∨ col = width - 1 then
        if found then
          let r := buildRow width height row (col + 1) found rest
          (Cell.new ⟨col, row⟩ CellType.Exit :: r.1, ⟨col, row⟩ :: r.2.1, r.2.2)
        else
          let r := buildRow width height row (col + 1) true rest
          (Cell.new ⟨col, row⟩ CellType.Entrance :: r.1, ⟨col, row⟩ :: r.2.1, r.2.2)
      else
        let r := buildRow width height row (col + 1) found rest
        (Cell.new ⟨col, row⟩ CellType.Path :: r.1, r.2.1, r.2.2)
    else if ch = '#' then
      let r := buildRow width height row (col + 1) found rest
      (Cell.new ⟨col, row⟩ CellType.Wall :: r.1, r.2.1, r.2.2)
    else
      buildRow width height row (col + 1) found rest

/-- The outer `for (row, chars)` loop of `Grid::new` (main.rs lines 73-100). -/
def buildRows (width height : Nat) :
    Nat → Bool → List (List Char) → List Cell × List Coordinate × Bool
  | _row, found, [] => ([], [], found)
  | row, found, r :: rest =>
    let a := buildRow width height row 0 found r
    let b := buildRows width height (row + 1) a.2.2 rest
    (a.1 ++ b.1, a.2.1 ++ b.2.1, b.2.2)

/-- `Grid::new` (main.rs lines 60-115), after the file has been read.
`none` models a panic: `maze_as_vec[0]` with no lines (empty input), or
`exit_coordinates.pop().unwrap()` with fewer than two boundary openings.
The source reverses `exit_coordinates` and pops twice, which selects the
first two coordinates in row-major scan order. -/
def Grid.new (text : List Char) : Option Grid :=
  match linesOf (trimChars (removeSpaces text)) with
  | [] => none
  | r0 :: rest =>
    match (buildRows r0.length (r0 :: rest).length 0 false (r0 :: rest)).2.1 with
    | e1 :: e2 :: _ =>
      some { width := r0.length, height := (r0 :: rest).length,
             entrance_location := e1, exit_location := e2,
             cells := (buildRows r0.length (r0 :: rest).length 0 false (r0 :: rest)).1 }
    | _ => none

/-! ### The frontier: `BinaryHeap<Cell>` with the custom `Ord`

`Ord for Cell` (main.rs lines 26-35) compares `self.cost.cmp(&other.cost).reverse()`:
a cell is *greater* in the heap order exactly when its `cost` is smaller.
`sift_up` and `sift_down_to_bottom` below are the implementations used by
`std::collections::BinaryHeap` for `push` and `pop`.
-/

/-- Placeholder cell for total list indexing; reachable code never relies on it. -/
def defaultCell : Cell := Cell.new ⟨0, 0⟩ CellType.Wall

/-- Total indexing into the backing store of a `Vec<Cell>`. -/
def lget (l : List Cell) (i : Nat) : Cell :=
  (l.get? i).getD defaultCell

/-- The loop of `BinaryHeap::sift_up` with the hole's element `elt` taken out:
climb while the element is strictly greater (here: strictly cheaper) than the
parent, then write the element at the hole. The first argument drives the
structural recursion: the hole index strictly decreases, so starting the
recursion with it makes the fuel-out branch coincide with the loop's own
exit (both can only happen at index 0, where both write `elt`). -/
def siftUpGo (start : Nat) (elt : Cell) : Nat → List Cell → Nat → List Cell
  | 0, a, pos => a.set pos elt
  | fuel + 1, a, pos =>
    if start < pos then
      if (lget a ((pos - 1) / 2)).cost ≤ elt.cost then a.set pos elt
      else siftUpGo start elt fuel (a.set pos (lget a ((pos - 1) / 2))) ((pos - 1) / 2)
    else a.set pos elt

/-- `BinaryHeap::sift_up(start, pos)`. -/
def sift_up (a : List Cell) (start pos : Nat) : List Cell :=
  siftUpGo start (lget a pos) pos a pos

/-- `BinaryHeap::push` (append, then sift up from the last position). -/
def heapPush (a : List Cell) (x : Cell) : List Cell :=
  sift_up (a ++ [x]) 0 a.length

/-- The descent loop of `BinaryHeap::sift_down_to_bottom`: move the hole to a
leaf, always through the greater (cheaper) child; returns the array with the
chain of children shifted up and the final hole position. The first `Nat`
drives the structural recursion; the hole index strictly increases and stays
below `endIdx`, so `endIdx` iterations always suffice and the fuel-out
branch is unreachable from `sift_down_to_bottom`. -/
def siftDownGo (endIdx : Nat) : Nat → List Cell → Nat → List Cell × Nat
  | 0, a, pos => (a, pos)
  | fuel + 1, a, pos =>
    if 2 * pos + 1 + 1 < endIdx then
      let child :=
        if (lget a (2 * pos + 1 + 1)).cost ≤ (lget a (2 * pos + 1)).cost
        then 2 * pos + 1 + 1 else 2 * pos + 1
      siftDownGo endIdx fuel (a.set pos (lget a child)) child
    else if 2 * pos + 1 = endIdx - 1 then
      (a.set pos (lget a (2 * pos + 1)), 2 * pos + 1)
    else (a, pos)

/-- `BinaryHeap::sift_down_to_bottom(pos)`: descend the hole to the bottom,
write the element there, then sift it back up towards `pos`. -/
def sift_down_to_bottom (a : List Cell) (pos : Nat) : List Cell :=
  sift_up
    ((siftDownGo a.length a.length a pos).1.set
      (siftDownGo a.length a.length a pos).2 (lget a pos))
    pos (siftDownGo a.length a.length a pos).2

/-- `BinaryHeap::pop`: remove the last element; if the heap is still
non-empty, swap it with the root and restore the heap shape. Returns the
popped element (the old root) and the remaining heap. -/
def heapPop (a : List Cell) : Option (Cell × List Cell) :=
  match a.getLast? with
  | none => none
  | some last =>
    if a.dropLast.isEmpty then some (last, a.dropLast)
    else some (lget a.dropLast 0, sift_down_to_bottom (a.dropLast.set 0 last) 0)

/-! ### The search (main.rs lines 118-189) -/

/-- `(neighbour_cell.coordinate.x as isize - maze.exit_location.x as isize)
.unsigned_abs() + ...` (main.rs line 180). -/
def manhattanDist (a b : Coordinate) : Nat :=
  ((a.x : Int) - (b.x : Int)).natAbs + ((a.y : Int) - (b.y : Int)).natAbs

/-- Neighbour generation (main.rs lines 139-151), in source order:
left, right, up, down, each guarded by the grid bounds. -/
def neighboursOf (width height : Nat) (c : Coordinate) : List Coordinate :=
  (if 0 < c.x then [Coordinate.mk (c.x - 1) c.y] else []) ++
  (if c.x < width - 1 then [Coordinate.mk (c.x + 1) c.y] else []) ++
  (if 0 < c.y then [Coordinate.mk c.x (c.y - 1)] else []) ++
  (if c.y < height - 1 then [Coordinate.mk c.x (c.y + 1)] else [])

/-- The mutable state of the search: the grid's cell vector, the
`open_set` heap backing store and the `closed_set`. -/
structure SearchState where
  cells : List Cell
  open_set : List Cell
  closed_set : List Coordinate
  deriving DecidableEq, Repr

/-- `HashSet::contains`. -/
def coordMem (s : List Coordinate) (c : Coordinate) : Bool :=
  s.any (fun x => x == c)

/-- `HashSet::insert` (the list is kept duplicate-free). -/
def closedInsert (s : List Coordinate) (c : Coordinate) : List Coordinate :=
  if coordMem s c then s else c :: s

/-- `HashSet::remove`. -/
def closedRemove (s : List Coordinate) (c : Coordinate) : List Coordinate :=
  s.filter (fun x => x ≠ c)

/-- The body of `for neighbour in neighbours` (main.rs lines 154-188) for a
single neighbour coordinate. `none` models the panic of
`maze.cells[neighbour.y * maze.width + neighbour.x]` going out of bounds. -/
def processNeighbour (g : Grid) (cur : Cell) (st : SearchState) (n : Coordinate) :
    Option SearchState :=
  if coordMem st.closed_set n then some st
  else
    match st.cells.get? (n.y * g.width + n.x) with
    | none => none
    | some ncell =>
      if ncell.cell_type = CellType.Wall ∨ ncell.cell_type = CellType.Entrance then some st
      else
        let tentative_cost := cur.cost + 1
        if ¬ st.open_set.any (fun x => x == ncell) ∨ tentative_cost < ncell.cost then
          let ncell2 : Cell :=
            { ncell with
              parent_coord := cur.coordinate
              cost := tentative_cost
              manhattan_from_exit := manhattanDist ncell.coordinate g.exit_location }
          let cells2 := st.cells.set (n.y * g.width + n.x) ncell2
          if ¬ st.open_set.any (fun x => x == ncell2) then
            some { cells := cells2
                   open_set := heapPush st.open_set ncell2
                   closed_set := closedRemove st.closed_set ncell2.coordinate }
          else
            some { st with cells := cells2 }
        else some st

/-- Process all neighbours in order. -/
def processNeighbours (g : Grid) (cur : Cell) :
    SearchState → List Coordinate → Option SearchState
  | st, [] => some st
  | st, n :: rest =>
    match processNeighbour g cur st n with
    | none => none
    | some st2 => processNeighbours g cur st2 rest

/-- Outcome of one iteration of the `while !open_set.is_empty()` loop. -/
inductive StepResult where
  | panic : StepResult
  | foundExit : Cell → SearchState → StepResult
  | emptied : SearchState → StepResult
  | next : SearchState → StepResult
  deriving DecidableEq, Repr

/-- One iteration of the search loop (main.rs lines 129-189): pop the
frontier (the loop guard makes the `unwrap` safe), break if the popped cell
is at the exit location, otherwise mark it visited and process its
neighbours. -/
def searchStep (g : Grid) (st : SearchState) : StepResult :=
  match heapPop st.open_set with
  | none => .emptied st
  | some (cur, rest) =>
    if cur.coordinate = g.exit_location then
      .foundExit cur { st with open_set := rest }
    else
      let st2 : SearchState :=
        { st with open_set := rest
                  closed_set := closedInsert st.closed_set cur.coordinate }
      match processNeighbours g cur st2 (neighboursOf g.width g.height cur.coordinate) with
      | none => .panic
      | some st3 => .next st3

/-- Outcome of the whole search loop. -/
inductive SearchOutcome where
  | panic : SearchOutcome
  | outOfFuel : SearchState → SearchOutcome
  | foundExit : Cell → SearchState → SearchOutcome
  | emptied : SearchState → SearchOutcome
  deriving DecidableEq, Repr

/-- The `while !open_set.is_empty()` loop, with fuel. -/
def searchLoop (g : Grid) : Nat → SearchState → SearchOutcome
  | 0, st => .outOfFuel st
  | fuel + 1, st =>
    match searchStep g st with
    | .panic => .panic
    | .foundExit c st2 => .foundExit c st2
    | .emptied st2 => .emptied st2
    | .next st2 => searchLoop g fuel st2

/-- The initial state (main.rs lines 123-128): fetch the entrance cell
(`none` models the indexing panic) and push it onto the empty frontier. -/
def initState (g : Grid) : Option SearchState :=
  match g.cells.get? (g.entrance_location.y * g.width + g.entrance_location.x) with
  | none => none
  | some c =>
    some { cells := g.cells, open_set := heapPush [] c, closed_set := [] }

/-! ### Path reconstruction (main.rs lines 191-199) -/

/-- Outcome of the backtracking loop. -/
inductive ReconResult where
  | panic : ReconResult
  | outOfFuel : ReconResult
  | path : List Coordinate → ReconResult
  deriving DecidableEq, Repr

/-- The `while current_cell.coordinate != maze.entrance_location` loop:
push the current coordinate and follow the parent link (`none` models the
indexing panic). The accumulator holds the pushed coordinates in reverse
push order, so prepending the entrance yields exactly the source's
`path.reverse()`d vector. -/
def reconstructGo (g : Grid) (cells : List Cell) :
    Nat → Cell → List Coordinate → ReconResult
  | fuel, cur, acc =>
    if cur.coordinate = g.entrance_location then
      .path (g.entrance_location :: acc)
    else
      match fuel with
      | 0 => .outOfFuel
      | fuel' + 1 =>
        match cells.get? (cur.parent_coord.y * g.width + cur.parent_coord.x) with
        | none => .panic
        | some nxt => reconstructGo g cells fuel' nxt (cur.coordinate :: acc)

/-- Path reconstruction (main.rs lines 191-199), starting from the cell at
the exit location. -/
def reconstruct (g : Grid) (cells : List Cell) (fuel : Nat) : ReconResult :=
  match cells.get? (g.exit_location.y * g.width + g.exit_location.x) with
  | none => .panic
  | some c => reconstructGo g cells fuel c []

/-! ### The whole pipeline (`main`, main.rs lines 118-203) -/

/-- Result of the whole program, viewed as maze text in, coordinate path out. -/
inductive SolveResult where
  | panic : SolveResult
  | outOfFuel : SolveResult
  | path : List Coordinate → SolveResult
  deriving DecidableEq, Repr

/-- The full pipeline: parse, search, reconstruct. Reconstruction runs
whether the loop ended by reaching the exit or by exhausting the frontier —
exactly as in the source, which falls through to the backtracking loop in
both cases. -/
def solve (fuel : Nat) (text : List Char) : SolveResult :=
  match Grid.new text with
  | none => .panic
  | some g =>
    match initState g with
    | none => .panic
    | some st0 =>
      match searchLoop g fuel st0 with
      | .panic => .panic
      | .outOfFuel _ => .outOfFuel
      | .foundExit _ stF =>
        match reconstruct g stF.cells fuel with
        | .panic => .panic
        | .outOfFuel => .outOfFuel
        | .path p => .path p
      | .emptied stF =>
        match reconstruct g stF.cells fuel with
        | .panic => .panic
        | .outOfFuel => .outOfFuel
        | .path p => .path p

/-! ### Spec-side characterisations used to state the claims -/

/-- The spec's boundary-opening rule for one row: a `'-'` on row 0, the last
row, column 0 or the last column, collected in scan order. -/
def specBoundaryOpeningsRow (width height row : Nat) : Nat → List Char → List Coordinate
  | _col, [] => []
  | col, ch :: rest =>
    if ch = '-' ∧ (row = 0 ∨ row = height - 1 ∨ col = 0 ∨ col = width - 1) then
      ⟨col, row⟩ :: specBoundaryOpeningsRow width height row (col + 1) rest
    else specBoundaryOpeningsRow width height row (col + 1) rest

/-- All boundary openings of a list of rows, in row-major scan order. -/
def specBoundaryOpeningsRows (width height : Nat) : Nat → List (List Char) → List Coordinate
  | _row, [] => []
  | row, r :: rest =>
    specBoundaryOpeningsRow width height row 0 r ++
      specBoundaryOpeningsRows width height (row + 1) rest

/-- The boundary openings of a maze text (after the source's preprocessing),
in row-major scan order, with the dimensions the source uses: width is the
first row's length, height the number of rows. -/
def specBoundaryOpenings (text : List Char) : List Coordinate :=
  match linesOf (trimChars (removeSpaces text)) with
  | [] => []
  | r0 :: rest => specBoundaryOpeningsRows r0.length (r0 :: rest).length 0 (r0 :: rest)

/-- 4-adjacency as the spec states it: the two coordinates differ by exactly
one in exactly one axis. -/
def fourAdjacent (a b : Coordinate) : Prop :=
  (a.x = b.x ∧ (a.y = b.y + 1 ∨ b.y = a.y + 1)) ∨
  (a.y = b.y ∧ (a.x = b.x + 1 ∨ b.x = a.x + 1))

instance (a b : Coordinate) : Decidable (fourAdjacent a b) := by
  unfold fourAdjacent; infer_instance

/-! ### The `exit_coordinates` vector is exactly the spec's boundary openings -/

theorem buildRow_exits (width height row : Nat) :
    ∀ (s : List Char) (col : Nat) (found : Bool),
      (buildRow width height row col found s).2.1 =
        specBoundaryOpeningsRow width height row col s := by
  intro s
  induction s with
  | nil => intro col found; rfl
  | cons ch rest ih =>
    intro col found
    simp only [buildRow, specBoundaryOpeningsRow]
    by_cases hc : ch = '-'
    · by_cases hb : row = 0 ∨ row = height - 1 ∨ col = 0 ∨ col = width - 1
      · cases found <;> simp [hc, hb, ih]
      · simp [hc, hb, ih]
    · by_cases hh : ch = '#'
      · simp [hc, hh, ih]
      · simp [hc, hh, ih]

theorem buildRows_exits (width height : Nat) :
    ∀ (rows : List (List Char)) (row : Nat) (found : Bool),
      (buildRows width height row found rows).2.1 =
        specBoundaryOpeningsRows width height row rows := by
  intro rows
  induction rows with
  | nil => intro row found; rfl
  | cons r rest ih =>
    intro row found
    simp only [buildRows, specBoundaryOpeningsRows]
    rw [buildRow_exits, ih]

/-! ### Claim C3 -/

/-- Claim C3, counterexample: on the concrete empty input, grid construction
does not surface a recoverable error — it reaches `maze_as_vec[0]` with no
rows and panics (modelled by `none`); the function's only error type,
`std::io::Error`, is produced solely by the file read, never by parsing. -/
theorem C3_counterexample : Grid.new [] = none := by rfl

/-- Claim C3, amended: for every input that is empty or has fewer than two
boundary openings, grid construction panics (`maze_as_vec[0]` out of bounds,
or `exit_coordinates.pop().unwrap()` on `None`) instead of returning a grid
or a recoverable parse error. -/
theorem C3_amended_panic (text : List Char)
    (h : (specBoundaryOpenings text).length < 2) :
    Grid.new text = none := by
  unfold Grid.new
  unfold specBoundaryOpenings at h
  cases hrows : linesOf (trimChars (removeSpaces text)) with
  | nil => rfl
  | cons r0 rest =>
    rw [hrows] at h
    dsimp only at h ⊢
    rw [buildRows_exits]
    cases hspec : specBoundaryOpeningsRows r0.length (r0 :: rest).length 0 (r0 :: rest) with
    | nil => rfl
    | cons e1 tail =>
      cases tail with
      | nil => rfl
      | cons e2 tail2 =>
        rw [hspec] at h
        simp only [List.length_cons] at h
        omega

/-- Witness for C3's amended theorem: the input `-##` / `###` has exactly one
boundary opening and construction panics on it. -/
theorem C3_amended_witness :
    (specBoundaryOpenings ("-##\n###".toList)).length < 2 ∧
      Grid.new ("-##\n###".toList) = none :=
  ⟨by decide, C3_amended_panic _ (by decide)⟩

/-! ### Claim C8 -/

/-- Claim C8: when the maze text has at least two boundary openings (`'-'`
cells on row 0, the last row, column 0 or the last column — exactly the
cells `specBoundaryOpenings` collects), grid construction succeeds, the
entrance is the first such opening in row-major scan order and the exit is
the second. -/
theorem C8_entrance_exit (text : List Char) (e1 e2 : Coordinate)
    (rest : List Coordinate)
    (h : specBoundaryOpenings text = e1 :: e2 :: rest) :
    ∃ g : Grid, Grid.new text = some g ∧
      g.entrance_location = e1 ∧ g.exit_location = e2 := by
  unfold Grid.new
  unfold specBoundaryOpenings at h
  cases hrows : linesOf (trimChars (removeSpaces text)) with
  | nil => rw [hrows] at h; simp at h
  | cons r0 rows =>
    rw [hrows] at h
    dsimp only at h ⊢
    rw [buildRows_exits, h]
    exact ⟨_, rfl, rfl, rfl⟩

/-- Witness for C8 on the spec's 3×3 example maze. -/
theorem C8_witness :
    specBoundaryOpenings ("-#-\n---\n-#-".toList) =
      ([⟨0, 0⟩, ⟨2, 0⟩, ⟨0, 1⟩, ⟨2, 1⟩, ⟨0, 2⟩, ⟨2, 2⟩] : List Coordinate) ∧
    ∃ g : Grid, Grid.new ("-#-\n---\n-#-".toList) = some g ∧
      g.entrance_location = ⟨0, 0⟩ ∧ g.exit_location = ⟨2, 0⟩ :=
  ⟨by decide,
   C8_entrance_exit ("-#-\n---\n-#-".toList) ⟨0, 0⟩ ⟨2, 0⟩
     [⟨0, 1⟩, ⟨2, 1⟩, ⟨0, 2⟩, ⟨2, 2⟩] (by decide)⟩

/-! ### Claim C9 -/

/-- Claim C9: the solve is deterministic. The whole pipeline is a pure
function of the maze text (the heap and set operations are deterministic in
the cell data; the source consults no clock, randomness or iteration order
of the hash set), so solving two freshly parsed copies of equal maze texts
yields identical results. -/
theorem C9_deterministic (fuel : Nat) (t1 t2 : List Char) (h : t1 = t2) :
    solve fuel t1 = solve fuel t2 := by rw [h]

/-- Witness for C9 on the spec's example maze. -/
theorem C9_witness :
    "-#-\n---\n-#-".toList = "-#-\n---\n-#-".toList ∧
      solve 30 ("-#-\n---\n-#-".toList) = solve 30 ("-#-\n---\n-#-".toList) :=
  ⟨rfl, C9_deterministic 30 ("-#-\n---\n-#-".toList) ("-#-\n---\n-#-".toList) rfl⟩

/-! ### Claim C4 -/

/-- A maze whose exit `(2,2)` is sealed off from the entrance `(0,0)` by walls. -/
def mazeNoPath : List Char := "-##\n###\n##-".toList

/-- Parse a maze text and run the search loop on it. -/
def searchOutcomeOf (fuel : Nat) (text : List Char) : Option SearchOutcome :=
  (Grid.new text).bind fun g => (initState g).map fun st0 => searchLoop g fuel st0

/-- Recognise the frontier-exhausted outcome. -/
def isEmptiedOutcome : Option SearchOutcome → Bool
  | some (SearchOutcome.emptied _) => true
  | _ => false

/-- Claim C4, counterexample: on `mazeNoPath` the exit is unreachable and the
frontier does empty, but the program then yields the two-element sequence
`[(0,0), (2,2)]` — a spurious "path" whose two cells are not even adjacent —
instead of any `NoPathFound` result (no such result exists in the code: after
the loop it unconditionally prints "Solution found." and backtracks). -/
theorem C4_counterexample :
    isEmptiedOutcome (searchOutcomeOf 10 mazeNoPath) = true ∧
      solve 10 mazeNoPath = SolveResult.path [⟨0, 0⟩, ⟨2, 2⟩] ∧
      ¬ fourAdjacent ⟨0, 0⟩ ⟨2, 2⟩ :=
  ⟨by decide, by decide, by decide⟩

/-- Claim C4, amended: when the frontier empties without the exit having been
popped, the solve does not surface any `NoPathFound` (or other error) value —
it falls through to backtracking reconstruction on the exit cell's default
parent data and returns whatever that loop produces (on `mazeNoPath`, the
spurious sequence `[(0,0), (2,2)]`). -/
theorem C4_amended_reconstructs_anyway (fuel : Nat) (text : List Char)
    (g : Grid) (st0 stF : SearchState)
    (hg : Grid.new text = some g) (hi : initState g = some st0)
    (hloop : searchLoop g fuel st0 = SearchOutcome.emptied stF) :
    solve fuel text =
      (match reconstruct g stF.cells fuel with
       | ReconResult.panic => SolveResult.panic
       | ReconResult.outOfFuel => SolveResult.outOfFuel
       | ReconResult.path p => SolveResult.path p) := by
  unfold solve
  rw [hg]
  dsimp only
  rw [hi]
  dsimp only
  rw [hloop]

/-- The grid `mazeNoPath` parses to. -/
def gridNP : Grid :=
  { width := 3, height := 3, entrance_location := ⟨0, 0⟩, exit_location := ⟨2, 2⟩,
    cells :=
      [Cell.new ⟨0, 0⟩ CellType.Entrance, Cell.new ⟨1, 0⟩ CellType.Wall,
       Cell.new ⟨2, 0⟩ CellType.Wall, Cell.new ⟨0, 1⟩ CellType.Wall,
       Cell.new ⟨1, 1⟩ CellType.Wall, Cell.new ⟨2, 1⟩ CellType.Wall,
       Cell.new ⟨0, 2⟩ CellType.Wall, Cell.new ⟨1, 2⟩ CellType.Wall,
       Cell.new ⟨2, 2⟩ CellType.Exit] }

/-- The initial search state on `gridNP`. -/
def stateNP0 : SearchState :=
  { cells := gridNP.cells, open_set := [Cell.new ⟨0, 0⟩ CellType.Entrance],
    closed_set := [] }

/-- The state in which the frontier empties on `gridNP`. -/
def stateNPF : SearchState :=
  { cells := gridNP.cells, open_set := [], closed_set := [⟨0, 0⟩] }

/-- Witness for C4's amended theorem, instantiated on `mazeNoPath`. -/
theorem C4_amended_witness :
    solve 10 mazeNoPath =
      (match reconstruct gridNP stateNPF.cells 10 with
       | ReconResult.panic => SolveResult.panic
       | ReconResult.outOfFuel => SolveResult.outOfFuel
       | ReconResult.path p => SolveResult.path p) :=
  C4_amended_reconstructs_anyway 10 mazeNoPath gridNP stateNP0 stateNPF
    (by decide) (by decide) (by decide)

/-! ### Claim C10 -/

/-- A `Grid` whose cell vector has exactly `width * height` entries (the
claim's only hypothesis) but whose one cell stores an out-of-range
coordinate, so the very first neighbour index is out of bounds. -/
def gridBad : Grid :=
  { width := 1, height := 1, entrance_location := ⟨0, 0⟩, exit_location := ⟨9, 9⟩,
    cells := [Cell.new ⟨5, 5⟩ CellType.Path] }

/-- Claim C10, counterexample: `gridBad.cells` has exactly
`width * height = 1` entry, yet the first search step panics — the popped
cell's stored coordinate `(5,5)` yields the neighbour `(4,5)` and the
row-major index `5 * 1 + 4 = 9` is out of bounds for the one-element cell
vector. The claim needs the cells' stored coordinates to agree with their
row-major positions (which holds for every parsed grid). -/
theorem C10_counterexample :
    gridBad.cells.length = gridBad.width * gridBad.height ∧
      (initState gridBad).map (fun st0 => searchStep gridBad st0) =
        some StepResult.panic :=
  ⟨by decide, by decide⟩

/-! ### Claim C5 -/

/-- The update written into a neighbour cell (main.rs lines 178-180):
parent becomes the popped cell's coordinate, cost becomes the tentative
cost, and the heuristic becomes the Manhattan distance to the exit. -/
def updatedCell (g : Grid) (cur : Cell) (ncell : Cell) : Cell :=
  { ncell with
    parent_coord := cur.coordinate
    cost := cur.cost + 1
    manhattan_from_exit := manhattanDist ncell.coordinate g.exit_location }

/-- Claim C5: for a neighbour that is not in the visited set and whose cell
is neither Wall nor Entrance, the cell is updated exactly when it has no
copy in the frontier or the tentative cost `cur.cost + 1` beats its stored
cost; the update writes `updatedCell`, and when the updated cell is not
present in the frontier it is pushed and its coordinate is removed from the
visited set; otherwise the frontier and visited set are untouched. -/
theorem C5_neighbour_update (g : Grid) (cur : Cell) (st : SearchState)
    (n : Coordinate) (ncell : Cell)
    (hclosed : coordMem st.closed_set n = false)
    (hget : st.cells.get? (n.y * g.width + n.x) = some ncell)
    (hw : ncell.cell_type ≠ CellType.Wall)
    (he : ncell.cell_type ≠ CellType.Entrance) :
    processNeighbour g cur st n =
      some
        (if ¬ st.open_set.any (fun x => x == ncell) ∨ cur.cost + 1 < ncell.cost then
          if ¬ st.open_set.any (fun x => x == updatedCell g cur ncell) then
            { cells := st.cells.set (n.y * g.width + n.x) (updatedCell g cur ncell)
              open_set := heapPush st.open_set (updatedCell g cur ncell)
              closed_set := closedRemove st.closed_set ncell.coordinate }
          else { st with cells := st.cells.set (n.y * g.width + n.x) (updatedCell g cur ncell) }
        else st) := by
  unfold processNeighbour updatedCell
  rw [hclosed, hget]
  simp only [Bool.false_eq_true, if_false, hw, he, or_self, if_neg, not_false_iff]
  split
  · split
    · rfl
    · rfl
  · rfl

/-- The entrance cell of `gridNP`. -/
def entCellNP : Cell := Cell.new ⟨0, 0⟩ CellType.Entrance

/-- The exit cell of `gridNP` in its initial state. -/
def exitCellNP : Cell := Cell.new ⟨2, 2⟩ CellType.Exit

/-- Witness for C5 in the initial state of `gridNP`: the exit cell is a
fresh non-wall, non-entrance neighbour of the popped entrance cell. -/
theorem C5_witness :
    coordMem stateNP0.closed_set ⟨2, 2⟩ = false ∧
    stateNP0.cells.get? (2 * gridNP.width + 2) = some exitCellNP ∧
    exitCellNP.cell_type ≠ CellType.Wall ∧
    exitCellNP.cell_type ≠ CellType.Entrance ∧
    processNeighbour gridNP entCellNP stateNP0 ⟨2, 2⟩ =
      some
        (if ¬ stateNP0.open_set.any (fun x => x == exitCellNP) ∨
            entCellNP.cost + 1 < exitCellNP.cost then
          if ¬ stateNP0.open_set.any
              (fun x => x == updatedCell gridNP entCellNP exitCellNP) then
            { cells := stateNP0.cells.set (2 * gridNP.width + 2)
                (updatedCell gridNP entCellNP exitCellNP)
              open_set := heapPush stateNP0.open_set (updatedCell gridNP entCellNP exitCellNP)
              closed_set := closedRemove stateNP0.closed_set exitCellNP.coordinate }
          else
            { stateNP0 with
              cells := stateNP0.cells.set (2 * gridNP.width + 2)
                (updatedCell gridNP entCellNP exitCellNP) }
        else stateNP0) :=
  ⟨by decide, by decide, by decide, by decide,
   C5_neighbour_update gridNP entCellNP stateNP0 ⟨2, 2⟩ exitCellNP
     (by decide) (by decide) (by decide) (by decide)⟩

/-! ### Claim C2 -/

/-- A maze on which the frontier holds two cells whose `cost + heuristic`
totals differ while their `cost`s are equal. Entrance `(2,0)`, exit `(3,3)`;
after the junction `(2,1)` is expanded, the frontier holds `(1,1)` (leading
away from the exit, total 6) and `(3,1)` (leading towards it, total 4). -/
def mazeC2 : List Char := "##-##\n#---#\n###-#\n###--".toList

/-- Iterate `searchStep` a given number of `next` steps. -/
def afterSteps (g : Grid) : Nat → SearchState → Option SearchState
  | 0, st => some st
  | n + 1, st =>
    match searchStep g st with
    | StepResult.next st2 => afterSteps g n st2
    | _ => none

/-- The cell the heap pops third on `mazeC2`: away from the exit, total
estimate `2 + 4 = 6`. -/
def cellAway : Cell :=
  { cell_type := CellType.Path, coordinate := ⟨1, 1⟩, parent_coord := ⟨2, 1⟩,
    manhattan_from_exit := 4, cost := 2 }

/-- The cell left in the frontier at that pop: towards the exit, total
estimate `2 + 2 = 4`. -/
def cellTowards : Cell :=
  { cell_type := CellType.Path, coordinate := ⟨3, 1⟩, parent_coord := ⟨2, 1⟩,
    manhattan_from_exit := 2, cost := 2 }

/-- Claim C2, counterexample: on `mazeC2`, after two loop iterations the
frontier is `[cellAway, cellTowards]` and the heap pops `cellAway`, whose
total estimate `cost + heuristic = 6` is *not* minimal — `cellTowards` has
total 4. The heap's `Ord for Cell` compares `cost` alone (reversed) and
never consults `manhattan_from_exit`, so the popped cell is only minimal in
`cost`, not in `cost + heuristic`. -/
theorem C2_counterexample :
    ((Grid.new mazeC2).bind fun g => (initState g).bind fun st0 =>
        (afterSteps g 2 st0).bind fun st =>
          (heapPop st.open_set).map fun pr => (pr.1, st.open_set)) =
      some (cellAway, [cellAway, cellTowards]) ∧
      cellTowards.cost + cellTowards.manhattan_from_exit <
        cellAway.cost + cellAway.manhattan_from_exit :=
  ⟨by decide, by decide⟩

/-! ### List indexing and counting lemmas -/

theorem lget_set_self (a : List Cell) (i : Nat) (v : Cell) (h : i < a.length) :
    lget (a.set i v) i = v := by
  simp [lget, List.getElem?_set_eq_of_lt, h]

theorem lget_set_ne (a : List Cell) (i j : Nat) (v : Cell) (h : i ≠ j) :
    lget (a.set i v) j = lget a j := by
  simp [lget, List.getElem?_set_ne, h]

theorem lget_append_lt (a b : List Cell) (i : Nat) (h : i < a.length) :
    lget (a ++ b) i = lget a i := by
  simp [lget, List.getElem?_append_left, h]

theorem lget_append_len (a : List Cell) (c : Cell) :
    lget (a ++ [c]) a.length = c := by
  simp [lget, List.getElem?_append_right (Nat.le_refl a.length)]

/-- Occurrence count of a cell value in a list (the multiset view of the
heap's backing vector). -/
def ccount (x : Cell) : List Cell → Nat
  | [] => 0
  | y :: l => (if y = x then 1 else 0) + ccount x l

theorem ccount_append (x : Cell) (a b : List Cell) :
    ccount x (a ++ b) = ccount x a + ccount x b := by
  induction a with
  | nil => simp [ccount]
  | cons y l ih => simp [ccount, ih]; omega

theorem ccount_pos_iff_mem (x : Cell) (l : List Cell) :
    0 < ccount x l ↔ x ∈ l := by
  induction l with
  | nil => simp [ccount]
  | cons y l ih =>
    by_cases h : y = x
    · subst h; simp [ccount]
    · simp [ccount, h, ih]
      exact fun hx => (h hx.symm).elim

theorem ccount_set (x v : Cell) :
    ∀ (a : List Cell) (i : Nat), i < a.length →
      ccount x (a.set i v) + (if lget a i = x then 1 else 0) =
        ccount x a + (if v = x then 1 else 0) := by
  intro a
  induction a with
  | nil => intro i h; simp at h
  | cons hd tl ih =>
    intro i h
    cases i with
    | zero =>
      simp only [List.set, ccount, lget, List.get?, Option.getD_some]
      omega
    | succ n =>
      simp only [List.set, ccount, lget, List.get?] at *
      have := ih n (by simpa using Nat.lt_of_succ_lt_succ h)
      simp only [lget] at this
      omega

/-! ### The heap-order invariant and minimality of the root

Under the source's `Ord for Cell` (cost compared, reversed) the Rust
max-heap property reads: every parent's `cost` is at most its children's. -/

/-- The binary-heap shape invariant of the frontier's backing vector. -/
def heapOrdered (a : List Cell) : Prop :=
  ∀ i, 0 < i → i < a.length → (lget a ((i - 1) / 2)).cost ≤ (lget a i).cost

/-- Heap order away from a hole position. -/
def holeOrdered (a : List Cell) (pos : Nat) : Prop :=
  ∀ i, 0 < i → i < a.length → i ≠ pos → (i - 1) / 2 ≠ pos →
    (lget a ((i - 1) / 2)).cost ≤ (lget a i).cost

/-- A cost lower bound on the children of a position. -/
def childrenAbove (a : List Cell) (pos : Nat) (c : Cell) : Prop :=
  ∀ i, 0 < i → i < a.length → (i - 1) / 2 = pos → c.cost ≤ (lget a i).cost

theorem heapOrdered_root_min (a : List Cell) (h : heapOrdered a) :
    ∀ i, i < a.length → (lget a 0).cost ≤ (lget a i).cost := by
  intro i
  induction i using Nat.strong_induction_on with
  | _ i ih =>
    intro hi
    rcases Nat.eq_zero_or_pos i with h0 | h0
    · subst h0; exact Nat.le_refl _
    · have hpar : (i - 1) / 2 < i := by omega
      exact Nat.le_trans
        (ih ((i - 1) / 2) hpar (Nat.lt_trans hpar hi)) (h i h0 hi)

/-! ### `sift_up` restores the heap order -/

theorem siftUpGo_length (start : Nat) (elt : Cell) :
    ∀ (fuel : Nat) (a : List Cell) (pos : Nat),
      (siftUpGo start elt fuel a pos).length = a.length := by
  intro fuel
  induction fuel with
  | zero => intro a pos; simp [siftUpGo]
  | succ n ih =>
    intro a pos
    simp only [siftUpGo]
    split
    · split
      · simp
      · rw [ih]; simp
    · simp

theorem siftUpGo_heapOrdered (elt : Cell) :
    ∀ (fuel : Nat) (a : List Cell) (pos : Nat),
      pos < a.length → pos ≤ fuel →
      holeOrdered a pos →
      childrenAbove a pos elt →
      (0 < pos → childrenAbove a pos (lget a ((pos - 1) / 2))) →
      heapOrdered (siftUpGo 0 elt fuel a pos) := by
  intro fuel
  induction fuel with
  | zero =>
    intro a pos hlen hfuel hhole hkids _hpar
    have hpos : pos = 0 := Nat.le_zero.mp hfuel
    subst hpos
    simp only [siftUpGo]
    intro i hi hilen
    rw [List.length_set] at hilen
    have hine : i ≠ 0 := Nat.pos_iff_ne_zero.mp hi
    rw [lget_set_ne a 0 i elt (fun hz => hine hz.symm)]
    by_cases hp : (i - 1) / 2 = 0
    · rw [hp, lget_set_self a 0 elt hlen]
      exact hkids i hi hilen hp
    · rw [lget_set_ne a 0 _ elt (fun hz => hp hz.symm)]
      exact hhole i hi hilen hine hp
  | succ n ih =>
    intro a pos hlen hfuel hhole hkids hpar
    simp only [siftUpGo]
    by_cases hstart : 0 < pos
    · rw [if_pos hstart]
      by_cases hstop : (lget a ((pos - 1) / 2)).cost ≤ elt.cost
      · rw [if_pos hstop]
        intro i hi hilen
        rw [List.length_set] at hilen
        by_cases hie : i = pos
        · subst hie
          rw [lget_set_self a i elt hlen,
            lget_set_ne a i ((i - 1) / 2) elt (by omega)]
          exact hstop
        · rw [lget_set_ne a pos i elt (fun hz => hie hz.symm)]
          by_cases hp : (i - 1) / 2 = pos
          · rw [hp, lget_set_self a pos elt hlen]
            exact hkids i hi hilen hp
          · rw [lget_set_ne a pos _ elt (fun hz => hp hz.symm)]
            exact hhole i hi hilen hie hp
      · rw [if_neg hstop]
        have hplt : (pos - 1) / 2 < pos := by omega
        have hplen : (pos - 1) / 2 < a.length := Nat.lt_trans hplt hlen
        apply ih
        · rw [List.length_set]; exact hplen
        · omega
        · -- holeOrdered after moving the parent value down into the hole
          intro i hi hilen hie hp
          rw [List.length_set] at hilen
          by_cases hipos : i = pos
          · -- pair (parent of pos, pos): parent is the new hole, excluded
            subst hipos
            exact absurd rfl hp
          · rw [lget_set_ne a pos i _ (fun hz => hipos hz.symm)]
            by_cases hppos : (i - 1) / 2 = pos
            · -- pair (pos, child of pos): new value at pos is the old parent
              rw [hppos, lget_set_self a pos _ hlen]
              exact hpar hstart i hi hilen hppos
            · rw [lget_set_ne a pos _ _ (fun hz => hppos hz.symm)]
              exact hhole i hi hilen hipos hppos
        · -- the element is cheaper than everything now below the new hole
          intro i hi hilen hp
          rw [List.length_set] at hilen
          by_cases hipos : i = pos
          · subst hipos
            rw [lget_set_self a i _ hlen]
            omega
          · rw [lget_set_ne a pos i _ (fun hz => hipos hz.symm)]
            have hsib := hhole i hi hilen hipos (by omega)
            rw [hp] at hsib
            omega
        · -- the grandparent bounds the new hole's children
          intro hn0 i hi hilen hp
          rw [List.length_set] at hilen
          rw [lget_set_ne a pos ((((pos - 1) / 2) - 1) / 2) _ (by omega)]
          by_cases hipos : i = pos
          · subst hipos
            rw [lget_set_self a i _ hlen]
            exact hhole ((i - 1) / 2) hn0 hplen (by omega) (by omega)
          · rw [lget_set_ne a pos i _ (fun hz => hipos hz.symm)]
            have h1 := hhole ((pos - 1) / 2) hn0 hplen (by omega) (by omega)
            have h2 := hhole i hi hilen hipos (by omega)
            rw [hp] at h2
            omega
    · rw [if_neg hstart]
      have hpos : pos = 0 := by omega
      subst hpos
      intro i hi hilen
      rw [List.length_set] at hilen
      have hine : i ≠ 0 := Nat.pos_iff_ne_zero.mp hi
      rw [lget_set_ne a 0 i elt (fun hz => hine hz.symm)]
      by_cases hp : (i - 1) / 2 = 0
      · rw [hp, lget_set_self a 0 elt hlen]
        exact hkids i hi hilen hp
      · rw [lget_set_ne a 0 _ elt (fun hz => hp hz.symm)]
        exact hhole i hi hilen hine hp

/-! ### `sift_down_to_bottom` restores the heap order -/

theorem lget_dropLast (a : List Cell) (i : Nat) (h : i < a.length - 1) :
    lget a.dropLast i = lget a i := by
  have hi : i < a.length := by omega
  simp [lget, List.getElem?_dropLast, h, List.getElem?_eq_getElem hi]

theorem siftDownGo_spec :
    ∀ (fuel : Nat) (a : List Cell) (pos : Nat),
      pos < a.length → a.length ≤ fuel + pos →
      holeOrdered a pos →
      (0 < pos → childrenAbove a pos (lget a ((pos - 1) / 2))) →
      (siftDownGo a.length fuel a pos).1.length = a.length ∧
        (siftDownGo a.length fuel a pos).2 < a.length ∧
        a.length ≤ 2 * (siftDownGo a.length fuel a pos).2 + 1 ∧
        holeOrdered (siftDownGo a.length fuel a pos).1
          (siftDownGo a.length fuel a pos).2 := by
  intro fuel
  induction fuel with
  | zero => intro a pos hpos hfuel _ _; omega
  | succ n ih =>
    intro a pos hpos hfuel hhole hpar
    simp only [siftDownGo]
    by_cases h2 : 2 * pos + 1 + 1 < a.length
    · rw [if_pos h2]
      by_cases hc : (lget a (2 * pos + 1 + 1)).cost ≤ (lget a (2 * pos + 1)).cost
      · rw [if_pos hc]
        have hlen2 : ((a.set pos (lget a (2 * pos + 1 + 1)))).length = a.length := by
          simp
        have hhole2 : holeOrdered (a.set pos (lget a (2 * pos + 1 + 1))) (2 * pos + 1 + 1) := by
          intro i hi hilen hie hp
          rw [List.length_set] at hilen
          by_cases hipos : i = pos
          · subst hipos
            rw [lget_set_self a i _ (by omega),
              lget_set_ne a i ((i - 1) / 2) _ (by omega)]
            exact hpar hi (2 * i + 1 + 1) (by omega) (by omega) (by omega)
          · rw [lget_set_ne a pos i _ (fun hz => hipos hz.symm)]
            by_cases hppos : (i - 1) / 2 = pos
            · have hi1 : i = 2 * pos + 1 := by omega
              subst hi1
              rw [hppos, lget_set_self a pos _ (by omega)]
              exact hc
            · rw [lget_set_ne a pos _ _ (fun hz => hppos hz.symm)]
              exact hhole i hi hilen hipos hppos
        have hpar2 : 0 < 2 * pos + 1 + 1 →
            childrenAbove (a.set pos (lget a (2 * pos + 1 + 1))) (2 * pos + 1 + 1)
              (lget (a.set pos (lget a (2 * pos + 1 + 1))) ((2 * pos + 1 + 1 - 1) / 2)) := by
          intro _ i hi hilen hp
          rw [List.length_set] at hilen
          have hpp : (2 * pos + 1 + 1 - 1) / 2 = pos := by omega
          rw [hpp, lget_set_self a pos _ (by omega),
            lget_set_ne a pos i _ (by omega)]
          have hx := hhole i hi hilen (by omega) (by omega)
          rw [hp] at hx
          exact hx
        obtain ⟨l1, l2, l3, l4⟩ :=
          ih (a.set pos (lget a (2 * pos + 1 + 1))) (2 * pos + 1 + 1)
            (by rw [hlen2]; omega) (by rw [hlen2]; omega) hhole2 hpar2
        rw [hlen2] at l1 l2 l3 l4
        exact ⟨l1, l2, l3, l4⟩
      · rw [if_neg hc]
        have hlen2 : ((a.set pos (lget a (2 * pos + 1)))).length = a.length := by
          simp
        have hhole2 : holeOrdered (a.set pos (lget a (2 * pos + 1))) (2 * pos + 1) := by
          intro i hi hilen hie hp
          rw [List.length_set] at hilen
          by_cases hipos : i = pos
          · subst hipos
            rw [lget_set_self a i _ (by omega),
              lget_set_ne a i ((i - 1) / 2) _ (by omega)]
            exact hpar hi (2 * i + 1) (by omega) (by omega) (by omega)
          · rw [lget_set_ne a pos i _ (fun hz => hipos hz.symm)]
            by_cases hppos : (i - 1) / 2 = pos
            · have hi1 : i = 2 * pos + 1 + 1 := by omega
              subst hi1
              rw [hppos, lget_set_self a pos _ (by omega)]
              omega
            · rw [lget_set_ne a pos _ _ (fun hz => hppos hz.symm)]
              exact hhole i hi hilen hipos hppos
        have hpar2 : 0 < 2 * pos + 1 →
            childrenAbove (a.set pos (lget a (2 * pos + 1))) (2 * pos + 1)
              (lget (a.set pos (lget a (2 * pos + 1))) ((2 * pos + 1 - 1) / 2)) := by
          intro _ i hi hilen hp
          rw [List.length_set] at hilen
          have hpp : (2 * pos + 1 - 1) / 2 = pos := by omega
          rw [hpp, lget_set_self a pos _ (by omega),
            lget_set_ne a pos i _ (by omega)]
          have hx := hhole i hi hilen (by omega) (by omega)
          rw [hp] at hx
          exact hx
        obtain ⟨l1, l2, l3, l4⟩ :=
          ih (a.set pos (lget a (2 * pos + 1))) (2 * pos + 1)
            (by rw [hlen2]; omega) (by rw [hlen2]; omega) hhole2 hpar2
        rw [hlen2] at l1 l2 l3 l4
        exact ⟨l1, l2, l3, l4⟩
    · rw [if_neg h2]
      by_cases h3 : 2 * pos + 1 = a.length - 1
      · rw [if_pos h3]
        refine ⟨by simp, by omega, by omega, ?_⟩
        intro i hi hilen hie hp
        rw [List.length_set] at hilen
        by_cases hipos : i = pos
        · subst hipos
          rw [lget_set_self a i _ (by omega),
            lget_set_ne a i ((i - 1) / 2) _ (by omega)]
          exact hpar hi (2 * i + 1) (by omega) (by omega) (by omega)
        · rw [lget_set_ne a pos i _ (fun hz => hipos hz.symm)]
          by_cases hppos : (i - 1) / 2 = pos
          · omega
          · rw [lget_set_ne a pos _ _ (fun hz => hppos hz.symm)]
            exact hhole i hi hilen hipos hppos
      · rw [if_neg h3]
        exact ⟨rfl, hpos, by omega, hhole⟩

theorem sift_down_to_bottom_heapOrdered (a : List Cell)
    (h0 : 0 < a.length) (hhole : holeOrdered a 0) :
    heapOrdered (sift_down_to_bottom a 0) := by
  unfold sift_down_to_bottom sift_up
  obtain ⟨l1, l2, l3, l4⟩ :=
    siftDownGo_spec a.length a 0 h0 (by omega) hhole (by omega)
  rw [lget_set_self _ _ _ (by rw [l1]; exact l2)]
  apply siftUpGo_heapOrdered
  · rw [List.length_set, l1]; exact l2
  · exact Nat.le_refl _
  · intro i hi hilen hie hp
    rw [List.length_set] at hilen
    rw [lget_set_ne _ _ i _ (fun hz => hie hz.symm),
      lget_set_ne _ _ _ _ (fun hz => hp hz.symm)]
    exact l4 i hi hilen hie hp
  · intro i hi hilen hp
    rw [List.length_set, l1] at hilen
    omega
  · intro hpos i hi hilen hp
    rw [List.length_set, l1] at hilen
    omega

/-! ### `push` and `pop` preserve the heap order; `pop` takes the root -/

theorem heapPush_heapOrdered (a : List Cell) (c : Cell) (h : heapOrdered a) :
    heapOrdered (heapPush a c) := by
  unfold heapPush sift_up
  rw [lget_append_len]
  apply siftUpGo_heapOrdered
  · simp
  · exact Nat.le_refl _
  · intro i hi hilen hie hp
    rw [List.length_append, List.length_cons, List.length_nil] at hilen
    have hia : i < a.length := by omega
    rw [lget_append_lt a [c] i hia, lget_append_lt a [c] _ (by omega)]
    exact h i hi hia
  · intro i hi hilen hp
    rw [List.length_append, List.length_cons, List.length_nil] at hilen
    omega
  · intro hpos i hi hilen hp
    rw [List.length_append, List.length_cons, List.length_nil] at hilen
    omega

theorem heapPop_fst (a : List Cell) (c : Cell) (rest : List Cell)
    (hp : heapPop a = some (c, rest)) : c = lget a 0 := by
  unfold heapPop at hp
  cases hl : a.getLast? with
  | none => rw [hl] at hp; exact absurd hp (by simp)
  | some last =>
    rw [hl] at hp
    dsimp only at hp
    have hlast : lget a (a.length - 1) = last := by
      rw [List.getLast?_eq_getElem?] at hl
      simp [lget, hl]
    have hne : a ≠ [] := by
      intro hz; subst hz; simp at hl
    have hlen0 : 0 < a.length := List.length_pos.mpr hne
    by_cases he : a.dropLast.isEmpty = true
    · rw [if_pos he] at hp
      have h1 : a.length = 1 := by
        have := List.isEmpty_iff.mp he
        have := congrArg List.length this
        rw [List.length_dropLast] at this
        simp at this
        omega
      have : c = last := by
        injection hp with h'
        injection h' with h1' h2'
        exact h1'.symm
      rw [this, ← hlast, h1]
    · rw [if_neg he] at hp
      have hne' : a.dropLast ≠ [] := fun hz => he (by simp [hz])
      have hlen' : 0 < a.dropLast.length := List.length_pos.mpr hne'
      rw [List.length_dropLast] at hlen'
      have : c = lget a.dropLast 0 := by
        injection hp with h'
        injection h' with h1' h2'
        exact h1'.symm
      rw [this, lget_dropLast a 0 (by omega)]

theorem heapPop_heapOrdered (a : List Cell) (c : Cell) (rest : List Cell)
    (h : heapOrdered a) (hp : heapPop a = some (c, rest)) :
    heapOrdered rest := by
  unfold heapPop at hp
  cases hl : a.getLast? with
  | none => rw [hl] at hp; exact absurd hp (by simp)
  | some last =>
    rw [hl] at hp
    dsimp only at hp
    by_cases he : a.dropLast.isEmpty = true
    · rw [if_pos he] at hp
      have hrest : rest = a.dropLast := by
        injection hp with h'
        injection h' with h1' h2'
        exact h2'.symm
      rw [hrest, List.isEmpty_iff.mp he]
      intro i hi hilen
      simp at hilen
    · rw [if_neg he] at hp
      have hne' : a.dropLast ≠ [] := fun hz => he (by simp [hz])
      have hlen' : 0 < a.dropLast.length := List.length_pos.mpr hne'
      have hrest : rest = sift_down_to_bottom (a.dropLast.set 0 last) 0 := by
        injection hp with h'
        injection h' with h1' h2'
        exact h2'.symm
      rw [hrest]
      apply sift_down_to_bottom_heapOrdered
      · rw [List.length_set]; exact hlen'
      · intro i hi hilen hie hp'
        rw [List.length_set] at hilen
        rw [lget_set_ne _ 0 i _ (fun hz => hie hz.symm),
          lget_set_ne _ 0 _ _ (fun hz => hp' hz.symm)]
        rw [List.length_dropLast] at hilen
        rw [lget_dropLast a i hilen, lget_dropLast a _ (by omega)]
        exact h i hi (by omega)

theorem mem_lget (x : Cell) (a : List Cell) (hx : x ∈ a) :
    ∃ i, i < a.length ∧ lget a i = x := by
  obtain ⟨n, hn, he⟩ := List.mem_iff_getElem.mp hx
  exact ⟨n, hn, by simp [lget, List.getElem?_eq_getElem hn, he]⟩

/-- Under the heap invariant, `BinaryHeap::pop` returns a cell of minimal
`cost` among all frontier cells: the popped element is the root, and the
root is a cost minimum. -/
theorem heapPop_min (a : List Cell) (c : Cell) (rest : List Cell)
    (h : heapOrdered a) (hp : heapPop a = some (c, rest)) :
    ∀ x ∈ a, c.cost ≤ x.cost := by
  intro x hx
  obtain ⟨i, hi, he⟩ := mem_lget x a hx
  rw [heapPop_fst a c rest hp, ← he]
  exact heapOrdered_root_min a h i hi

/-! ### `push` and `pop` act on the frontier's multiset of cells -/

theorem ccount_siftUpGo (start : Nat) (elt : Cell) :
    ∀ (fuel : Nat) (a : List Cell) (pos : Nat) (x : Cell), pos < a.length →
      ccount x (siftUpGo start elt fuel a pos) = ccount x (a.set pos elt) := by
  intro fuel
  induction fuel with
  | zero => intros; rfl
  | succ n ih =>
    intro a pos x hlen
    simp only [siftUpGo]
    split
    · split
      · rfl
      · rename_i hstart hstop
        rw [ih _ _ _ (by rw [List.length_set]; omega)]
        have c1 := ccount_set x elt (a.set pos (lget a ((pos - 1) / 2)))
          ((pos - 1) / 2) (by rw [List.length_set]; omega)
        have c2 := ccount_set x (lget a ((pos - 1) / 2)) a pos hlen
        have c3 := ccount_set x elt a pos hlen
        rw [lget_set_ne a pos ((pos - 1) / 2) _ (by omega)] at c1
        omega
    · rfl

theorem ccount_siftDownGo :
    ∀ (fuel : Nat) (endIdx : Nat) (a : List Cell) (pos : Nat) (v x : Cell),
      endIdx ≤ a.length → pos < endIdx →
      ccount x ((siftDownGo endIdx fuel a pos).1.set (siftDownGo endIdx fuel a pos).2 v) =
        ccount x (a.set pos v) := by
  intro fuel
  induction fuel with
  | zero => intros; rfl
  | succ n ih =>
    intro endIdx a pos v x hend hpos
    simp only [siftDownGo]
    by_cases h2 : 2 * pos + 1 + 1 < endIdx
    · rw [if_pos h2]
      by_cases hc : (lget a (2 * pos + 1 + 1)).cost ≤ (lget a (2 * pos + 1)).cost
      · rw [if_pos hc]
        rw [ih endIdx _ _ v x (by rw [List.length_set]; omega) (by omega)]
        have c1 := ccount_set x v (a.set pos (lget a (2 * pos + 1 + 1)))
          (2 * pos + 1 + 1) (by rw [List.length_set]; omega)
        have c2 := ccount_set x (lget a (2 * pos + 1 + 1)) a pos (by omega)
        have c3 := ccount_set x v a pos (by omega)
        rw [lget_set_ne a pos (2 * pos + 1 + 1) _ (by omega)] at c1
        omega
      · rw [if_neg hc]
        rw [ih endIdx _ _ v x (by rw [List.length_set]; omega) (by omega)]
        have c1 := ccount_set x v (a.set pos (lget a (2 * pos + 1)))
          (2 * pos + 1) (by rw [List.length_set]; omega)
        have c2 := ccount_set x (lget a (2 * pos + 1)) a pos (by omega)
        have c3 := ccount_set x v a pos (by omega)
        rw [lget_set_ne a pos (2 * pos + 1) _ (by omega)] at c1
        omega
    · rw [if_neg h2]
      by_cases h3 : 2 * pos + 1 = endIdx - 1
      · rw [if_pos h3]
        dsimp only
        have c1 := ccount_set x v (a.set pos (lget a (2 * pos + 1)))
          (2 * pos + 1) (by rw [List.length_set]; omega)
        have c2 := ccount_set x (lget a (2 * pos + 1)) a pos (by omega)
        have c3 := ccount_set x v a pos (by omega)
        rw [lget_set_ne a pos (2 * pos + 1) _ (by omega)] at c1
        omega
      · rw [if_neg h3]

theorem siftDownGo_length :
    ∀ (fuel endIdx : Nat) (a : List Cell) (pos : Nat),
      (siftDownGo endIdx fuel a pos).1.length = a.length := by
  intro fuel
  induction fuel with
  | zero => intros; rfl
  | succ n ih =>
    intro endIdx a pos
    simp only [siftDownGo]
    split
    · split
      · rw [ih]; simp
      · rw [ih]; simp
    · split
      · simp
      · rfl

theorem siftDownGo_pos_lt :
    ∀ (fuel endIdx : Nat) (a : List Cell) (pos : Nat), pos < endIdx →
      (siftDownGo endIdx fuel a pos).2 < endIdx := by
  intro fuel
  induction fuel with
  | zero => intro endIdx a pos h; exact h
  | succ n ih =>
    intro endIdx a pos h
    simp only [siftDownGo]
    split
    · split
      · exact ih endIdx _ _ (by omega)
      · exact ih endIdx _ _ (by omega)
    · split
      · rename_i h2 h3
        omega
      · exact h

theorem ccount_heapPush (a : List Cell) (c x : Cell) :
    ccount x (heapPush a c) = ccount x a + (if c = x then 1 else 0) := by
  unfold heapPush sift_up
  rw [lget_append_len]
  rw [ccount_siftUpGo 0 c _ _ _ _ (by simp)]
  have h1 := ccount_set x c (a ++ [c]) a.length (by simp)
  rw [lget_append_len] at h1
  rw [ccount_append] at h1
  simp only [ccount] at h1
  omega

theorem getLast?_decomp (a : List Cell) (last : Cell)
    (h : a.getLast? = some last) (x : Cell) :
    ccount x a = ccount x a.dropLast + (if last = x then 1 else 0) := by
  induction a with
  | nil => simp at h
  | cons hd tl ih =>
    cases tl with
    | nil =>
      simp [List.getLast?] at h
      subst h
      simp [ccount, List.dropLast]
    | cons hd2 tl2 =>
      rw [List.getLast?_cons_cons] at h
      have := ih h
      simp only [List.dropLast, ccount] at *
      omega

theorem heapPop_ccount (a : List Cell) (c : Cell) (rest : List Cell)
    (hp : heapPop a = some (c, rest)) (x : Cell) :
    ccount x rest + (if c = x then 1 else 0) = ccount x a := by
  unfold heapPop at hp
  cases hl : a.getLast? with
  | none => rw [hl] at hp; exact absurd hp (by simp)
  | some last =>
    rw [hl] at hp
    dsimp only at hp
    have hdec := getLast?_decomp a last hl x
    by_cases he : a.dropLast.isEmpty = true
    · rw [if_pos he] at hp
      have hc : c = last := by
        injection hp with h'
        injection h' with h1' h2'
        exact h1'.symm
      have hr : rest = a.dropLast := by
        injection hp with h'
        injection h' with h1' h2'
        exact h2'.symm
      rw [hc, hr]
      omega
    · rw [if_neg he] at hp
      have hne' : a.dropLast ≠ [] := fun hz => he (by simp [hz])
      have hlen' : 0 < a.dropLast.length := List.length_pos.mpr hne'
      have hc : c = lget a.dropLast 0 := by
        injection hp with h'
        injection h' with h1' h2'
        exact h1'.symm
      have hr : rest = sift_down_to_bottom (a.dropLast.set 0 last) 0 := by
        injection hp with h'
        injection h' with h1' h2'
        exact h2'.symm
      have hcount : ccount x rest = ccount x (a.dropLast.set 0 last) := by
        rw [hr]
        unfold sift_down_to_bottom sift_up
        simp only [List.length_set]
        rw [lget_set_self a.dropLast 0 last hlen']
        have hplt := siftDownGo_pos_lt a.dropLast.length a.dropLast.length
          (a.dropLast.set 0 last) 0 hlen'
        have hdlen := siftDownGo_length a.dropLast.length a.dropLast.length
          (a.dropLast.set 0 last) 0
        rw [List.length_set] at hdlen
        rw [lget_set_self _ _ _ (by rw [hdlen]; exact hplt)]
        rw [ccount_siftUpGo _ _ _ _ _ _ (by rw [List.length_set, hdlen]; exact hplt)]
        rw [List.set_set]
        rw [ccount_siftDownGo _ _ _ _ _ _ (by rw [List.length_set]) hlen']
        rw [List.set_set]
      have hcs := ccount_set x last a.dropLast 0 hlen'
      rw [hc, hcount]
      omega

/-! ### Reachable states of the search loop -/

/-- States of the search loop as the program reaches them: the initial state
followed by any number of completed loop iterations. -/
inductive Reachable (g : Grid) : SearchState → Prop where
  | init : ∀ st0, initState g = some st0 → Reachable g st0
  | step : ∀ st st2, Reachable g st → searchStep g st = StepResult.next st2 →
      Reachable g st2

theorem processNeighbour_open_set (g : Grid) (cur : Cell) (st : SearchState)
    (n : Coordinate) (st2 : SearchState)
    (hp : processNeighbour g cur st n = some st2) :
    st2.open_set = st.open_set ∨ ∃ c, st2.open_set = heapPush st.open_set c := by
  unfold processNeighbour at hp
  split at hp
  · injection hp with h; subst h; exact Or.inl rfl
  · split at hp
    · exact absurd hp (by simp)
    · split at hp
      · injection hp with h; subst h; exact Or.inl rfl
      · dsimp only at hp
        split at hp
        · split at hp
          · injection hp with h; subst h; exact Or.inr ⟨_, rfl⟩
          · injection hp with h; subst h; exact Or.inl rfl
        · injection hp with h; subst h; exact Or.inl rfl

theorem processNeighbour_heapOrdered (g : Grid) (cur : Cell) (st : SearchState)
    (n : Coordinate) (st2 : SearchState)
    (hp : processNeighbour g cur st n = some st2)
    (h : heapOrdered st.open_set) : heapOrdered st2.open_set := by
  rcases processNeighbour_open_set g cur st n st2 hp with he | ⟨c, he⟩
  · rw [he]; exact h
  · rw [he]; exact heapPush_heapOrdered _ _ h

theorem processNeighbours_heapOrdered (g : Grid) (cur : Cell) :
    ∀ (ns : List Coordinate) (st st2 : SearchState),
      processNeighbours g cur st ns = some st2 →
      heapOrdered st.open_set → heapOrdered st2.open_set := by
  intro ns
  induction ns with
  | nil =>
    intro st st2 hp h
    injection hp with h'
    subst h'
    exact h
  | cons n rest ih =>
    intro st st2 hp h
    unfold processNeighbours at hp
    cases hm : processNeighbour g cur st n with
    | none => rw [hm] at hp; exact absurd hp (by simp)
    | some stm =>
      rw [hm] at hp
      exact ih stm st2 hp (processNeighbour_heapOrdered g cur st n stm hm h)

theorem searchStep_next_heapOrdered (g : Grid) (st st2 : SearchState)
    (hp : searchStep g st = StepResult.next st2)
    (h : heapOrdered st.open_set) : heapOrdered st2.open_set := by
  unfold searchStep at hp
  cases hpop : heapPop st.open_set with
  | none => rw [hpop] at hp; exact absurd hp (by simp)
  | some pr =>
    rw [hpop] at hp
    dsimp only at hp
    have hrest : heapOrdered pr.2 :=
      heapPop_heapOrdered st.open_set pr.1 pr.2 h (by rw [hpop])
    split at hp
    · exact absurd hp (by simp)
    · split at hp
      · exact absurd hp (by simp)
      · rename_i st3 hm
        injection hp with h'
        subst h'
        exact processNeighbours_heapOrdered g pr.1 _ _ st3 hm hrest

theorem initState_heapOrdered (g : Grid) (st0 : SearchState)
    (h : initState g = some st0) : heapOrdered st0.open_set := by
  unfold initState at h
  cases hg : g.cells.get? (g.entrance_location.y * g.width + g.entrance_location.x) with
  | none => rw [hg] at h; exact absurd h (by simp)
  | some c =>
    rw [hg] at h
    injection h with h'
    subst h'
    exact heapPush_heapOrdered [] c (fun i hi hilen => by simp at hilen)

theorem reachable_heapOrdered (g : Grid) (st : SearchState)
    (h : Reachable g st) : heapOrdered st.open_set := by
  induction h with
  | init st0 h0 => exact initState_heapOrdered g st0 h0
  | step st st2 _ hstep ih => exact searchStep_next_heapOrdered g st st2 hstep ih

/-- Claim C2, amended: whenever the search pops a cell from the frontier (at
any state the loop actually reaches), the popped cell is one whose `cost`
alone is minimal among all cells currently in the frontier. The frontier's
`Ord for Cell` compares `cost` only (reversed) and never consults the
heuristic, so minimality of `cost + heuristic` does not hold (see the
counterexample); minimality of `cost` does. -/
theorem C2_amended_pop_min_cost (g : Grid) (st : SearchState) (c : Cell)
    (rest : List Cell) (hr : Reachable g st)
    (hp : heapPop st.open_set = some (c, rest)) :
    ∀ x ∈ st.open_set, c.cost ≤ x.cost :=
  heapPop_min st.open_set c rest (reachable_heapOrdered g st hr) hp

/-- A default empty search state (used only as a `getD` fallback below). -/
def emptySearchState : SearchState :=
  { cells := [], open_set := [], closed_set := [] }

/-- The grid `mazeC2` parses to. -/
def gridC2 : Grid :=
  (Grid.new mazeC2).getD
    { width := 0, height := 0, entrance_location := ⟨0, 0⟩,
      exit_location := ⟨0, 0⟩, cells := [] }

/-- The states of the search on `gridC2`, step by step. -/
def stC2 : Nat → SearchState
  | 0 => (initState gridC2).getD emptySearchState
  | n + 1 =>
    match searchStep gridC2 (stC2 n) with
    | StepResult.next st => st
    | _ => emptySearchState

/-- Witness for C2's amended theorem: at the third pop on `mazeC2` the popped
cell `cellAway` does have minimal cost (2 ≤ 2) against the remaining
frontier cell `cellTowards`. -/
theorem C2_amended_witness : cellAway.cost ≤ cellTowards.cost :=
  C2_amended_pop_min_cost gridC2 (stC2 2) cellAway [cellTowards]
    (Reachable.step (stC2 1) (stC2 2)
      (Reachable.step (stC2 0) (stC2 1)
        (Reachable.init (stC2 0) (by decide)) (by decide))
      (by decide))
    (by decide) cellTowards (by decide)

/-! ### Grid geometry helpers -/

@[simp]
theorem Coordinate.mk_x (a b : Nat) : (Coordinate.mk a b).x = a := rfl

@[simp]
theorem Coordinate.mk_y (a b : Nat) : (Coordinate.mk a b).y = b := rfl

/-- The coordinate corresponding to a row-major index. -/
def coordOf (g : Grid) (i : Nat) : Coordinate := ⟨i % g.width, i / g.width⟩

/-- The row-major index of a coordinate, as computed throughout `main`. -/
def idx (g : Grid) (c : Coordinate) : Nat := c.y * g.width + c.x

/-- A coordinate lies within the grid bounds. -/
def inb (g : Grid) (c : Coordinate) : Prop := c.x < g.width ∧ c.y < g.height

instance (g : Grid) (c : Coordinate) : Decidable (inb g c) :=
  inferInstanceAs (Decidable (c.x < g.width ∧ c.y < g.height))

/-- A well-formed grid: positive rectangular dimensions, one freshly
constructed cell per position in row-major order, entrance and exit in
bounds, distinct, and of the cell types `Grid::new` assigns them. -/
structure WellFormed (g : Grid) : Prop where
  wpos : 0 < g.width
  hpos : 0 < g.height
  size : g.cells.length = g.width * g.height
  cells_init : ∀ i, i < g.cells.length →
    lget g.cells i = Cell.new (coordOf g i) (lget g.cells i).cell_type
  ent_inb : inb g g.entrance_location
  exit_inb : inb g g.exit_location
  ent_ne_exit : g.entrance_location ≠ g.exit_location
  ent_type : (lget g.cells (idx g g.entrance_location)).cell_type = CellType.Entrance
  exit_type : (lget g.cells (idx g g.exit_location)).cell_type = CellType.Exit
  ent_unique : ∀ i, i < g.cells.length →
    (lget g.cells i).cell_type = CellType.Entrance →
    i = idx g g.entrance_location

theorem idx_lt (g : Grid) (c : Coordinate) (h : inb g c) :
    idx g c < g.width * g.height := by
  obtain ⟨hx, hy⟩ := h
  calc c.y * g.width + c.x < c.y * g.width + g.width := by omega
    _ = (c.y + 1) * g.width := by ring
    _ ≤ g.height * g.width := Nat.mul_le_mul_right _ (by omega)
    _ = g.width * g.height := Nat.mul_comm _ _

theorem coordOf_idx (g : Grid) (c : Coordinate) (h : inb g c) :
    coordOf g (idx g c) = c := by
  obtain ⟨hx, hy⟩ := h
  unfold coordOf idx
  have hmod : (c.y * g.width + c.x) % g.width = c.x := by
    rw [Nat.add_comm, Nat.add_mul_mod_self_right]
    exact Nat.mod_eq_of_lt hx
  have hdiv : (c.y * g.width + c.x) / g.width = c.y := by
    rw [Nat.add_comm, Nat.add_mul_div_right _ _ (by omega : 0 < g.width),
      Nat.div_eq_of_lt hx]
    omega
  rw [hmod, hdiv]

theorem idx_coordOf (g : Grid) (i : Nat) :
    idx g (coordOf g i) = i := by
  unfold coordOf idx
  dsimp only
  rw [Nat.mul_comm]
  exact Nat.div_add_mod i g.width

theorem inb_coordOf (g : Grid) (i : Nat) (hw : 0 < g.width)
    (h : i < g.width * g.height) : inb g (coordOf g i) := by
  constructor
  · exact Nat.mod_lt _ hw
  · exact Nat.div_lt_of_lt_mul h

theorem coordOf_inj (g : Grid) (i j : Nat)
    (h : coordOf g i = coordOf g j) : i = j := by
  have := congrArg (idx g) h
  rw [idx_coordOf g i, idx_coordOf g j] at this
  exact this

/-! ### Neighbour generation: soundness and completeness -/

theorem neighboursOf_sound (g : Grid) (c n : Coordinate)
    (hc : inb g c) (hn : n ∈ neighboursOf g.width g.height c) :
    inb g n ∧ fourAdjacent c n := by
  obtain ⟨hx, hy⟩ := hc
  unfold neighboursOf at hn
  simp only [List.mem_append] at hn
  rcases hn with ((h1 | h2) | h3) | h4
  · split at h1
    · simp at h1
      subst h1
      simp only [inb, fourAdjacent, Coordinate.mk_x, Coordinate.mk_y, true_and,
        and_true, false_or, or_false, or_true, true_or]
      omega
    · simp at h1
  · split at h2
    · simp at h2
      subst h2
      simp only [inb, fourAdjacent, Coordinate.mk_x, Coordinate.mk_y, true_and,
        and_true, false_or, or_false, or_true, true_or]
      omega
    · simp at h2
  · split at h3
    · simp at h3
      subst h3
      simp only [inb, fourAdjacent, Coordinate.mk_x, Coordinate.mk_y, true_and,
        and_true, false_or, or_false, or_true, true_or]
      omega
    · simp at h3
  · split at h4
    · simp at h4
      subst h4
      simp only [inb, fourAdjacent, Coordinate.mk_x, Coordinate.mk_y, true_and,
        and_true, false_or, or_false, or_true, true_or]
      omega
    · simp at h4

theorem neighboursOf_complete (g : Grid) (c x : Coordinate)
    (hc : inb g c) (hx : inb g x) (hadj : fourAdjacent c x) :
    x ∈ neighboursOf g.width g.height c := by
  obtain ⟨hcx, hcy⟩ := hc
  obtain ⟨hxx, hxy⟩ := hx
  unfold neighboursOf
  simp only [List.mem_append]
  rcases hadj with ⟨hex, hey | hey⟩ | ⟨hey, hex | hex⟩
  · -- x is above c (c.y = x.y + 1)
    left; right
    rw [if_pos (by omega : 0 < c.y)]
    simp only [List.mem_singleton]
    cases x
    cases c
    simp only [Coordinate.mk.injEq] at *
    omega
  · -- x is below c
    right
    rw [if_pos (by omega : c.y < g.height - 1)]
    simp only [List.mem_singleton]
    cases x
    cases c
    simp only [Coordinate.mk.injEq] at *
    omega
  · -- x is left of c (c.x = x.x + 1)
    left; left; left
    rw [if_pos (by omega : 0 < c.x)]
    simp only [List.mem_singleton]
    cases x
    cases c
    simp only [Coordinate.mk.injEq] at *
    omega
  · -- x is right of c
    left; left; right
    rw [if_pos (by omega : c.x < g.width - 1)]
    simp only [List.mem_singleton]
    cases x
    cases c
    simp only [Coordinate.mk.injEq] at *
    omega

/-! ### Frontier membership through `push` and `pop` -/

theorem mem_heapPush (a : List Cell) (c x : Cell) :
    x ∈ heapPush a c ↔ x ∈ a ∨ x = c := by
  rw [← ccount_pos_iff_mem, ← ccount_pos_iff_mem, ccount_heapPush]
  by_cases h : c = x
  · subst h
    simp
  · rw [if_neg h]
    constructor
    · intro h'; exact Or.inl (by omega)
    · rintro (h' | h')
      · omega
      · exact absurd h'.symm h

theorem heapPop_mem_self (a : List Cell) (c : Cell) (rest : List Cell)
    (hp : heapPop a = some (c, rest)) : c ∈ a := by
  rw [← ccount_pos_iff_mem]
  have := heapPop_ccount a c rest hp c
  simp at this
  omega

theorem heapPop_mem_rest (a : List Cell) (c : Cell) (rest : List Cell)
    (hp : heapPop a = some (c, rest)) (x : Cell) (hx : x ∈ rest) : x ∈ a := by
  rw [← ccount_pos_iff_mem]
  rw [← ccount_pos_iff_mem] at hx
  have := heapPop_ccount a c rest hp x
  omega

theorem heapPop_mem_of_ne (a : List Cell) (c : Cell) (rest : List Cell)
    (hp : heapPop a = some (c, rest)) (x : Cell) (hx : x ∈ a) (hne : x ≠ c) :
    x ∈ rest := by
  rw [← ccount_pos_iff_mem]
  rw [← ccount_pos_iff_mem] at hx
  have := heapPop_ccount a c rest hp x
  rw [if_neg (fun hz => hne hz.symm)] at this
  omega

/-! ### Closed-set operations -/

theorem coordMem_iff (s : List Coordinate) (c : Coordinate) :
    coordMem s c = true ↔ c ∈ s := by
  unfold coordMem
  rw [List.any_eq_true]
  constructor
  · rintro ⟨x, hx, he⟩
    rw [beq_iff_eq] at he
    rw [← he]
    exact hx
  · intro h
    exact ⟨c, h, beq_self_eq_true c⟩

theorem coordMem_closedInsert (s : List Coordinate) (c d : Coordinate) :
    coordMem (closedInsert s c) d = true ↔ coordMem s d = true ∨ d = c := by
  unfold closedInsert
  split
  · rename_i h
    constructor
    · exact Or.inl
    · rintro (h' | h')
      · exact h'
      · subst h'; exact h
  · rw [coordMem_iff, coordMem_iff, List.mem_cons]
    tauto

theorem closedRemove_noop (s : List Coordinate) (c : Coordinate)
    (h : coordMem s c = false) : closedRemove s c = s := by
  unfold closedRemove
  induction s with
  | nil => rfl
  | cons hd tl ih =>
    unfold coordMem at h ih
    simp only [List.any_cons, Bool.or_eq_false_iff] at h
    rw [List.filter_cons]
    rw [if_pos (by
      rw [beq_eq_false_iff_ne] at h
      simp only [decide_eq_true_iff]
      exact h.1), ih h.2]

theorem anyCopy_iff (a : List Cell) (c : Cell) :
    (a.any fun x => x == c) = true ↔ c ∈ a := by
  rw [List.any_eq_true]
  constructor
  · rintro ⟨x, hx, he⟩
    rw [beq_iff_eq] at he
    rw [← he]
    exact hx
  · intro h
    exact ⟨c, h, beq_self_eq_true c⟩

/-! ### No-panic invariant for the search loop (claim C10) -/

/-- The facts needed for the neighbour indexing to stay in bounds: the cell
vector has one entry per position, cells store their row-major coordinates,
and every frontier cell's coordinate is in bounds. -/
def NPInv (g : Grid) (st : SearchState) : Prop :=
  st.cells.length = g.width * g.height ∧
  (∀ i, i < st.cells.length → (lget st.cells i).coordinate = coordOf g i) ∧
  (∀ c ∈ st.open_set, inb g c.coordinate)

theorem lget_eq_of_get? (a : List Cell) (i : Nat) (c : Cell)
    (h : a.get? i = some c) : lget a i = c := by
  unfold lget
  rw [h]
  rfl

theorem get?_eq_some_lget (a : List Cell) (i : Nat) (h : i < a.length) :
    a.get? i = some (lget a i) := by
  unfold lget
  rw [List.get?_eq_getElem? a i, List.getElem?_eq_getElem h]
  rfl

theorem processNeighbour_npinv (g : Grid) (cur : Cell) (st : SearchState)
    (n : Coordinate) (h : NPInv g st) (hn : inb g n) :
    ∃ st2, processNeighbour g cur st n = some st2 ∧ NPInv g st2 := by
  obtain ⟨hlen, hco, hop⟩ := h
  have hidx : n.y * g.width + n.x < st.cells.length := by
    rw [hlen]; exact idx_lt g n hn
  have hget : st.cells.get? (n.y * g.width + n.x) =
      some (lget st.cells (n.y * g.width + n.x)) := get?_eq_some_lget _ _ hidx
  unfold processNeighbour
  split
  · exact ⟨st, rfl, hlen, hco, hop⟩
  · rw [hget]
    dsimp only
    split
    · exact ⟨st, rfl, hlen, hco, hop⟩
    · have hcoord : (lget st.cells (n.y * g.width + n.x)).coordinate = n := by
        rw [hco _ hidx]
        show coordOf g (idx g n) = n
        exact coordOf_idx g n hn
      split
      · split
        · refine ⟨_, rfl, ?_, ?_, ?_⟩
          · simpa using hlen
          · intro i hi
            simp only [List.length_set] at hi
            by_cases hin : i = n.y * g.width + n.x
            · subst hin
              rw [lget_set_self _ _ _ hi]
              dsimp only
              rw [hcoord]
              show n = coordOf g (idx g n)
              exact (coordOf_idx g n hn).symm
            · rw [lget_set_ne _ _ _ _ (fun he => hin he.symm)]
              exact hco i hi
          · intro c hc
            rw [mem_heapPush] at hc
            rcases hc with hc | hc
            · exact hop c hc
            · subst hc
              dsimp only
              rw [hcoord]
              exact hn
        · refine ⟨_, rfl, ?_, ?_, hop⟩
          · simpa using hlen
          · intro i hi
            simp only [List.length_set] at hi
            by_cases hin : i = n.y * g.width + n.x
            · subst hin
              rw [lget_set_self _ _ _ hi]
              dsimp only
              rw [hcoord]
              show n = coordOf g (idx g n)
              exact (coordOf_idx g n hn).symm
            · rw [lget_set_ne _ _ _ _ (fun he => hin he.symm)]
              exact hco i hi
      · exact ⟨st, rfl, hlen, hco, hop⟩

theorem processNeighbours_npinv (g : Grid) (cur : Cell) :
    ∀ (ns : List Coordinate) (st : SearchState), NPInv g st →
      (∀ n ∈ ns, inb g n) →
      ∃ st2, processNeighbours g cur st ns = some st2 ∧ NPInv g st2 := by
  intro ns
  induction ns with
  | nil => exact fun st h _ => ⟨st, rfl, h⟩
  | cons n rest ih =>
    intro st h hns
    obtain ⟨stm, hm, hinvm⟩ :=
      processNeighbour_npinv g cur st n h (hns n (List.mem_cons_self n rest))
    obtain ⟨st2, h2, hinv2⟩ := ih stm hinvm
      (fun x hx => hns x (List.mem_cons_of_mem n hx))
    exact ⟨st2, by unfold processNeighbours; rw [hm]; exact h2, hinv2⟩

theorem searchStep_npinv (g : Grid) (st : SearchState) (h : NPInv g st) :
    searchStep g st ≠ StepResult.panic ∧
      ∀ st2, searchStep g st = StepResult.next st2 → NPInv g st2 := by
  obtain ⟨hlen, hco, hop⟩ := h
  unfold searchStep
  cases hp : heapPop st.open_set with
  | none => exact ⟨(fun hc => nomatch hc), (fun st2 hc => nomatch hc)⟩
  | some pr =>
    obtain ⟨cur, rest⟩ := pr
    have hcur : inb g cur.coordinate := hop cur (heapPop_mem_self _ _ _ hp)
    dsimp only
    split
    · exact ⟨(fun hc => nomatch hc), (fun st2 hc => nomatch hc)⟩
    · obtain ⟨st3, h3, hinv3⟩ := processNeighbours_npinv g cur
        (neighboursOf g.width g.height cur.coordinate)
        { cells := st.cells, open_set := rest,
          closed_set := closedInsert st.closed_set cur.coordinate }
        ⟨hlen, hco, fun c hc => hop c (heapPop_mem_rest _ _ _ hp c hc)⟩
        (fun n hn => (neighboursOf_sound g cur.coordinate n hcur hn).1)
      rw [h3]
      exact ⟨(fun hc => nomatch hc), (fun st2 hc => by cases hc; exact hinv3)⟩

theorem searchLoop_npinv (g : Grid) :
    ∀ (fuel : Nat) (st : SearchState), NPInv g st →
      searchLoop g fuel st ≠ SearchOutcome.panic := by
  intro fuel
  induction fuel with
  | zero => intro st _ hc; cases hc
  | succ fuel ih =>
    intro st h
    obtain ⟨hnp, hnext⟩ := searchStep_npinv g st h
    unfold searchLoop
    cases hs : searchStep g st with
    | panic => exact absurd hs hnp
    | foundExit c st2 => intro hc; cases hc
    | emptied st2 => intro hc; cases hc
    | next st2 => exact ih st2 (hnext st2 hs)

/-- Claim C10, amended: if the grid's cell vector has exactly
`width * height` entries, every cell stores its row-major coordinate, and
the entrance is in bounds, then the initial indexing succeeds and the search
loop never panics — every neighbour coordinate it generates is in bounds, so
the row-major index `n.y * width + n.x` never leaves the cell vector. -/
theorem C10_amended_no_panic (g : Grid)
    (hlen : g.cells.length = g.width * g.height)
    (hco : ∀ i, i < g.cells.length → (lget g.cells i).coordinate = coordOf g i)
    (hent : inb g g.entrance_location) :
    ∃ st0, initState g = some st0 ∧
      ∀ fuel, searchLoop g fuel st0 ≠ SearchOutcome.panic := by
  have hidx : g.entrance_location.y * g.width + g.entrance_location.x <
      g.cells.length := by
    rw [hlen]; exact idx_lt g _ hent
  refine ⟨_, by unfold initState; rw [get?_eq_some_lget _ _ hidx], ?_⟩
  intro fuel
  apply searchLoop_npinv
  refine ⟨hlen, hco, ?_⟩
  intro c hc
  rw [mem_heapPush] at hc
  rcases hc with hc | hc
  · cases hc
  · subst hc
    rw [hco _ hidx]
    exact inb_coordOf g _ (by
      rcases hent with ⟨hx, _⟩
      omega) (by rw [← hlen]; exact hidx)

/-! ### The search invariant

The bundle of facts maintained by the A* loop, from which the reconstruction
claims follow. Throughout, a cell's "grid cost" is the `cost` stored in
`cells` at its row-major index, while frontier entries are value copies made
at push time. -/

/-- The edge-relaxation guarantee recorded for a visited coordinate `q`: if
`x` is an in-bounds neighbour of `q` whose cell is passable (neither Wall
nor Entrance) and not yet visited, the frontier holds a copy at `x` whose
cost is at most `q`'s grid cost plus one. -/
def erPair (g : Grid) (st : SearchState) (q x : Coordinate) : Prop :=
  inb g x → fourAdjacent q x →
  (lget st.cells (idx g x)).cell_type ≠ CellType.Wall →
  (lget st.cells (idx g x)).cell_type ≠ CellType.Entrance →
  coordMem st.closed_set x = false →
  ∃ c, c ∈ st.open_set ∧ c.coordinate = x ∧
    c.cost ≤ (lget st.cells (idx g q)).cost + 1

/-- The invariant fields shared by the between-iterations state and the
mid-iteration state. -/
structure InvBase (g : Grid) (st : SearchState) : Prop where
  len : st.cells.length = g.width * g.height
  coords : ∀ i, i < st.cells.length → (lget st.cells i).coordinate = coordOf g i
  types : ∀ i, (lget st.cells i).cell_type = (lget g.cells i).cell_type
  ent0 : (lget st.cells (idx g g.entrance_location)).cost = 0
  open_inb : ∀ c ∈ st.open_set, inb g c.coordinate
  open_le : ∀ c ∈ st.open_set,
    (lget st.cells (idx g c.coordinate)).cost ≤ c.cost
  open_zero : ∀ c ∈ st.open_set, c.cost = 0 →
    c.coordinate = g.entrance_location
  open_disc : ∀ c ∈ st.open_set, 1 ≤ c.cost →
    1 ≤ (lget st.cells (idx g c.coordinate)).cost
  open_nowall : ∀ c ∈ st.open_set,
    (lget st.cells (idx g c.coordinate)).cell_type ≠ CellType.Wall
  hexact : ∀ i, i < st.cells.length → 1 ≤ (lget st.cells i).cost →
    coordMem st.closed_set (coordOf g i) = false → lget st.cells i ∈ st.open_set
  closed_inb : ∀ q, coordMem st.closed_set q = true → inb g q
  closed0 : ∀ q, coordMem st.closed_set q = true →
    (lget st.cells (idx g q)).cost = 0 → q = g.entrance_location
  pd : ∀ i, i < st.cells.length → 1 ≤ (lget st.cells i).cost →
    inb g (lget st.cells i).parent_coord ∧
    fourAdjacent (coordOf g i) (lget st.cells i).parent_coord ∧
    coordMem st.closed_set (lget st.cells i).parent_coord = true ∧
    (lget st.cells (idx g (lget st.cells i).parent_coord)).cost + 1 =
      (lget st.cells i).cost ∧
    (lget st.cells i).cell_type ≠ CellType.Wall ∧
    (lget st.cells i).cell_type ≠ CellType.Entrance
  clo : ∀ q q', coordMem st.closed_set q = true →
    coordMem st.closed_set q' = true → inb g q' → fourAdjacent q q' →
    (lget st.cells (idx g q')).cell_type ≠ CellType.Wall →
    (lget st.cells (idx g q')).cell_type ≠ CellType.Entrance →
    (lget st.cells (idx g q')).cost ≤ (lget st.cells (idx g q)).cost + 1
  clopen : ∀ q, coordMem st.closed_set q = true → ∀ c ∈ st.open_set,
    (lget st.cells (idx g q)).cost ≤ c.cost
  start : coordMem st.closed_set g.entrance_location = true ∨
    ∃ c, c ∈ st.open_set ∧ c.coordinate = g.entrance_location ∧ c.cost = 0

/-- The invariant maintained between iterations of the search loop. -/
structure Inv (g : Grid) (st : SearchState) extends InvBase g st : Prop where
  er : ∀ q, coordMem st.closed_set q = true → ∀ x, erPair g st q x
  ho : heapOrdered st.open_set

/-- What one `processNeighbour` call may change: the visited set is
unchanged, cells keep their count and their types, cells at visited
coordinates are frozen, and the frontier only grows. -/
def Mono (g : Grid) (st st2 : SearchState) : Prop :=
  st2.closed_set = st.closed_set ∧
  st2.cells.length = st.cells.length ∧
  (∀ c ∈ st.open_set, c ∈ st2.open_set) ∧
  (∀ i, (lget st2.cells i).cell_type = (lget st.cells i).cell_type) ∧
  (∀ i, coordMem st.closed_set (coordOf g i) = true →
    lget st2.cells i = lget st.cells i)

/-- After the neighbour `n` of the popped cell `cur` has been handled: if
`n`'s cell is passable and `n` is not visited, the frontier holds a copy at
`n` with cost at most `cur`'s grid cost plus one. -/
def NOK (g : Grid) (cur : Cell) (st : SearchState) (n : Coordinate) : Prop :=
  (lget st.cells (idx g n)).cell_type ≠ CellType.Wall →
  (lget st.cells (idx g n)).cell_type ≠ CellType.Entrance →
  coordMem st.closed_set n = false →
  ∃ c, c ∈ st.open_set ∧ c.coordinate = n ∧
    c.cost ≤ (lget st.cells (idx g cur.coordinate)).cost + 1

/-- The invariant maintained across the neighbour loop of one iteration,
after the popped cell `cur` has been inserted into the visited set but
before its edge-relaxation pairs have been established. -/
structure LoopInv (g : Grid) (cur : Cell) (st : SearchState)
    extends InvBase g st : Prop where
  er : ∀ q, coordMem st.closed_set q = true → q ≠ cur.coordinate →
    ∀ x, erPair g st q x
  cur_inb : inb g cur.coordinate
  cur_closed : coordMem st.closed_set cur.coordinate = true
  cur_cost : (lget st.cells (idx g cur.coordinate)).cost = cur.cost
  cur_zero : cur.cost = 0 → cur.coordinate = g.entrance_location
  cur_dom : ∀ q, coordMem st.closed_set q = true →
    (lget st.cells (idx g q)).cost ≤ cur.cost

theorem fourAdjacent_symm (a b : Coordinate) (h : fourAdjacent a b) :
    fourAdjacent b a := by
  unfold fourAdjacent at *
  omega

theorem get?_lt_length (a : List Cell) (i : Nat) (c : Cell)
    (h : a.get? i = some c) : i < a.length := by
  by_contra hlt
  rw [List.get?_eq_none.mpr (Nat.le_of_not_lt hlt)] at h
  cases h

theorem Mono_refl (g : Grid) (st : SearchState) : Mono g st st :=
  ⟨rfl, rfl, fun _ h => h, fun _ => rfl, fun _ _ => rfl⟩

theorem Mono_trans (g : Grid) (st st2 st3 : SearchState)
    (h1 : Mono g st st2) (h2 : Mono g st2 st3) : Mono g st st3 := by
  obtain ⟨hc1, hl1, ho1, ht1, hf1⟩ := h1
  obtain ⟨hc2, hl2, ho2, ht2, hf2⟩ := h2
  refine ⟨hc2.trans hc1, hl2.trans hl1, fun c hc => ho2 c (ho1 c hc),
    fun i => (ht2 i).trans (ht1 i), fun i hi => ?_⟩
  rw [hf2 i (by rw [hc1]; exact hi), hf1 i hi]

theorem NOK_mono (g : Grid) (cur : Cell) (st st2 : SearchState)
    (n : Coordinate)
    (hcl : coordMem st.closed_set cur.coordinate = true)
    (hinb : inb g cur.coordinate)
    (hm : Mono g st st2) (hn : NOK g cur st n) : NOK g cur st2 n := by
  obtain ⟨hc, _, ho, ht, hf⟩ := hm
  intro h1 h2 h3
  rw [ht] at h1 h2
  rw [hc] at h3
  obtain ⟨c, hmem, hco, hcost⟩ := hn h1 h2 h3
  refine ⟨c, ho c hmem, hco, ?_⟩
  rw [hf (idx g cur.coordinate) (by rw [coordOf_idx g _ hinb]; exact hcl)]
  exact hcost

/-- Complete case analysis of one `processNeighbour` call: the neighbour is
skipped (visited, or its cell is a Wall or the Entrance), or the update
guard fails (a copy sits in the frontier and the tentative cost does not
beat the stored cost), or the cell is rewritten — with a push and a visited
removal exactly when the frontier holds no copy of the rewritten cell. -/
theorem processNeighbour_cases (g : Grid) (cur : Cell) (st : SearchState)
    (n : Coordinate) (st2 : SearchState)
    (hp : processNeighbour g cur st n = some st2) :
    (st2 = st ∧ (coordMem st.closed_set n = true ∨
      ∃ nc, st.cells.get? (idx g n) = some nc ∧
        (nc.cell_type = CellType.Wall ∨ nc.cell_type = CellType.Entrance))) ∨
    (st2 = st ∧ ∃ nc, st.cells.get? (idx g n) = some nc ∧
      coordMem st.closed_set n = false ∧
      nc.cell_type ≠ CellType.Wall ∧ nc.cell_type ≠ CellType.Entrance ∧
      nc ∈ st.open_set ∧ nc.cost ≤ cur.cost + 1) ∨
    (∃ nc, st.cells.get? (idx g n) = some nc ∧
      coordMem st.closed_set n = false ∧
      nc.cell_type ≠ CellType.Wall ∧ nc.cell_type ≠ CellType.Entrance ∧
      (nc ∉ st.open_set ∨ cur.cost + 1 < nc.cost) ∧
      ((updatedCell g cur nc ∈ st.open_set ∧
        st2 = { st with
          cells := st.cells.set (idx g n) (updatedCell g cur nc) }) ∨
       (updatedCell g cur nc ∉ st.open_set ∧
        st2 = { cells := st.cells.set (idx g n) (updatedCell g cur nc),
                open_set := heapPush st.open_set (updatedCell g cur nc),
                closed_set := closedRemove st.closed_set nc.coordinate }))) := by
  unfold processNeighbour at hp
  split at hp
  · rename_i hcm
    injection hp with h
    exact Or.inl ⟨h.symm, Or.inl (by simpa using hcm)⟩
  · rename_i hcm
    have hcm' : coordMem st.closed_set n = false := by
      simpa using hcm
    cases hget : st.cells.get? (n.y * g.width + n.x) with
    | none => rw [hget] at hp; cases hp
    | some nc =>
      rw [hget] at hp
      dsimp only at hp
      split at hp
      · rename_i hwe
        injection hp with h
        exact Or.inl ⟨h.symm, Or.inr ⟨nc, hget, hwe⟩⟩
      · rename_i hwe
        rw [not_or] at hwe
        split at hp
        · rename_i hguard
          split at hp
          · rename_i hany
            injection hp with h
            refine Or.inr (Or.inr ⟨nc, hget, hcm', hwe.1, hwe.2, ?_, Or.inr ⟨?_, h.symm⟩⟩)
            · rcases hguard with hg | hg
              · exact Or.inl (by rw [← anyCopy_iff]; simpa using hg)
              · exact Or.inr hg
            · rw [← anyCopy_iff]
              simpa using hany
          · rename_i hany
            injection hp with h
            refine Or.inr (Or.inr ⟨nc, hget, hcm', hwe.1, hwe.2, ?_, Or.inl ⟨?_, h.symm⟩⟩)
            · rcases hguard with hg | hg
              · exact Or.inl (by rw [← anyCopy_iff]; simpa using hg)
              · exact Or.inr hg
            · rw [← anyCopy_iff]
              simpa using hany
        · rename_i hguard
          rw [not_or, not_not, Nat.not_lt] at hguard
          injection hp with h
          exact Or.inr (Or.inl ⟨h.symm, nc, hget, hcm', hwe.1, hwe.2,
            (anyCopy_iff _ _).mp hguard.1, hguard.2⟩)

/-- The update branches of `processNeighbour` preserve the loop invariant:
given the facts common to both branches (cells rewritten at `n`, visited set
unchanged, frontier grown by at most the rewritten cell, which is present in
the new frontier), the invariant, the monotonicity facts and the
edge-relaxation pair for `n` all hold in the new state. -/
theorem loopInv_update (g : Grid) (wf : WellFormed g) (cur : Cell)
    (st st2 : SearchState) (n : Coordinate) (nc : Cell)
    (hli : LoopInv g cur st)
    (hn : inb g n) (hadj : fourAdjacent cur.coordinate n)
    (hnceq : nc = lget st.cells (idx g n))
    (hidxlt : idx g n < st.cells.length)
    (hncl : coordMem st.closed_set n = false)
    (hw : nc.cell_type ≠ CellType.Wall)
    (he : nc.cell_type ≠ CellType.Entrance)
    (hkey : ∀ c ∈ st.open_set, c.coordinate = n → cur.cost + 1 ≤ c.cost)
    (hclosed2 : st2.closed_set = st.closed_set)
    (hcells2 : st2.cells = st.cells.set (idx g n) (updatedCell g cur nc))
    (hopen2 : ∀ c ∈ st.open_set, c ∈ st2.open_set)
    (hopen2r : ∀ c ∈ st2.open_set, c ∈ st.open_set ∨ c = updatedCell g cur nc)
    (hupd : updatedCell g cur nc ∈ st2.open_set) :
    LoopInv g cur st2 ∧ Mono g st st2 ∧ NOK g cur st2 n := by
  have hncco : nc.coordinate = n := by
    rw [hnceq, hli.coords _ hidxlt, coordOf_idx g n hn]
  have hLn : lget st2.cells (idx g n) = updatedCell g cur nc := by
    rw [hcells2]; exact lget_set_self _ _ _ hidxlt
  have hL : ∀ i, i ≠ idx g n → lget st2.cells i = lget st.cells i := by
    intro i hi
    rw [hcells2]; exact lget_set_ne _ _ _ _ (Ne.symm hi)
  have hlen2 : st2.cells.length = st.cells.length := by
    rw [hcells2, List.length_set]
  have hne_cur : n ≠ cur.coordinate := by
    intro h; rw [h, hli.cur_closed] at hncl; cases hncl
  have hidx_ne : ∀ c : Coordinate, inb g c → c ≠ n → idx g c ≠ idx g n := by
    intro c hci hcn hh
    apply hcn
    have := congrArg (coordOf g) hh
    rwa [coordOf_idx g c hci, coordOf_idx g n hn] at this
  have hidx_cur_ne : idx g cur.coordinate ≠ idx g n :=
    hidx_ne cur.coordinate hli.cur_inb (fun h => hne_cur h.symm)
  have hidx_ne_ent : idx g g.entrance_location ≠ idx g n := by
    intro h
    apply he
    rw [hnceq, hli.types (idx g n), ← h, wf.ent_type]
  have hclosed_ne : ∀ q, coordMem st.closed_set q = true → q ≠ n := by
    intro q hq hqn
    rw [hqn, hncl] at hq; cases hq
  have htypes2 : ∀ i, (lget st2.cells i).cell_type = (lget st.cells i).cell_type := by
    intro i
    by_cases hi : i = idx g n
    · subst hi
      rw [hLn, show (updatedCell g cur nc).cell_type = nc.cell_type from rfl, hnceq]
    · rw [hL i hi]
  refine ⟨⟨⟨?_, ?_, ?_, ?_, ?_, ?_, ?_, ?_, ?_, ?_, ?_, ?_, ?_, ?_, ?_, ?_⟩,
      ?_, ?_, ?_, ?_, ?_, ?_⟩,
    ⟨hclosed2, hlen2, hopen2, htypes2, ?_⟩, ?_⟩
  · -- len
    exact hlen2.trans hli.len
  · -- coords
    intro i hilt
    rw [hlen2] at hilt
    by_cases hi : i = idx g n
    · subst hi
      rw [hLn, show (updatedCell g cur nc).coordinate = nc.coordinate from rfl,
        hncco, coordOf_idx g n hn]
    · rw [hL i hi]
      exact hli.coords i hilt
  · -- types
    exact fun i => (htypes2 i).trans (hli.types i)
  · -- ent0
    rw [hL _ hidx_ne_ent]
    exact hli.ent0
  · -- open_inb
    intro c hc
    rcases hopen2r c hc with h | h
    · exact hli.open_inb c h
    · subst h
      rw [show (updatedCell g cur nc).coordinate = nc.coordinate from rfl, hncco]
      exact hn
  · -- open_le
    intro c hc
    rcases hopen2r c hc with h | h
    · by_cases hco : c.coordinate = n
      · rw [hco, hLn]
        exact hkey c h hco
      · rw [hL _ (hidx_ne c.coordinate (hli.open_inb c h) hco)]
        exact hli.open_le c h
    · subst h
      rw [show (updatedCell g cur nc).coordinate = nc.coordinate from rfl, hncco, hLn]
  · -- open_zero
    intro c hc hc0
    rcases hopen2r c hc with h | h
    · exact hli.open_zero c h hc0
    · subst h
      exact absurd hc0 (Nat.succ_ne_zero cur.cost)
  · -- open_disc
    intro c hc hc1
    rcases hopen2r c hc with h | h
    · by_cases hco : c.coordinate = n
      · rw [hco, hLn]
        exact Nat.succ_le_succ (Nat.zero_le _)
      · rw [hL _ (hidx_ne c.coordinate (hli.open_inb c h) hco)]
        exact hli.open_disc c h hc1
    · subst h
      rw [show (updatedCell g cur nc).coordinate = nc.coordinate from rfl, hncco, hLn]
      exact Nat.succ_le_succ (Nat.zero_le _)
  · -- open_nowall
    intro c hc
    rcases hopen2r c hc with h | h
    · rw [htypes2 (idx g c.coordinate)]
      exact hli.open_nowall c h
    · subst h
      rw [show (updatedCell g cur nc).coordinate = nc.coordinate from rfl, hncco,
        htypes2 (idx g n), ← hnceq]
      exact hw
  · -- hexact
    intro i hilt hcost hncl2
    rw [hlen2] at hilt
    rw [hclosed2] at hncl2
    by_cases hi : i = idx g n
    · subst hi
      rw [hLn]
      exact hupd
    · rw [hL i hi] at hcost ⊢
      exact hopen2 _ (hli.hexact i hilt hcost hncl2)
  · -- closed_inb
    intro q hq
    rw [hclosed2] at hq
    exact hli.closed_inb q hq
  · -- closed0
    intro q hq h0
    rw [hclosed2] at hq
    rw [hL _ (hidx_ne q (hli.closed_inb q hq) (hclosed_ne q hq))] at h0
    exact hli.closed0 q hq h0
  · -- pd
    intro i hilt hcost
    rw [hlen2] at hilt
    by_cases hi : i = idx g n
    · subst hi
      rw [hLn]
      refine ⟨hli.cur_inb, ?_, ?_, ?_, hw, he⟩
      · rw [coordOf_idx g n hn]
        exact fourAdjacent_symm _ _ hadj
      · rw [hclosed2]
        exact hli.cur_closed
      · show (lget st2.cells (idx g cur.coordinate)).cost + 1 = cur.cost + 1
        rw [hL _ hidx_cur_ne, hli.cur_cost]
    · rw [hL i hi] at hcost ⊢
      obtain ⟨p1, p2, p3, p4, p5, p6⟩ := hli.pd i hilt hcost
      refine ⟨p1, p2, ?_, ?_, p5, p6⟩
      · rw [hclosed2]
        exact p3
      · rw [hL _ (hidx_ne _ p1 (hclosed_ne _ p3))]
        exact p4
  · -- clo
    intro q q' hq hq' hq'inb hadjq hq'w hq'e
    rw [hclosed2] at hq hq'
    rw [htypes2 (idx g q')] at hq'w hq'e
    rw [hL _ (hidx_ne q (hli.closed_inb q hq) (hclosed_ne q hq)),
      hL _ (hidx_ne q' (hli.closed_inb q' hq') (hclosed_ne q' hq'))]
    exact hli.clo q q' hq hq' hq'inb hadjq hq'w hq'e
  · -- clopen
    intro q hq c hc
    rw [hclosed2] at hq
    rw [hL _ (hidx_ne q (hli.closed_inb q hq) (hclosed_ne q hq))]
    rcases hopen2r c hc with h | h
    · exact hli.clopen q hq c h
    · subst h
      have hdom := hli.cur_dom q hq
      show (lget st.cells (idx g q)).cost ≤ cur.cost + 1
      omega
  · -- start
    rcases hli.start with hl | ⟨c, hcmem, hcco, hc0⟩
    · left
      rw [hclosed2]
      exact hl
    · right
      exact ⟨c, hopen2 c hcmem, hcco, hc0⟩
  · -- er
    intro q hq hqcur x hxinb hxadj hxw hxe hxncl
    rw [hclosed2] at hq hxncl
    rw [htypes2 (idx g x)] at hxw hxe
    obtain ⟨c, hcmem, hcco, hccost⟩ := hli.er q hq hqcur x hxinb hxadj hxw hxe hxncl
    refine ⟨c, hopen2 c hcmem, hcco, ?_⟩
    rw [hL _ (hidx_ne q (hli.closed_inb q hq) (hclosed_ne q hq))]
    exact hccost
  · -- cur_inb
    exact hli.cur_inb
  · -- cur_closed
    rw [hclosed2]
    exact hli.cur_closed
  · -- cur_cost
    rw [hL _ hidx_cur_ne, hli.cur_cost]
  · -- cur_zero
    exact hli.cur_zero
  · -- cur_dom
    intro q hq
    rw [hclosed2] at hq
    rw [hL _ (hidx_ne q (hli.closed_inb q hq) (hclosed_ne q hq))]
    exact hli.cur_dom q hq
  · -- Mono: cells at visited coordinates are frozen
    intro i hi
    apply hL
    intro hieq
    rw [hieq, coordOf_idx g n hn, hncl] at hi
    cases hi
  · -- NOK for n
    intro _ _ _
    refine ⟨updatedCell g cur nc, hupd, ?_, ?_⟩
    · rw [show (updatedCell g cur nc).coordinate = nc.coordinate from rfl, hncco]
    · rw [hL _ hidx_cur_ne, hli.cur_cost]
      exact Nat.le_refl _

/-- One `processNeighbour` call preserves the loop invariant, changes the
state only monotonically, and establishes the edge-relaxation pair for the
processed neighbour. -/
theorem processNeighbour_loopInv (g : Grid) (wf : WellFormed g) (cur : Cell)
    (st : SearchState) (n : Coordinate) (st2 : SearchState)
    (hli : LoopInv g cur st) (hn : inb g n)
    (hadj : fourAdjacent cur.coordinate n)
    (hp : processNeighbour g cur st n = some st2) :
    LoopInv g cur st2 ∧ Mono g st st2 ∧ NOK g cur st2 n := by
  rcases processNeighbour_cases g cur st n st2 hp with
    ⟨heq, hskip⟩ | ⟨heq, nc, hget, hncl, hw, he, hmem, hcost⟩ |
    ⟨nc, hget, hncl, hw, he, hguard, hbranch⟩
  · rw [heq]
    refine ⟨hli, Mono_refl g st, ?_⟩
    intro h1 h2 h3
    rcases hskip with hcl | ⟨nc, hget, hwe⟩
    · rw [hcl] at h3
      cases h3
    · have hnceq : nc = lget st.cells (idx g n) := (lget_eq_of_get? _ _ _ hget).symm
      rw [← hnceq] at h1 h2
      rcases hwe with hh | hh
      · exact absurd hh h1
      · exact absurd hh h2
  · rw [heq]
    refine ⟨hli, Mono_refl g st, ?_⟩
    intro _ _ _
    have hnceq : nc = lget st.cells (idx g n) := (lget_eq_of_get? _ _ _ hget).symm
    have hncco : nc.coordinate = n := by
      rw [hnceq, hli.coords _ (get?_lt_length _ _ _ hget), coordOf_idx g n hn]
    exact ⟨nc, hmem, hncco, by rw [hli.cur_cost]; exact hcost⟩
  · have hnceq : nc = lget st.cells (idx g n) := (lget_eq_of_get? _ _ _ hget).symm
    have hidxlt : idx g n < st.cells.length := get?_lt_length _ _ _ hget
    have hncco : nc.coordinate = n := by
      rw [hnceq, hli.coords _ hidxlt, coordOf_idx g n hn]
    have hkey : ∀ c ∈ st.open_set, c.coordinate = n → cur.cost + 1 ≤ c.cost := by
      intro c hc hcn
      rcases hguard with hg | hg
      · exfalso
        apply hg
        have hc1 : 1 ≤ c.cost := by
          rcases Nat.eq_zero_or_pos c.cost with h0 | h1
          · exfalso
            have hze := hli.open_zero c hc h0
            rw [hcn] at hze
            apply he
            rw [hnceq, hli.types (idx g n), hze, wf.ent_type]
          · exact h1
        have hg1 : 1 ≤ (lget st.cells (idx g n)).cost := by
          have := hli.open_disc c hc hc1
          rwa [hcn] at this
        have := hli.hexact (idx g n) hidxlt hg1
          (by rw [coordOf_idx g n hn]; exact hncl)
        rwa [← hnceq] at this
      · have hle := hli.open_le c hc
        rw [hcn] at hle
        rw [hnceq] at hg
        omega
    rcases hbranch with ⟨hmem, hst2⟩ | ⟨hnmem, hst2⟩
    · apply loopInv_update g wf cur st st2 n nc hli hn hadj hnceq hidxlt hncl hw he hkey
      · rw [hst2]
      · rw [hst2]
      · intro c hc
        rw [hst2]
        exact hc
      · intro c hc
        rw [hst2] at hc
        exact Or.inl hc
      · rw [hst2]
        exact hmem
    · apply loopInv_update g wf cur st st2 n nc hli hn hadj hnceq hidxlt hncl hw he hkey
      · rw [hst2]
        exact closedRemove_noop _ _ (by rw [hncco]; exact hncl)
      · rw [hst2]
      · intro c hc
        rw [hst2]
        dsimp only
        rw [mem_heapPush]
        exact Or.inl hc
      · intro c hc
        rw [hst2] at hc
        dsimp only at hc
        rw [mem_heapPush] at hc
        exact hc
      · rw [hst2]
        dsimp only
        rw [mem_heapPush]
        exact Or.inr rfl

/-- The whole neighbour loop preserves the loop invariant, changes the
state only monotonically, and establishes the edge-relaxation pair for every
processed neighbour. -/
theorem processNeighbours_loopInv (g : Grid) (wf : WellFormed g) (cur : Cell) :
    ∀ (ns : List Coordinate) (st st2 : SearchState), LoopInv g cur st →
      (∀ n ∈ ns, inb g n ∧ fourAdjacent cur.coordinate n) →
      processNeighbours g cur st ns = some st2 →
      LoopInv g cur st2 ∧ Mono g st st2 ∧ ∀ n ∈ ns, NOK g cur st2 n := by
  intro ns
  induction ns with
  | nil =>
    intro st st2 hli _ hp
    injection hp with h
    subst h
    exact ⟨hli, Mono_refl g st, fun n hn => absurd hn (List.not_mem_nil n)⟩
  | cons n rest ih =>
    intro st st2 hli hns hp
    unfold processNeighbours at hp
    cases hm : processNeighbour g cur st n with
    | none => rw [hm] at hp; cases hp
    | some stm =>
      rw [hm] at hp
      obtain ⟨hn_inb, hn_adj⟩ := hns n (List.mem_cons_self n rest)
      obtain ⟨hlim, hmono1, hnok1⟩ :=
        processNeighbour_loopInv g wf cur st n stm hli hn_inb hn_adj hm
      obtain ⟨hli2, hmono2, hnok2⟩ := ih stm st2 hlim
        (fun x hx => hns x (List.mem_cons_of_mem n hx)) hp
      refine ⟨hli2, Mono_trans g st stm st2 hmono1 hmono2, ?_⟩
      intro x hx
      rcases List.mem_cons.mp hx with hx | hx
      · subst hx
        exact NOK_mono g cur stm st2 x hlim.cur_closed hlim.cur_inb hmono2 hnok1
      · exact hnok2 x hx

/-- The first time a coordinate is popped, the popped copy's cost equals the
cost stored in the grid at that coordinate. -/
theorem pop_cost (g : Grid) (st : SearchState) (cur : Cell) (rest : List Cell)
    (hinv : Inv g st) (hp : heapPop st.open_set = some (cur, rest))
    (hfresh : coordMem st.closed_set cur.coordinate = false) :
    (lget st.cells (idx g cur.coordinate)).cost = cur.cost := by
  have hcur_mem : cur ∈ st.open_set := heapPop_mem_self _ _ _ hp
  have hle := hinv.open_le cur hcur_mem
  rcases Nat.eq_zero_or_pos cur.cost with h0 | h1
  · have hze := hinv.open_zero cur hcur_mem h0
    rw [hze, hinv.ent0]
    exact h0.symm
  · have hg1 : 1 ≤ (lget st.cells (idx g cur.coordinate)).cost :=
      hinv.open_disc cur hcur_mem h1
    have hidxlt : idx g cur.coordinate < st.cells.length := by
      rw [hinv.len]
      exact idx_lt g _ (hinv.open_inb cur hcur_mem)
    have hmem := hinv.hexact _ hidxlt hg1
      (by rw [coordOf_idx g _ (hinv.open_inb cur hcur_mem)]; exact hfresh)
    have := heapPop_min st.open_set cur rest hinv.ho hp _ hmem
    omega

theorem coordMem_closedInsert_false (s : List Coordinate) (c d : Coordinate) :
    coordMem (closedInsert s c) d = false ↔
      coordMem s d = false ∧ d ≠ c := by
  simp only [Bool.eq_false_iff, ne_eq, coordMem_closedInsert, not_or]

/-- Popping a not-yet-visited cell and marking it visited yields the loop
invariant for the neighbour loop that follows. -/
theorem loopInv_of_pop (g : Grid) (st : SearchState) (cur : Cell)
    (rest : List Cell) (hinv : Inv g st)
    (hp : heapPop st.open_set = some (cur, rest))
    (hfresh : coordMem st.closed_set cur.coordinate = false) :
    LoopInv g cur
      { cells := st.cells
        open_set := rest
        closed_set := closedInsert st.closed_set cur.coordinate } := by
  have hcur_mem : cur ∈ st.open_set := heapPop_mem_self _ _ _ hp
  have hcur_inb : inb g cur.coordinate := hinv.open_inb cur hcur_mem
  have hpc := pop_cost g st cur rest hinv hp hfresh
  have hrest : ∀ c ∈ rest, c ∈ st.open_set := heapPop_mem_rest _ _ _ hp
  refine ⟨⟨hinv.len, hinv.coords, hinv.types, hinv.ent0,
    fun c hc => hinv.open_inb c (hrest c hc),
    fun c hc => hinv.open_le c (hrest c hc),
    fun c hc => hinv.open_zero c (hrest c hc),
    fun c hc => hinv.open_disc c (hrest c hc),
    fun c hc => hinv.open_nowall c (hrest c hc),
    ?_, ?_, ?_, ?_, ?_, ?_, ?_⟩, ?_, hcur_inb, ?_, hpc,
    hinv.open_zero cur hcur_mem, ?_⟩
  · -- hexact
    intro i hilt hcost hcm
    rw [coordMem_closedInsert_false] at hcm
    obtain ⟨hcm, hne⟩ := hcm
    have hv := hinv.hexact i hilt hcost hcm
    refine heapPop_mem_of_ne _ _ _ hp _ hv ?_
    intro heq
    apply hne
    have := congrArg Cell.coordinate heq
    rwa [hinv.coords i hilt] at this
  · -- closed_inb
    intro q hq
    rw [coordMem_closedInsert] at hq
    rcases hq with hq | hq
    · exact hinv.closed_inb q hq
    · subst hq
      exact hcur_inb
  · -- closed0
    intro q hq h0
    rw [coordMem_closedInsert] at hq
    rcases hq with hq | hq
    · exact hinv.closed0 q hq h0
    · subst hq
      rw [hpc] at h0
      exact hinv.open_zero cur hcur_mem h0
  · -- pd
    intro i hilt hcost
    obtain ⟨p1, p2, p3, p4, p5, p6⟩ := hinv.pd i hilt hcost
    exact ⟨p1, p2, (coordMem_closedInsert _ _ _).mpr (Or.inl p3), p4, p5, p6⟩
  · -- clo, including the pairs of the newly visited coordinate
    intro q q' hq hq' hq'inb hadjq hq'w hq'e
    dsimp only
    rw [coordMem_closedInsert] at hq hq'
    rcases hq' with hq' | hq'
    · rcases hq with hq | hq
      · exact hinv.clo q q' hq hq' hq'inb hadjq hq'w hq'e
      · subst hq
        have := hinv.clopen q' hq' cur hcur_mem
        omega
    · subst hq'
      rcases hq with hq | hq
      · obtain ⟨c, hcmem, hcco, hccost⟩ :=
          hinv.er q hq cur.coordinate hq'inb hadjq hq'w hq'e hfresh
        have hmin := heapPop_min st.open_set cur rest hinv.ho hp c hcmem
        rw [hpc]
        omega
      · subst hq
        omega
  · -- clopen
    intro q hq c hc
    dsimp only
    rw [coordMem_closedInsert] at hq
    rcases hq with hq | hq
    · exact hinv.clopen q hq c (hrest c hc)
    · subst hq
      rw [hpc]
      exact heapPop_min st.open_set cur rest hinv.ho hp c (hrest c hc)
  · -- start
    rcases hinv.start with hl | ⟨c, hcmem, hcco, hc0⟩
    · exact Or.inl ((coordMem_closedInsert _ _ _).mpr (Or.inl hl))
    · by_cases hceq : c = cur
      · subst hceq
        exact Or.inl ((coordMem_closedInsert _ _ _).mpr (Or.inr hcco.symm))
      · exact Or.inr ⟨c, heapPop_mem_of_ne _ _ _ hp _ hcmem hceq, hcco, hc0⟩
  · -- er, except the newly visited coordinate
    intro q hq hqcur x hxinb hxadj hxw hxe hxncl
    rw [coordMem_closedInsert] at hq
    rcases hq with hq | hq
    · rw [coordMem_closedInsert_false] at hxncl
      obtain ⟨hxncl, hxne⟩ := hxncl
      obtain ⟨c, hcmem, hcco, hccost⟩ := hinv.er q hq x hxinb hxadj hxw hxe hxncl
      refine ⟨c, heapPop_mem_of_ne _ _ _ hp _ hcmem ?_, hcco, hccost⟩
      intro heq
      apply hxne
      rw [← hcco, heq]
    · exact absurd hq hqcur
  · -- cur_closed
    exact (coordMem_closedInsert _ _ _).mpr (Or.inr rfl)
  · -- cur_dom
    intro q hq
    dsimp only
    rw [coordMem_closedInsert] at hq
    rcases hq with hq | hq
    · exact hinv.clopen q hq cur hcur_mem
    · subst hq
      rw [hpc]

/-- Popping an already-visited cell keeps the invariant: the visited set is
literally unchanged and every invariant-relevant frontier cell survives the
pop. -/
theorem inv_of_pop_stale (g : Grid) (st : SearchState) (cur : Cell)
    (rest : List Cell) (hinv : Inv g st)
    (hp : heapPop st.open_set = some (cur, rest))
    (hstale : coordMem st.closed_set cur.coordinate = true) :
    Inv g
      { cells := st.cells
        open_set := rest
        closed_set := st.closed_set } := by
  have hrest : ∀ c ∈ rest, c ∈ st.open_set := heapPop_mem_rest _ _ _ hp
  refine ⟨⟨hinv.len, hinv.coords, hinv.types, hinv.ent0,
    fun c hc => hinv.open_inb c (hrest c hc),
    fun c hc => hinv.open_le c (hrest c hc),
    fun c hc => hinv.open_zero c (hrest c hc),
    fun c hc => hinv.open_disc c (hrest c hc),
    fun c hc => hinv.open_nowall c (hrest c hc),
    ?_, hinv.closed_inb, hinv.closed0, hinv.pd, hinv.clo, ?_, ?_⟩, ?_,
    heapPop_heapOrdered _ _ _ hinv.ho hp⟩
  · -- hexact
    intro i hilt hcost hcm
    have hv := hinv.hexact i hilt hcost hcm
    refine heapPop_mem_of_ne _ _ _ hp _ hv ?_
    intro heq
    have hco := congrArg Cell.coordinate heq
    rw [hinv.coords i hilt] at hco
    rw [hco, hstale] at hcm
    cases hcm
  · -- clopen
    intro q hq c hc
    exact hinv.clopen q hq c (hrest c hc)
  · -- start
    rcases hinv.start with hl | ⟨c, hcmem, hcco, hc0⟩
    · exact Or.inl hl
    · by_cases hceq : c = cur
      · subst hceq
        left
        rw [← hcco]
        exact hstale
      · exact Or.inr ⟨c, heapPop_mem_of_ne _ _ _ hp _ hcmem hceq, hcco, hc0⟩
  · -- er
    intro q hq x hxinb hxadj hxw hxe hxncl
    obtain ⟨c, hcmem, hcco, hccost⟩ := hinv.er q hq x hxinb hxadj hxw hxe hxncl
    refine ⟨c, heapPop_mem_of_ne _ _ _ hp _ hcmem ?_, hcco, hccost⟩
    intro heq
    rw [heq] at hcco
    rw [← hcco, hstale] at hxncl
    cases hxncl

/-- When the popped cell's coordinate is already visited, every neighbour is
left untouched: the edge-relaxation pair from the first visit makes the
update guard fail. -/
theorem processNeighbour_stale_noop (g : Grid) (wf : WellFormed g) (cur : Cell)
    (st : SearchState) (n : Coordinate) (hinv : Inv g st)
    (hcur_closed : coordMem st.closed_set cur.coordinate = true)
    (hcur_le : (lget st.cells (idx g cur.coordinate)).cost ≤ cur.cost)
    (hn : inb g n) (hadj : fourAdjacent cur.coordinate n) :
    processNeighbour g cur st n = some st := by
  have hidxlt : idx g n < st.cells.length := by
    rw [hinv.len]
    exact idx_lt g n hn
  have hget : st.cells.get? (n.y * g.width + n.x) =
      some (lget st.cells (idx g n)) := get?_eq_some_lget _ _ hidxlt
  unfold processNeighbour
  split
  · rfl
  · rename_i hcm
    have hcm' : coordMem st.closed_set n = false := by simpa using hcm
    rw [hget]
    dsimp only
    split
    · rfl
    · rename_i hwe
      rw [not_or] at hwe
      obtain ⟨c0, hc0mem, hc0co, hc0cost⟩ :=
        hinv.er cur.coordinate hcur_closed n hn hadj hwe.1 hwe.2 hcm'
      have hc0pos : 1 ≤ c0.cost := by
        rcases Nat.eq_zero_or_pos c0.cost with h0 | h1
        · exfalso
          have hze := hinv.open_zero c0 hc0mem h0
          rw [hc0co] at hze
          apply hwe.2
          rw [hinv.types (idx g n), hze, wf.ent_type]
        · exact h1
      have hg1 : 1 ≤ (lget st.cells (idx g n)).cost := by
        have := hinv.open_disc c0 hc0mem hc0pos
        rwa [hc0co] at this
      have hmem := hinv.hexact (idx g n) hidxlt hg1
        (by rw [coordOf_idx g n hn]; exact hcm')
      have hcost : (lget st.cells (idx g n)).cost ≤ cur.cost + 1 := by
        have := hinv.open_le c0 hc0mem
        rw [hc0co] at this
        omega
      split
      · rename_i hguard
        exfalso
        rcases hguard with hg | hg
        · exact hg ((anyCopy_iff _ _).mpr hmem)
        · omega
      · rfl

theorem processNeighbours_noop (g : Grid) (cur : Cell) (st : SearchState) :
    ∀ ns : List Coordinate,
      (∀ n ∈ ns, processNeighbour g cur st n = some st) →
      processNeighbours g cur st ns = some st := by
  intro ns
  induction ns with
  | nil => intro _; rfl
  | cons n rest ih =>
    intro h
    unfold processNeighbours
    rw [h n (List.mem_cons_self n rest)]
    exact ih (fun x hx => h x (List.mem_cons_of_mem n hx))

/-- One full iteration of the search loop preserves the invariant. -/
theorem searchStep_inv (g : Grid) (wf : WellFormed g) (st st2 : SearchState)
    (hinv : Inv g st) (hstep : searchStep g st = StepResult.next st2) :
    Inv g st2 := by
  have hho2 : heapOrdered st2.open_set :=
    searchStep_next_heapOrdered g st st2 hstep hinv.ho
  unfold searchStep at hstep
  cases hp : heapPop st.open_set with
  | none => rw [hp] at hstep; cases hstep
  | some pr =>
    obtain ⟨cur, rest⟩ := pr
    rw [hp] at hstep
    dsimp only at hstep
    split at hstep
    · cases hstep
    · have hcur_mem : cur ∈ st.open_set := heapPop_mem_self _ _ _ hp
      have hcur_inb : inb g cur.coordinate := hinv.open_inb cur hcur_mem
      cases hstale : coordMem st.closed_set cur.coordinate with
      | false =>
        have hliz := loopInv_of_pop g st cur rest hinv hp hstale
        cases hm : processNeighbours g cur
          { cells := st.cells
            open_set := rest
            closed_set := closedInsert st.closed_set cur.coordinate }
          (neighboursOf g.width g.height cur.coordinate) with
        | none => rw [hm] at hstep; cases hstep
        | some st3 =>
          rw [hm] at hstep
          injection hstep with h
          obtain ⟨hli3, hmono, hnoks⟩ := processNeighbours_loopInv g wf cur
            (neighboursOf g.width g.height cur.coordinate) _ st3 hliz
            (fun n hn => neighboursOf_sound g cur.coordinate n hcur_inb hn) hm
          rw [← h] at hho2 ⊢
          refine ⟨hli3.toInvBase, ?_, hho2⟩
          intro q hq x
          by_cases hqcur : q = cur.coordinate
          · subst hqcur
            intro hxinb hxadj hxw hxe hxncl
            have hxmem : x ∈ neighboursOf g.width g.height cur.coordinate :=
              neighboursOf_complete g cur.coordinate x hli3.cur_inb hxinb hxadj
            exact hnoks x hxmem hxw hxe hxncl
          · exact hli3.er q hq hqcur x
      | true =>
        have hci : closedInsert st.closed_set cur.coordinate = st.closed_set := by
          simp [closedInsert, hstale]
        rw [hci] at hstep
        have hinvz := inv_of_pop_stale g st cur rest hinv hp hstale
        have hnoop := processNeighbours_noop g cur
          { cells := st.cells, open_set := rest, closed_set := st.closed_set }
          (neighboursOf g.width g.height cur.coordinate)
          (fun n hn => by
            obtain ⟨hn_inb, hn_adj⟩ :=
              neighboursOf_sound g cur.coordinate n hcur_inb hn
            exact processNeighbour_stale_noop g wf cur _ n hinvz hstale
              (hinv.open_le cur hcur_mem) hn_inb hn_adj)
        rw [hnoop] at hstep
        injection hstep with h
        rw [← h]
        exact hinvz

theorem heapPush_nil (c : Cell) : heapPush [] c = [c] := rfl

/-- The initial search state of any well-formed grid satisfies the
invariant. -/
theorem initState_inv (g : Grid) (wf : WellFormed g) (st0 : SearchState)
    (h : initState g = some st0) : Inv g st0 := by
  have hho := initState_heapOrdered g st0 h
  have hidxlt : idx g g.entrance_location < g.cells.length := by
    rw [wf.size]
    exact idx_lt g _ wf.ent_inb
  have hget : g.cells.get?
      (g.entrance_location.y * g.width + g.entrance_location.x) =
      some (lget g.cells (idx g g.entrance_location)) :=
    get?_eq_some_lget _ _ hidxlt
  unfold initState at h
  rw [hget] at h
  injection h with h
  have hentco : (lget g.cells (idx g g.entrance_location)).coordinate =
      g.entrance_location := by
    rw [wf.cells_init _ hidxlt]
    show coordOf g (idx g g.entrance_location) = g.entrance_location
    exact coordOf_idx g _ wf.ent_inb
  have hentcost : (lget g.cells (idx g g.entrance_location)).cost = 0 := by
    rw [wf.cells_init _ hidxlt]
    rfl
  have hcost0 : ∀ i, i < g.cells.length → (lget g.cells i).cost = 0 := by
    intro i hi
    rw [wf.cells_init _ hi]
    rfl
  have hopen : st0.open_set = [lget g.cells (idx g g.entrance_location)] := by
    rw [← h]
    exact heapPush_nil _
  have hcells : st0.cells = g.cells := by rw [← h]
  have hclosed : st0.closed_set = [] := by rw [← h]
  have hmem : ∀ c ∈ st0.open_set,
      c = lget g.cells (idx g g.entrance_location) := by
    intro c hc
    rw [hopen] at hc
    exact List.mem_singleton.mp hc
  have hnoclosed : ∀ q, coordMem st0.closed_set q = false := by
    intro q
    rw [hclosed]
    rfl
  refine ⟨⟨?_, ?_, ?_, ?_, ?_, ?_, ?_, ?_, ?_, ?_, ?_, ?_, ?_, ?_, ?_, ?_⟩,
    ?_, hho⟩
  · rw [hcells]
    exact wf.size
  · intro i hilt
    rw [hcells] at hilt ⊢
    rw [wf.cells_init _ hilt]
    rfl
  · intro i
    rw [hcells]
  · rw [hcells]
    exact hentcost
  · intro c hc
    rw [hmem c hc, hentco]
    exact wf.ent_inb
  · intro c hc
    rw [hcells, hmem c hc, hentco, hentcost]
  · intro c hc _
    rw [hmem c hc, hentco]
  · intro c hc hc1
    rw [hmem c hc, hentcost] at hc1
    exact absurd hc1 (by omega)
  · intro c hc
    rw [hcells, hmem c hc, hentco, wf.ent_type]
    intro hcontra
    cases hcontra
  · intro i hilt hcost _
    rw [hcells] at hilt hcost
    rw [hcost0 i hilt] at hcost
    exact absurd hcost (by omega)
  · intro q hq
    rw [hnoclosed q] at hq
    cases hq
  · intro q hq
    rw [hnoclosed q] at hq
    cases hq
  · intro i hilt hcost
    rw [hcells] at hilt hcost
    rw [hcost0 i hilt] at hcost
    exact absurd hcost (by omega)
  · intro q q' hq
    rw [hnoclosed q] at hq
    cases hq
  · intro q hq
    rw [hnoclosed q] at hq
    cases hq
  · refine Or.inr ⟨lget g.cells (idx g g.entrance_location), ?_, hentco, hentcost⟩
    rw [hopen]
    exact List.mem_singleton.mpr rfl
  · intro q hq
    rw [hnoclosed q] at hq
    cases hq

/-- Every state the search loop actually reaches satisfies the invariant. -/
theorem reachable_inv (g : Grid) (wf : WellFormed g) (st : SearchState)
    (h : Reachable g st) : Inv g st := by
  induction h with
  | init st0 h0 => exact initState_inv g wf st0 h0
  | step st st2 _ hstep ih => exact searchStep_inv g wf st st2 ih hstep

/-! ### The exit is never in the visited set while the loop runs -/

theorem coordMem_closedRemove_false (s : List Coordinate) (c d : Coordinate)
    (h : coordMem s d = false) : coordMem (closedRemove s c) d = false := by
  cases hv : coordMem (closedRemove s c) d
  · rfl
  · exfalso
    have hd := (coordMem_iff _ _).mp hv
    unfold closedRemove at hd
    have h2 := (coordMem_iff s d).mpr (List.mem_filter.mp hd).1
    rw [h2] at h
    cases h

theorem processNeighbour_closed_false (g : Grid) (cur : Cell)
    (st : SearchState) (n : Coordinate) (st2 : SearchState) (d : Coordinate)
    (hp : processNeighbour g cur st n = some st2)
    (h : coordMem st.closed_set d = false) :
    coordMem st2.closed_set d = false := by
  rcases processNeighbour_cases g cur st n st2 hp with ⟨heq, _⟩ | ⟨heq, _⟩ |
    ⟨nc, _, _, _, _, _, hbr⟩
  · rw [heq]; exact h
  · rw [heq]; exact h
  · rcases hbr with ⟨_, heq⟩ | ⟨_, heq⟩
    · rw [heq]; exact h
    · rw [heq]
      exact coordMem_closedRemove_false _ _ _ h

theorem processNeighbours_closed_false (g : Grid) (cur : Cell) :
    ∀ (ns : List Coordinate) (st st2 : SearchState) (d : Coordinate),
      processNeighbours g cur st ns = some st2 →
      coordMem st.closed_set d = false →
      coordMem st2.closed_set d = false := by
  intro ns
  induction ns with
  | nil =>
    intro st st2 d hp h
    injection hp with h'
    rw [← h']
    exact h
  | cons n rest ih =>
    intro st st2 d hp h
    unfold processNeighbours at hp
    cases hm : processNeighbour g cur st n with
    | none => rw [hm] at hp; cases hp
    | some stm =>
      rw [hm] at hp
      exact ih stm st2 d hp (processNeighbour_closed_false g cur st n stm d hm h)

theorem searchStep_next_closed_false (g : Grid) (st st2 : SearchState)
    (hstep : searchStep g st = StepResult.next st2)
    (h : coordMem st.closed_set g.exit_location = false) :
    coordMem st2.closed_set g.exit_location = false := by
  unfold searchStep at hstep
  cases hp : heapPop st.open_set with
  | none => rw [hp] at hstep; cases hstep
  | some pr =>
    obtain ⟨cur, rest⟩ := pr
    rw [hp] at hstep
    dsimp only at hstep
    split at hstep
    · cases hstep
    · rename_i hne
      cases hm : processNeighbours g cur
        { cells := st.cells
          open_set := rest
          closed_set := closedInsert st.closed_set cur.coordinate }
        (neighboursOf g.width g.height cur.coordinate) with
      | none => rw [hm] at hstep; cases hstep
      | some st3 =>
        rw [hm] at hstep
        injection hstep with h3
        rw [← h3]
        exact processNeighbours_closed_false g cur _ _ st3 g.exit_location hm
          ((coordMem_closedInsert_false _ _ _).mpr ⟨h, fun he => hne he.symm⟩)

theorem reachable_exit_not_closed (g : Grid) (st : SearchState)
    (h : Reachable g st) : coordMem st.closed_set g.exit_location = false := by
  induction h with
  | init st0 h0 =>
    unfold initState at h0
    cases hg : g.cells.get?
        (g.entrance_location.y * g.width + g.entrance_location.x) with
    | none => rw [hg] at h0; cases h0
    | some c =>
      rw [hg] at h0
      injection h0 with h0
      rw [← h0]
      rfl
  | step st st2 _ hstep ih => exact searchStep_next_closed_false g st st2 hstep ih

/-! ### From a completed search back to the pop that found the exit -/

theorem searchStep_foundExit (g : Grid) (st : SearchState) (cur : Cell)
    (stF : SearchState) (h : searchStep g st = StepResult.foundExit cur stF) :
    ∃ rest, heapPop st.open_set = some (cur, rest) ∧
      cur.coordinate = g.exit_location ∧
      stF.cells = st.cells ∧ stF.closed_set = st.closed_set := by
  unfold searchStep at h
  cases hp : heapPop st.open_set with
  | none => rw [hp] at h; cases h
  | some pr =>
    obtain ⟨c, rest⟩ := pr
    rw [hp] at h
    dsimp only at h
    split at h
    · rename_i hex
      injection h with h1 h2
      rw [← h1]
      refine ⟨rest, rfl, hex, ?_, ?_⟩
      · rw [← h2]
      · rw [← h2]
    · split at h
      · cases h
      · cases h

theorem searchLoop_foundExit (g : Grid) : ∀ (fuel : Nat) (st : SearchState),
    Reachable g st → ∀ (cur : Cell) (stF : SearchState),
      searchLoop g fuel st = SearchOutcome.foundExit cur stF →
      ∃ st1 rest, Reachable g st1 ∧ heapPop st1.open_set = some (cur, rest) ∧
        cur.coordinate = g.exit_location ∧
        stF.cells = st1.cells ∧ stF.closed_set = st1.closed_set := by
  intro fuel
  induction fuel with
  | zero => intro st _ cur stF h; cases h
  | succ fuel ih =>
    intro st hr cur stF h
    unfold searchLoop at h
    cases hs : searchStep g st with
    | panic => rw [hs] at h; cases h
    | foundExit c st2 =>
      rw [hs] at h
      injection h with h1 h2
      rw [h1, h2] at hs
      obtain ⟨rest, hp, hex, hc, hcl⟩ := searchStep_foundExit g st cur stF hs
      exact ⟨st, rest, hr, hp, hex, hc, hcl⟩
    | emptied st2 => rw [hs] at h; cases h
    | next st2 =>
      rw [hs] at h
      exact ih st2 (Reachable.step st st2 hr hs) cur stF h

/-! ### The backtracking walk follows the parent chain -/

/-- Walking the parent chain from a cell of cost `k` (with enough fuel)
produces the entrance, then `k` further coordinates ending at the start
cell's coordinate; consecutive coordinates are 4-adjacent, none of the
visited cells is a Wall, and the sequence starts at the entrance. -/
theorem reconstructGo_chain (g : Grid) (wf : WellFormed g) (st : SearchState)
    (hinv : Inv g st) :
    ∀ (k fuel i : Nat) (acc : List Coordinate), k ≤ fuel →
      i < st.cells.length → (lget st.cells i).cost = k →
      (k = 0 → coordOf g i = g.entrance_location) →
      ∃ p, reconstructGo g st.cells fuel (lget st.cells i) acc =
          ReconResult.path (p ++ coordOf g i :: acc) ∧
        p.length = k ∧
        List.Chain' fourAdjacent (p ++ [coordOf g i]) ∧
        (∀ x ∈ p ++ [coordOf g i],
          (lget st.cells (idx g x)).cell_type ≠ CellType.Wall) ∧
        (∀ x ∈ p ++ [coordOf g i], inb g x) ∧
        (p ++ [coordOf g i]).head? = some g.entrance_location := by
  intro k
  induction k with
  | zero =>
    intro fuel i acc _ hilt hcost h0
    have hco := h0 rfl
    refine ⟨[], ?_, rfl, ?_, ?_, ?_, ?_⟩
    · unfold reconstructGo
      rw [if_pos (by rw [hinv.coords i hilt]; exact hco), hco]
      rfl
    · simp
    · intro x hx
      simp at hx
      subst hx
      rw [hco, hinv.types (idx g g.entrance_location), wf.ent_type]
      intro hcontra
      cases hcontra
    · intro x hx
      simp at hx
      subst hx
      rw [hco]
      exact wf.ent_inb
    · simp [hco]
  | succ k ihk =>
    intro fuel i acc hfuel hilt hcost _
    have hne : (lget st.cells i).coordinate ≠ g.entrance_location := by
      rw [hinv.coords i hilt]
      intro hco
      have hieq : i = idx g g.entrance_location := by
        have := congrArg (idx g) hco
        rwa [idx_coordOf] at this
      rw [hieq, hinv.ent0] at hcost
      exact absurd hcost (by omega)
    obtain ⟨p1, p2, p3, p4, p5, p6⟩ := hinv.pd i hilt (by omega)
    have hpidx : idx g (lget st.cells i).parent_coord < st.cells.length := by
      rw [hinv.len]
      exact idx_lt g _ p1
    have hpcost : (lget st.cells (idx g (lget st.cells i).parent_coord)).cost
        = k := by omega
    have hp0 : k = 0 →
        coordOf g (idx g (lget st.cells i).parent_coord) =
          g.entrance_location := by
      intro hk
      rw [coordOf_idx g _ p1]
      apply hinv.closed0 _ p3
      omega
    cases fuel with
    | zero => omega
    | succ fuel =>
      obtain ⟨pl, hrec, hlen, hchain, hnowall, hinbP, hhead⟩ :=
        ihk fuel (idx g (lget st.cells i).parent_coord)
          ((lget st.cells i).coordinate :: acc) (by omega) hpidx hpcost hp0
      have hget : st.cells.get?
          ((lget st.cells i).parent_coord.y * g.width +
            (lget st.cells i).parent_coord.x) =
          some (lget st.cells (idx g (lget st.cells i).parent_coord)) :=
        get?_eq_some_lget _ _ hpidx
      refine ⟨pl ++ [coordOf g (idx g (lget st.cells i).parent_coord)],
        ?_, ?_, ?_, ?_, ?_, ?_⟩
      · unfold reconstructGo
        rw [if_neg hne]
        dsimp only
        rw [hget]
        dsimp only
        rw [hrec, hinv.coords i hilt]
        simp [List.append_assoc]
      · simp [hlen]
      · rw [List.chain'_append]
        refine ⟨hchain, List.chain'_singleton _, ?_⟩
        intro x hx y hy
        simp at hy
        rw [List.getLast?_concat] at hx
        simp at hx
        subst hx
        subst hy
        rw [coordOf_idx g _ p1]
        exact fourAdjacent_symm _ _ p2
      · intro x hx
        rcases List.mem_append.mp hx with hx | hx
        · exact hnowall x hx
        · simp at hx
          subst hx
          rw [idx_coordOf]
          exact p5
      · intro x hx
        rcases List.mem_append.mp hx with hx | hx
        · exact hinbP x hx
        · simp at hx
          subst hx
          exact inb_coordOf g i wf.wpos (by rw [← hinv.len]; exact hilt)
      · cases pl with
        | nil =>
          simp at hhead ⊢
          exact hhead
        | cons a t =>
          simp at hhead ⊢
          exact hhead

/-- A valid maze path as the claim describes it: starts at the entrance,
ends at the exit, consecutive coordinates are 4-adjacent, and every
coordinate is in bounds with a non-Wall cell at its row-major index. -/
def IsMazePath (g : Grid) (p : List Coordinate) : Prop :=
  p.head? = some g.entrance_location ∧
  p.getLast? = some g.exit_location ∧
  List.Chain' fourAdjacent p ∧
  (∀ x ∈ p, inb g x) ∧
  (∀ x ∈ p, (lget g.cells (idx g x)).cell_type ≠ CellType.Wall)

instance : DecidableRel fourAdjacent := fun a b =>
  inferInstanceAs (Decidable (fourAdjacent a b))

instance (g : Grid) (p : List Coordinate) : Decidable (IsMazePath g p) :=
  inferInstanceAs (Decidable (p.head? = some g.entrance_location ∧
    p.getLast? = some g.exit_location ∧
    List.Chain' fourAdjacent p ∧
    (∀ x ∈ p, inb g x) ∧
    (∀ x ∈ p, (lget g.cells (idx g x)).cell_type ≠ CellType.Wall)))

/-! ### The parser produces well-formed grids on rectangular inputs -/

theorem lget_cons_zero (c : Cell) (l : List Cell) : lget (c :: l) 0 = c := rfl

theorem lget_cons_succ (c : Cell) (l : List Cell) (j : Nat) :
    lget (c :: l) (j + 1) = lget l j := rfl

theorem head?_mem_coord (l : List Coordinate) (x : Coordinate)
    (h : l.head? = some x) : x ∈ l := by
  cases l with
  | nil => cases h
  | cons a t =>
    simp at h
    subst h
    exact List.mem_cons_self a t

/-- Everything the well-formedness proof needs about one row of the builder:
cell count, cell freshness and coordinates, which cells are typed Entrance
(exactly the head of the emitted boundary openings, when the flag was still
unset) and Exit (the other emitted openings), the emitted openings' bounds
and distinctness, and the flag threading. -/
theorem buildRow_spec (width height row : Nat) :
    ∀ (r : List Char) (col : Nat) (found : Bool),
      (∀ c ∈ r, c = '-' ∨ c = '#') →
      (buildRow width height row col found r).1.length = r.length ∧
      (∀ j, j < r.length →
        lget (buildRow width height row col found r).1 j =
          Cell.new ⟨col + j, row⟩
            (lget (buildRow width height row col found r).1 j).cell_type) ∧
      (∀ j, j < r.length →
        ((lget (buildRow width height row col found r).1 j).cell_type =
            CellType.Entrance ↔
          found = false ∧
            (buildRow width height row col found r).2.1.head? =
              some ⟨col + j, row⟩)) ∧
      (∀ j, j < r.length →
        ((lget (buildRow width height row col found r).1 j).cell_type =
            CellType.Exit ↔
          ((⟨col + j, row⟩ : Coordinate) ∈
              (buildRow width height row col found r).2.1 ∧
            ¬(found = false ∧
              (buildRow width height row col found r).2.1.head? =
                some ⟨col + j, row⟩)))) ∧
      (∀ e ∈ (buildRow width height row col found r).2.1,
        col ≤ e.x ∧ e.x < col + r.length ∧ e.y = row) ∧
      (buildRow width height row col found r).2.1.Nodup ∧
      (buildRow width height row col found r).2.2 =
        (found || !(buildRow width height row col found r).2.1.isEmpty) := by
  intro r
  induction r with
  | nil =>
    intro col found _
    refine ⟨rfl, ?_, ?_, ?_, ?_, List.nodup_nil, by simp [buildRow]⟩
    · intro j hj; cases hj
    · intro j hj; cases hj
    · intro j hj; cases hj
    · intro e he; cases he
  | cons ch rest ih =>
    intro col found hch
    have hch' : ∀ c ∈ rest, c = '-' ∨ c = '#' :=
      fun c hc => hch c (List.mem_cons_of_mem ch hc)
    by_cases hdash : ch = '-'
    · by_cases hbnd : row = 0 ∨ row = height - 1 ∨ col = 0 ∨ col = width - 1
      · -- boundary opening
        cases found with
        | false =>
          obtain ⟨ih1, ih2, ih3, ih4, ih5, ih6, ih7⟩ := ih (col + 1) true hch'
          have hred : buildRow width height row col false (ch :: rest) =
              (Cell.new ⟨col, row⟩ CellType.Entrance ::
                (buildRow width height row (col + 1) true rest).1,
               ⟨col, row⟩ :: (buildRow width height row (col + 1) true rest).2.1,
               (buildRow width height row (col + 1) true rest).2.2) := by
            simp [buildRow, hdash, hbnd]
          rw [hred]
          dsimp only
          refine ⟨by simp [ih1], ?_, ?_, ?_, ?_, ?_, ?_⟩
          · intro j hj
            cases j with
            | zero => rfl
            | succ j =>
              rw [lget_cons_succ]
              have hassoc : col + 1 + j = col + (j + 1) := by omega
              rw [← hassoc]
              exact ih2 j (by simpa using hj)
          · intro j hj
            cases j with
            | zero =>
              rw [lget_cons_zero]
              constructor
              · intro _
                exact ⟨rfl, rfl⟩
              · intro _
                rfl
            | succ j =>
              rw [lget_cons_succ]
              rw [ih3 j (by simpa using hj)]
              constructor
              · rintro ⟨h, _⟩
                cases h
              · rintro ⟨_, hh⟩
                simp only [List.head?_cons, Option.some.injEq] at hh
                have : col = col + (j + 1) := congrArg Coordinate.x hh
                omega
          · intro j hj
            cases j with
            | zero =>
              rw [lget_cons_zero]
              constructor
              · intro h
                cases h
              · rintro ⟨_, hne⟩
                exact absurd ⟨rfl, rfl⟩ hne
            | succ j =>
              rw [lget_cons_succ]
              have hassoc : col + (j + 1) = col + 1 + j := by omega
              rw [hassoc]
              rw [ih4 j (by simpa using hj)]
              have hxne : (⟨col, row⟩ : Coordinate) ≠ ⟨col + 1 + j, row⟩ := by
                intro hh
                have : col = col + 1 + j := congrArg Coordinate.x hh
                omega
              constructor
              · rintro ⟨hmem, _⟩
                refine ⟨List.mem_cons_of_mem _ hmem, ?_⟩
                rintro ⟨_, hh⟩
                simp only [List.head?_cons, Option.some.injEq] at hh
                exact hxne hh
              · rintro ⟨hmem, _⟩
                rcases List.mem_cons.mp hmem with hmem | hmem
                · exact absurd hmem.symm hxne
                · exact ⟨hmem, by rintro ⟨h, _⟩; cases h⟩
          · intro e he
            rcases List.mem_cons.mp he with he | he
            · subst he
              simp only [Coordinate.mk_x, Coordinate.mk_y, List.length_cons,
                and_true, true_and]
              omega
            · obtain ⟨h1, h2, h3⟩ := ih5 e he
              simp only [List.length_cons]
              omega
          · refine List.Nodup.cons ?_ ih6
            intro hmem
            obtain ⟨h1, _, _⟩ := ih5 _ hmem
            simp only [Coordinate.mk_x] at h1
            omega
          · rw [ih7]
            simp
        | true =>
          obtain ⟨ih1, ih2, ih3, ih4, ih5, ih6, ih7⟩ := ih (col + 1) true hch'
          have hred : buildRow width height row col true (ch :: rest) =
              (Cell.new ⟨col, row⟩ CellType.Exit ::
                (buildRow width height row (col + 1) true rest).1,
               ⟨col, row⟩ :: (buildRow width height row (col + 1) true rest).2.1,
               (buildRow width height row (col + 1) true rest).2.2) := by
            simp [buildRow, hdash, hbnd]
          rw [hred]
          dsimp only
          refine ⟨by simp [ih1], ?_, ?_, ?_, ?_, ?_, ?_⟩
          · intro j hj
            cases j with
            | zero => rfl
            | succ j =>
              rw [lget_cons_succ]
              have hassoc : col + 1 + j = col + (j + 1) := by omega
              rw [← hassoc]
              exact ih2 j (by simpa using hj)
          · intro j hj
            cases j with
            | zero =>
              rw [lget_cons_zero]
              constructor
              · intro h
                cases h
              · rintro ⟨h, _⟩
                cases h
            | succ j =>
              rw [lget_cons_succ]
              rw [ih3 j (by simpa using hj)]
              constructor
              · rintro ⟨h, _⟩
                cases h
              · rintro ⟨h, _⟩
                cases h
          · intro j hj
            cases j with
            | zero =>
              rw [lget_cons_zero]
              constructor
              · intro _
                exact ⟨List.mem_cons_self _ _, by rintro ⟨h, _⟩; cases h⟩
              · intro _
                rfl
            | succ j =>
              rw [lget_cons_succ]
              have hassoc : col + (j + 1) = col + 1 + j := by omega
              rw [hassoc]
              rw [ih4 j (by simpa using hj)]
              have hxne : (⟨col, row⟩ : Coordinate) ≠ ⟨col + 1 + j, row⟩ := by
                intro hh
                have : col = col + 1 + j := congrArg Coordinate.x hh
                omega
              constructor
              · rintro ⟨hmem, _⟩
                exact ⟨List.mem_cons_of_mem _ hmem, by rintro ⟨h, _⟩; cases h⟩
              · rintro ⟨hmem, _⟩
                rcases List.mem_cons.mp hmem with hmem | hmem
                · exact absurd hmem.symm hxne
                · exact ⟨hmem, by rintro ⟨h, _⟩; cases h⟩
          · intro e he
            rcases List.mem_cons.mp he with he | he
            · subst he
              simp only [Coordinate.mk_x, Coordinate.mk_y, List.length_cons,
                and_true, true_and]
              omega
            · obtain ⟨h1, h2, h3⟩ := ih5 e he
              simp only [List.length_cons]
              omega
          · refine List.Nodup.cons ?_ ih6
            intro hmem
            obtain ⟨h1, _, _⟩ := ih5 _ hmem
            simp only [Coordinate.mk_x] at h1
            omega
          · rw [ih7]
            simp
      · -- interior open cell
        obtain ⟨ih1, ih2, ih3, ih4, ih5, ih6, ih7⟩ := ih (col + 1) found hch'
        have hred : buildRow width height row col found (ch :: rest) =
            (Cell.new ⟨col, row⟩ CellType.Path ::
              (buildRow width height row (col + 1) found rest).1,
             (buildRow width height row (col + 1) found rest).2.1,
             (buildRow width height row (col + 1) found rest).2.2) := by
          simp [buildRow, hdash, hbnd]
        rw [hred]
        dsimp only
        have hhead_ne :
            ¬((buildRow width height row (col + 1) found rest).2.1.head? =
              some ⟨col, row⟩) := by
          intro hh
          obtain ⟨h1, _, _⟩ := ih5 _ (head?_mem_coord _ _ hh)
          simp only [Coordinate.mk_x] at h1
          omega
        have hmem_ne :
            (⟨col, row⟩ : Coordinate) ∉
              (buildRow width height row (col + 1) found rest).2.1 := by
          intro hmem
          obtain ⟨h1, _, _⟩ := ih5 _ hmem
          simp only [Coordinate.mk_x] at h1
          omega
        refine ⟨by simp [ih1], ?_, ?_, ?_, ?_, ih6, ih7⟩
        · intro j hj
          cases j with
          | zero => rfl
          | succ j =>
            rw [lget_cons_succ]
            have hassoc : col + 1 + j = col + (j + 1) := by omega
            rw [← hassoc]
            exact ih2 j (by simpa using hj)
        · intro j hj
          cases j with
          | zero =>
            rw [lget_cons_zero]
            constructor
            · intro h
              cases h
            · rintro ⟨_, hh⟩
              exact absurd hh hhead_ne
          | succ j =>
            rw [lget_cons_succ]
            have hassoc : col + (j + 1) = col + 1 + j := by omega
            rw [hassoc]
            exact ih3 j (by simpa using hj)
        · intro j hj
          cases j with
          | zero =>
            rw [lget_cons_zero]
            constructor
            · intro h
              cases h
            · rintro ⟨hmem, _⟩
              exact absurd hmem hmem_ne
          | succ j =>
            rw [lget_cons_succ]
            have hassoc : col + (j + 1) = col + 1 + j := by omega
            rw [hassoc]
            exact ih4 j (by simpa using hj)
        · intro e he
          obtain ⟨h1, h2, h3⟩ := ih5 e he
          simp only [List.length_cons]
          omega
    · by_cases hhash : ch = '#'
      · -- wall cell
        obtain ⟨ih1, ih2, ih3, ih4, ih5, ih6, ih7⟩ := ih (col + 1) found hch'
        have hred : buildRow width height row col found (ch :: rest) =
            (Cell.new ⟨col, row⟩ CellType.Wall ::
              (buildRow width height row (col + 1) found rest).1,
             (buildRow width height row (col + 1) found rest).2.1,
             (buildRow width height row (col + 1) found rest).2.2) := by
          simp [buildRow, hdash, hhash]
        rw [hred]
        dsimp only
        have hhead_ne :
            ¬((buildRow width height row (col + 1) found rest).2.1.head? =
              some ⟨col, row⟩) := by
          intro hh
          obtain ⟨h1, _, _⟩ := ih5 _ (head?_mem_coord _ _ hh)
          simp only [Coordinate.mk_x] at h1
          omega
        have hmem_ne :
            (⟨col, row⟩ : Coordinate) ∉
              (buildRow width height row (col + 1) found rest).2.1 := by
          intro hmem
          obtain ⟨h1, _, _⟩ := ih5 _ hmem
          simp only [Coordinate.mk_x] at h1
          omega
        refine ⟨by simp [ih1], ?_, ?_, ?_, ?_, ih6, ih7⟩
        · intro j hj
          cases j with
          | zero => rfl
          | succ j =>
            rw [lget_cons_succ]
            have hassoc : col + 1 + j = col + (j + 1) := by omega
            rw [← hassoc]
            exact ih2 j (by simpa using hj)
        · intro j hj
          cases j with
          | zero =>
            rw [lget_cons_zero]
            constructor
            · intro h
              cases h
            · rintro ⟨_, hh⟩
              exact absurd hh hhead_ne
          | succ j =>
            rw [lget_cons_succ]
            have hassoc : col + (j + 1) = col + 1 + j := by omega
            rw [hassoc]
            exact ih3 j (by simpa using hj)
        · intro j hj
          cases j with
          | zero =>
            rw [lget_cons_zero]
            constructor
            · intro h
              cases h
            · rintro ⟨hmem, _⟩
              exact absurd hmem hmem_ne
          | succ j =>
            rw [lget_cons_succ]
            have hassoc : col + (j + 1) = col + 1 + j := by omega
            rw [hassoc]
            exact ih4 j (by simpa using hj)
        · intro e he
          obtain ⟨h1, h2, h3⟩ := ih5 e he
          simp only [List.length_cons]
          omega
      · -- excluded by the character hypothesis
        exfalso
        rcases hch ch (List.mem_cons_self ch rest) with h | h
        · exact hdash h
        · exact hhash h

theorem add_div_self_ne (row j width : Nat) (hw : 0 < width) (hle : width ≤ j) :
    row + j / width ≠ row := by
  intro h
  have h0 : j / width = 0 := Nat.add_left_cancel (h.trans (Nat.add_zero row).symm)
  have h1 : 1 ≤ j / width := (Nat.one_le_div_iff hw).mpr hle
  rw [h0] at h1
  exact absurd h1 (by decide)

theorem lget_append_ge (a b : List Cell) (i : Nat) (h : a.length ≤ i) :
    lget (a ++ b) i = lget b (i - a.length) := by
  unfold lget
  rw [List.get?_eq_getElem?, List.get?_eq_getElem?, List.getElem?_append_right h]

/-- The rows-level aggregate of `buildRow_spec`: cell count, freshness and
row-major coordinates, the Entrance/Exit typing relative to the emitted
boundary openings, the openings' bounds and distinctness, and the flag. -/
theorem buildRows_spec (width height : Nat) :
    ∀ (rows : List (List Char)) (row : Nat) (found : Bool),
      (∀ r ∈ rows, ∀ c ∈ r, c = '-' ∨ c = '#') →
      (∀ r ∈ rows, r.length = width) →
      (buildRows width height row found rows).1.length = rows.length * width ∧
      (∀ j, j < (buildRows width height row found rows).1.length →
        lget (buildRows width height row found rows).1 j =
          Cell.new ⟨j % width, row + j / width⟩
            (lget (buildRows width height row found rows).1 j).cell_type) ∧
      (∀ j, j < (buildRows width height row found rows).1.length →
        ((lget (buildRows width height row found rows).1 j).cell_type =
            CellType.Entrance ↔
          found = false ∧
            (buildRows width height row found rows).2.1.head? =
              some ⟨j % width, row + j / width⟩)) ∧
      (∀ j, j < (buildRows width height row found rows).1.length →
        ((lget (buildRows width height row found rows).1 j).cell_type =
            CellType.Exit ↔
          ((⟨j % width, row + j / width⟩ : Coordinate) ∈
              (buildRows width height row found rows).2.1 ∧
            ¬(found = false ∧
              (buildRows width height row found rows).2.1.head? =
                some ⟨j % width, row + j / width⟩)))) ∧
      (∀ e ∈ (buildRows width height row found rows).2.1,
        e.x < width ∧ row ≤ e.y ∧ e.y < row + rows.length) ∧
      (buildRows width height row found rows).2.1.Nodup ∧
      (buildRows width height row found rows).2.2 =
        (found || !(buildRows width height row found rows).2.1.isEmpty) := by
  intro rows
  induction rows with
  | nil =>
    intro row found _ _
    refine ⟨by simp [buildRows], ?_, ?_, ?_, ?_, List.nodup_nil, by simp [buildRows]⟩
    · intro j hj; cases hj
    · intro j hj; cases hj
    · intro j hj; cases hj
    · intro e he; cases he
  | cons r rest ih =>
    intro row found hch hlen
    have hrw : r.length = width := hlen r (List.mem_cons_self r rest)
    obtain ⟨A1, A2, A3, A4, A5, A6, A7⟩ :=
      buildRow_spec width height row r 0 found
        (hch r (List.mem_cons_self r rest))
    obtain ⟨B1, B2, B3, B4, B5, B6, B7⟩ :=
      ih (row + 1) (buildRow width height row 0 found r).2.2
        (fun q hq => hch q (List.mem_cons_of_mem r hq))
        (fun q hq => hlen q (List.mem_cons_of_mem r hq))
    have hred : buildRows width height row found (r :: rest) =
        ((buildRow width height row 0 found r).1 ++
          (buildRows width height (row + 1)
            (buildRow width height row 0 found r).2.2 rest).1,
         (buildRow width height row 0 found r).2.1 ++
          (buildRows width height (row + 1)
            (buildRow width height row 0 found r).2.2 rest).2.1,
         (buildRows width height (row + 1)
            (buildRow width height row 0 found r).2.2 rest).2.2) := by
      simp [buildRows]
    rw [hred]
    dsimp only
    have hlenA : (buildRow width height row 0 found r).1.length = width := by
      rw [A1, hrw]
    have hbexy : ∀ e ∈ (buildRows width height (row + 1)
        (buildRow width height row 0 found r).2.2 rest).2.1, row + 1 ≤ e.y :=
      fun e he => (B5 e he).2.1
    have haexy : ∀ e ∈ (buildRow width height row 0 found r).2.1,
        e.y = row := fun e he => (A5 e he).2.2
    refine ⟨?_, ?_, ?_, ?_, ?_, ?_, ?_⟩
    · -- length
      simp only [List.length_append, hlenA, B1, List.length_cons]
      rw [Nat.succ_mul]
      omega
    · -- freshness and coordinates
      intro j hj
      simp only [List.length_append, hlenA, B1] at hj
      by_cases hjw : j < width
      · rw [lget_append_lt _ _ _ (by rw [hlenA]; exact hjw)]
        have hm' : j % width = j := Nat.mod_eq_of_lt hjw
        have hd' : j / width = 0 := Nat.div_eq_of_lt hjw
        have hA2 := A2 j (by rw [hrw]; exact hjw)
        have hco : ({ x := 0 + j, y := row } : Coordinate) =
            ⟨j % width, row + j / width⟩ := by
          simp only [Coordinate.mk.injEq]
          exact ⟨by omega, by omega⟩
        rw [hco] at hA2
        exact hA2
      · have hwpos : 0 < width := by
          rcases Nat.eq_zero_or_pos width with hw0 | hw1
          · rw [hw0, Nat.mul_zero] at hj
            omega
          · exact hw1
        rw [lget_append_ge _ _ _ (by rw [hlenA]; omega), hlenA]
        have hm : j % width = (j - width) % width := by
          conv_lhs => rw [show j = (j - width) + width from by omega]
          exact Nat.add_mod_right _ _
        have hd : j / width = (j - width) / width + 1 := by
          conv_lhs => rw [show j = (j - width) + width from by omega]
          exact Nat.add_div_right _ hwpos
        have hB2 := B2 (j - width) (by rw [B1]; omega)
        have hco : ({ x := (j - width) % width, y := row + 1 + (j - width) / width } :
            Coordinate) = ⟨j % width, row + j / width⟩ := by
          simp only [Coordinate.mk.injEq]
          exact ⟨hm.symm, by omega⟩
        rw [hco] at hB2
        exact hB2
    · -- Entrance typing
      intro j hj
      simp only [List.length_append, hlenA, B1] at hj
      by_cases hjw : j < width
      · rw [lget_append_lt _ _ _ (by rw [hlenA]; exact hjw)]
        have hm' : j % width = j := Nat.mod_eq_of_lt hjw
        have hd' : j / width = 0 := Nat.div_eq_of_lt hjw
        have hA3 := A3 j (by rw [hrw]; exact hjw)
        have hco : ({ x := 0 + j, y := row } : Coordinate) =
            ⟨j % width, row + j / width⟩ := by
          simp only [Coordinate.mk.injEq]
          exact ⟨by omega, by omega⟩
        rw [hco] at hA3
        rw [hA3]
        cases haex : (buildRow width height row 0 found r).2.1 with
        | nil =>
          simp only [List.nil_append, List.head?_nil]
          constructor
          · rintro ⟨_, h⟩
            cases h
          · rintro ⟨hf, hh⟩
            exfalso
            obtain ⟨_, hy, _⟩ := B5 _ (head?_mem_coord _ _ hh)
            simp only [Coordinate.mk_y] at hy
            omega
        | cons e aex' =>
          simp only [List.cons_append, List.head?_cons]
      · have hwpos : 0 < width := by
          rcases Nat.eq_zero_or_pos width with hw0 | hw1
          · rw [hw0, Nat.mul_zero] at hj
            omega
          · exact hw1
        rw [lget_append_ge _ _ _ (by rw [hlenA]; omega), hlenA]
        have hm : j % width = (j - width) % width := by
          conv_lhs => rw [show j = (j - width) + width from by omega]
          exact Nat.add_mod_right _ _
        have hd : j / width = (j - width) / width + 1 := by
          conv_lhs => rw [show j = (j - width) + width from by omega]
          exact Nat.add_div_right _ hwpos
        have hB3 := B3 (j - width) (by rw [B1]; omega)
        have hco : ({ x := (j - width) % width, y := row + 1 + (j - width) / width } :
            Coordinate) = ⟨j % width, row + j / width⟩ := by
          simp only [Coordinate.mk.injEq]
          exact ⟨hm.symm, by omega⟩
        rw [hco] at hB3
        rw [hB3]
        cases haex : (buildRow width height row 0 found r).2.1 with
        | nil =>
          have ha22 : (buildRow width height row 0 found r).2.2 = found := by
            rw [A7, haex]
            simp
          rw [List.nil_append, ha22]
        | cons e aex' =>
          have ha22 : (buildRow width height row 0 found r).2.2 = true := by
            rw [A7, haex]
            simp
          rw [ha22]
          simp only [List.cons_append, List.head?_cons]
          have heyrow : e.y = row :=
            haexy e (by rw [haex]; exact List.mem_cons_self e aex')
          constructor
          · rintro ⟨h, _⟩
            cases h
          · rintro ⟨hf, hh⟩
            exfalso
            have hec := Option.some.inj hh
            rw [hec] at heyrow
            simp only [Coordinate.mk_y] at heyrow
            exact add_div_self_ne row j width hwpos (Nat.le_of_not_lt hjw) heyrow
    · -- Exit typing
      intro j hj
      simp only [List.length_append, hlenA, B1] at hj
      by_cases hjw : j < width
      · rw [lget_append_lt _ _ _ (by rw [hlenA]; exact hjw)]
        have hm' : j % width = j := Nat.mod_eq_of_lt hjw
        have hd' : j / width = 0 := Nat.div_eq_of_lt hjw
        have hA4 := A4 j (by rw [hrw]; exact hjw)
        have hco : ({ x := 0 + j, y := row } : Coordinate) =
            ⟨j % width, row + j / width⟩ := by
          simp only [Coordinate.mk.injEq]
          exact ⟨by omega, by omega⟩
        rw [hco] at hA4
        rw [hA4]
        have hnb : (⟨j % width, row + j / width⟩ : Coordinate) ∉
            (buildRows width height (row + 1)
              (buildRow width height row 0 found r).2.2 rest).2.1 := by
          intro hmem
          have hy := (B5 _ hmem).2.1
          simp only [Coordinate.mk_y] at hy
          omega
        cases haex : (buildRow width height row 0 found r).2.1 with
        | nil =>
          simp only [List.nil_append]
          constructor
          · rintro ⟨hmem, _⟩
            cases hmem
          · rintro ⟨hmem, _⟩
            exact absurd hmem hnb
        | cons e aex'  =>
          simp only [List.cons_append, List.head?_cons]
          constructor
          · rintro ⟨hmem, hne⟩
            refine ⟨?_, hne⟩
            rcases List.mem_cons.mp hmem with hmm | hmm
            · rw [hmm]
              exact List.mem_cons_self _ _
            · exact List.mem_cons_of_mem _ (List.mem_append_left _ hmm)
          · rintro ⟨hmem, hne⟩
            refine ⟨?_, hne⟩
            rcases List.mem_cons.mp hmem with hmm | hmm
            · rw [hmm]
              exact List.mem_cons_self _ _
            · rcases List.mem_append.mp hmm with hmm2 | hmm2
              · exact List.mem_cons_of_mem _ hmm2
              · exact absurd hmm2 hnb
      · have hwpos : 0 < width := by
          rcases Nat.eq_zero_or_pos width with hw0 | hw1
          · rw [hw0, Nat.mul_zero] at hj
            omega
          · exact hw1
        rw [lget_append_ge _ _ _ (by rw [hlenA]; omega), hlenA]
        have hm : j % width = (j - width) % width := by
          conv_lhs => rw [show j = (j - width) + width from by omega]
          exact Nat.add_mod_right _ _
        have hd : j / width = (j - width) / width + 1 := by
          conv_lhs => rw [show j = (j - width) + width from by omega]
          exact Nat.add_div_right _ hwpos
        have hB4 := B4 (j - width) (by rw [B1]; omega)
        have hco : ({ x := (j - width) % width, y := row + 1 + (j - width) / width } :
            Coordinate) = ⟨j % width, row + j / width⟩ := by
          simp only [Coordinate.mk.injEq]
          exact ⟨hm.symm, by omega⟩
        rw [hco] at hB4
        rw [hB4]
        cases haex : (buildRow width height row 0 found r).2.1 with
        | nil =>
          have ha22 : (buildRow width height row 0 found r).2.2 = found := by
            rw [A7, haex]
            simp
          rw [List.nil_append, ha22]
        | cons e aex' =>
          have ha22 : (buildRow width height row 0 found r).2.2 = true := by
            rw [A7, haex]
            simp
          rw [ha22]
          simp only [List.cons_append, List.head?_cons]
          have heyrow : e.y = row :=
            haexy e (by rw [haex]; exact List.mem_cons_self e aex')
          constructor
          · rintro ⟨hmem, _⟩
            refine ⟨List.mem_cons_of_mem _ (List.mem_append_right _ hmem), ?_⟩
            rintro ⟨hf, hh⟩
            have hec := Option.some.inj hh
            rw [hec] at heyrow
            simp only [Coordinate.mk_y] at heyrow
            exact add_div_self_ne row j width hwpos (Nat.le_of_not_lt hjw) heyrow
          · rintro ⟨hmem, _⟩
            refine ⟨?_, ?_⟩
            · rcases List.mem_cons.mp hmem with h1 | h1
              · exfalso
                rw [← h1] at heyrow
                simp only [Coordinate.mk_y] at heyrow
                exact add_div_self_ne row j width hwpos (Nat.le_of_not_lt hjw) heyrow
              · rcases List.mem_append.mp h1 with h2 | h2
                · exfalso
                  have hcy := haexy _
                    (by rw [haex]; exact List.mem_cons_of_mem e h2)
                  simp only [Coordinate.mk_y] at hcy
                  exact add_div_self_ne row j width hwpos (Nat.le_of_not_lt hjw) hcy
                · exact h2
            · rintro ⟨hf, _⟩
              cases hf
    · -- bounds of the openings
      intro e he
      rcases List.mem_append.mp he with he | he
      · obtain ⟨h1, h2, h3⟩ := A5 e he
        simp only [List.length_cons]
        rw [hrw] at h2
        omega
      · obtain ⟨h1, h2, h3⟩ := B5 e he
        simp only [List.length_cons]
        omega
    · -- distinctness
      refine List.Nodup.append A6 B6 ?_
      intro e he1 he2
      have h1 := haexy e he1
      have h2 := hbexy e he2
      omega
    · -- flag
      rw [B7, A7]
      cases haex : (buildRow width height row 0 found r).2.1 with
      | nil => simp
      | cons e t => simp

/-- On a rectangular maze text made only of `'-'` and `'#'` characters,
whenever `Grid::new` returns a grid at all, that grid is well formed. -/
theorem Grid_new_wellFormed (text : List Char) (g : Grid)
    (hg : Grid.new text = some g)
    (hrect : ∀ r1 ∈ linesOf (trimChars (removeSpaces text)),
      ∀ r2 ∈ linesOf (trimChars (removeSpaces text)), r1.length = r2.length)
    (hch : ∀ r ∈ linesOf (trimChars (removeSpaces text)),
      ∀ c ∈ r, c = '-' ∨ c = '#') :
    WellFormed g := by
  cases hL : linesOf (trimChars (removeSpaces text)) with
  | nil =>
    exfalso
    unfold Grid.new at hg
    rw [hL] at hg
    exact Option.noConfusion hg
  | cons r0 rest =>
    rw [hL] at hrect hch
    unfold Grid.new at hg
    rw [hL] at hg
    have hg2 : (match (buildRows r0.length (r0 :: rest).length 0 false
          (r0 :: rest)).2.1 with
        | e1 :: e2 :: _ =>
          some { width := r0.length, height := (r0 :: rest).length,
                 entrance_location := e1, exit_location := e2,
                 cells := (buildRows r0.length (r0 :: rest).length 0 false
                   (r0 :: rest)).1 }
        | _ => none) = some g := hg
    clear hg
    obtain ⟨S1, S2, S3, S4, S5, S6, S7⟩ :=
      buildRows_spec r0.length (r0 :: rest).length (r0 :: rest) 0 false hch
        (fun r hr => hrect r hr r0 (List.mem_cons_self r0 rest))
    cases hex : (buildRows r0.length (r0 :: rest).length 0 false (r0 :: rest)).2.1 with
    | nil =>
      exfalso
      rw [hex] at hg2
      exact Option.noConfusion hg2
    | cons e1 t =>
      cases t with
      | nil =>
        exfalso
        rw [hex] at hg2
        exact Option.noConfusion hg2
      | cons e2 t2 =>
        rw [hex] at hg2
        have hgq := Option.some.inj hg2
        have hWg : g.width = r0.length := by rw [← hgq]
        have hHg : g.height = (r0 :: rest).length := by rw [← hgq]
        have hent : g.entrance_location = e1 := by rw [← hgq]
        have hexi : g.exit_location = e2 := by rw [← hgq]
        have hcells : g.cells =
            (buildRows r0.length (r0 :: rest).length 0 false (r0 :: rest)).1 := by
          rw [← hgq]
        have he1 := S5 e1 (by rw [hex]; exact List.mem_cons_self _ _)
        have he2 := S5 e2
          (by rw [hex]; exact List.mem_cons_of_mem _ (List.mem_cons_self _ _))
        have hwpos' : 0 < g.width := by
          rw [hWg]
          have := he1.1
          omega
        have hhpos' : 0 < g.height := by
          rw [hHg]
          exact Nat.succ_pos _
        have hsize' : g.cells.length = g.width * g.height := by
          rw [hcells, hWg, hHg, S1]
          exact Nat.mul_comm _ _
        have hinit' : ∀ i, i < g.cells.length →
            lget g.cells i = Cell.new (coordOf g i) (lget g.cells i).cell_type := by
          intro i hi
          rw [hcells] at hi
          have h2 := S2 i hi
          rw [Nat.zero_add] at h2
          rw [hcells]
          unfold coordOf
          rw [hWg]
          exact h2
        have hinb1 : inb g g.entrance_location := by
          rw [hent]
          constructor
          · rw [hWg]
            exact he1.1
          · rw [hHg]
            have := he1.2.2
            omega
        have hinb2 : inb g g.exit_location := by
          rw [hexi]
          constructor
          · rw [hWg]
            exact he2.1
          · rw [hHg]
            have := he2.2.2
            omega
        have hne12 : e1 ≠ e2 := by
          intro he
          have S6' := S6
          rw [hex] at S6'
          exact (List.nodup_cons.mp S6').1 (by rw [he]; exact List.mem_cons_self _ _)
        have hne' : g.entrance_location ≠ g.exit_location := by
          rw [hent, hexi]
          exact hne12
        have hb1 : idx g g.entrance_location <
            (buildRows r0.length (r0 :: rest).length 0 false (r0 :: rest)).1.length := by
          have h1 := idx_lt g g.entrance_location hinb1
          rw [hWg, hHg] at h1
          rw [S1, Nat.mul_comm (r0 :: rest).length r0.length]
          exact h1
        have hb2 : idx g g.exit_location <
            (buildRows r0.length (r0 :: rest).length 0 false (r0 :: rest)).1.length := by
          have h1 := idx_lt g g.exit_location hinb2
          rw [hWg, hHg] at h1
          rw [S1, Nat.mul_comm (r0 :: rest).length r0.length]
          exact h1
        have hcoord1 : (⟨idx g g.entrance_location % r0.length,
            0 + idx g g.entrance_location / r0.length⟩ : Coordinate) = e1 := by
          rw [Nat.zero_add]
          have h3 := (coordOf_idx g g.entrance_location hinb1).trans hent
          unfold coordOf at h3
          rw [hWg] at h3
          exact h3
        have hcoord2 : (⟨idx g g.exit_location % r0.length,
            0 + idx g g.exit_location / r0.length⟩ : Coordinate) = e2 := by
          rw [Nat.zero_add]
          have h3 := (coordOf_idx g g.exit_location hinb2).trans hexi
          unfold coordOf at h3
          rw [hWg] at h3
          exact h3
        have henttype' : (lget g.cells (idx g g.entrance_location)).cell_type =
            CellType.Entrance := by
          rw [hcells]
          refine (S3 (idx g g.entrance_location) hb1).mpr ⟨rfl, ?_⟩
          rw [hex, List.head?_cons]
          exact congrArg some hcoord1.symm
        have hexittype' : (lget g.cells (idx g g.exit_location)).cell_type =
            CellType.Exit := by
          rw [hcells]
          refine (S4 (idx g g.exit_location) hb2).mpr ⟨?_, ?_⟩
          · rw [hex, hcoord2]
            exact List.mem_cons_of_mem _ (List.mem_cons_self _ _)
          · rintro ⟨_, hh⟩
            rw [hex, List.head?_cons] at hh
            exact hne12 ((Option.some.inj hh).trans hcoord2)
        have hunique' : ∀ i, i < g.cells.length →
            (lget g.cells i).cell_type = CellType.Entrance →
            i = idx g g.entrance_location := by
          intro i hi htype
          rw [hcells] at hi htype
          obtain ⟨_, hh⟩ := (S3 i hi).mp htype
          rw [hex, List.head?_cons] at hh
          have he1c := Option.some.inj hh
          rw [Nat.zero_add] at he1c
          rw [hent, he1c, ← hWg]
          exact (idx_coordOf g i).symm
        exact ⟨hwpos', hhpos', hsize', hinit', hinb1, hinb2, hne', henttype',
          hexittype', hunique'⟩

/-! ### While a path to the exit exists, the frontier cannot empty -/

theorem getLast?_mem_coord (l : List Coordinate) (x : Coordinate)
    (h : l.getLast? = some x) : x ∈ l := by
  induction l with
  | nil => cases h
  | cons a t ih =>
    cases t with
    | nil =>
      simp at h
      subst h
      exact List.mem_singleton.mpr rfl
    | cons b t2 =>
      rw [List.getLast?_cons_cons] at h
      exact List.mem_cons_of_mem a (ih h)

/-- While the frontier is empty, every coordinate chain-reachable from a
visited coordinate through passable cells is itself visited (otherwise the
edge-relaxation pair would put a copy in the empty frontier). -/
theorem closed_along (g : Grid) (wf : WellFormed g) (st : SearchState)
    (hinv : Inv g st) (hopen : st.open_set = [])
    (hent : coordMem st.closed_set g.entrance_location = true) :
    ∀ (p : List Coordinate) (a : Coordinate),
      coordMem st.closed_set a = true →
      List.Chain fourAdjacent a p →
      (∀ x ∈ p, inb g x) →
      (∀ x ∈ p, (lget g.cells (idx g x)).cell_type ≠ CellType.Wall) →
      ∀ x ∈ p, coordMem st.closed_set x = true := by
  intro p
  induction p with
  | nil => intro a _ _ _ _ x hx; cases hx
  | cons b rest ih =>
    intro a ha hchain hinb hnw x hx
    rw [List.chain_cons] at hchain
    have hbinb : inb g b := hinb b (List.mem_cons_self b rest)
    have hb : coordMem st.closed_set b = true := by
      cases hbc : coordMem st.closed_set b with
      | true => rfl
      | false =>
        exfalso
        have hbne : b ≠ g.entrance_location := by
          intro he
          rw [he, hent] at hbc
          cases hbc
        have hbent : (lget st.cells (idx g b)).cell_type ≠ CellType.Entrance := by
          intro hty
          apply hbne
          rw [hinv.types (idx g b)] at hty
          have hieq := wf.ent_unique (idx g b)
            (by rw [wf.size]; exact idx_lt g b hbinb) hty
          have hco := congrArg (coordOf g) hieq
          rwa [coordOf_idx g b hbinb, coordOf_idx g _ wf.ent_inb] at hco
        have hbw : (lget st.cells (idx g b)).cell_type ≠ CellType.Wall := by
          rw [hinv.types (idx g b)]
          exact hnw b (List.mem_cons_self b rest)
        obtain ⟨c, hcmem, _, _⟩ := hinv.er a ha b hbinb hchain.1 hbw hbent hbc
        rw [hopen] at hcmem
        cases hcmem
    rcases List.mem_cons.mp hx with hx | hx
    · subst hx
      exact hb
    · exact ih b hb hchain.2 (fun y hy => hinb y (List.mem_cons_of_mem b hy))
        (fun y hy => hnw y (List.mem_cons_of_mem b hy)) x hx

/-- While the exit is unvisited and a valid path to it exists, the frontier
is nonempty. -/
theorem open_nonempty (g : Grid) (wf : WellFormed g) (st : SearchState)
    (hinv : Inv g st)
    (hexit : coordMem st.closed_set g.exit_location = false)
    (l : List Coordinate) (hl : IsMazePath g l) :
    st.open_set ≠ [] := by
  intro hopen
  have hent : coordMem st.closed_set g.entrance_location = true := by
    rcases hinv.start with h | ⟨c, hc, _, _⟩
    · exact h
    · rw [hopen] at hc
      cases hc
  obtain ⟨hhead, hlast, hchain, hinb, hnw⟩ := hl
  cases l with
  | nil => cases hhead
  | cons a rest =>
    have ha : a = g.entrance_location := by simpa using hhead
    have hall := closed_along g wf st hinv hopen hent rest a
      (by rw [ha]; exact hent) hchain
      (fun x hx => hinb x (List.mem_cons_of_mem a hx))
      (fun x hx => hnw x (List.mem_cons_of_mem a hx))
    cases rest with
    | nil =>
      simp at hlast
      rw [ha] at hlast
      exact wf.ent_ne_exit hlast
    | cons b rest2 =>
      rw [List.getLast?_cons_cons] at hlast
      have hexit_mem : g.exit_location ∈ b :: rest2 := getLast?_mem_coord _ _ hlast
      have := hall g.exit_location hexit_mem
      rw [hexit] at this
      cases this

theorem heapPop_none (a : List Cell) (h : heapPop a = none) : a = [] := by
  cases a with
  | nil => rfl
  | cons x xs =>
    exfalso
    unfold heapPop at h
    cases hgl : (x :: xs).getLast? with
    | none =>
      rw [List.getLast?_eq_none_iff] at hgl
      cases hgl
    | some c =>
      rw [hgl] at h
      dsimp only at h
      split at h <;> cases h

theorem searchStep_not_emptied (g : Grid) (wf : WellFormed g)
    (st : SearchState) (hinv : Inv g st)
    (hexit : coordMem st.closed_set g.exit_location = false)
    (l : List Coordinate) (hl : IsMazePath g l) :
    ∀ stE, searchStep g st ≠ StepResult.emptied stE := by
  intro stE hstep
  unfold searchStep at hstep
  cases hp : heapPop st.open_set with
  | none =>
    exact open_nonempty g wf st hinv hexit l hl (heapPop_none _ hp)
  | some pr =>
    rw [hp] at hstep
    dsimp only at hstep
    split at hstep
    · cases hstep
    · split at hstep <;> cases hstep

/-- Claim-C1 support: on a well-formed grid containing a valid
entrance-to-exit path, the search loop can never exhaust its frontier. -/
theorem searchLoop_not_emptied (g : Grid) (wf : WellFormed g)
    (l : List Coordinate) (hl : IsMazePath g l) :
    ∀ (fuel : Nat) (st : SearchState), Reachable g st →
      ∀ stE, searchLoop g fuel st ≠ SearchOutcome.emptied stE := by
  intro fuel
  induction fuel with
  | zero => intro st _ stE h; cases h
  | succ fuel ih =>
    intro st hr stE h
    unfold searchLoop at h
    cases hs : searchStep g st with
    | panic => rw [hs] at h; cases h
    | foundExit c st2 => rw [hs] at h; cases h
    | emptied st2 =>
      rw [hs] at h
      exact searchStep_not_emptied g wf st (reachable_inv g wf st hr)
        (reachable_exit_not_closed g st hr) l hl st2 hs
    | next st2 =>
      rw [hs] at h
      exact ih st2 (Reachable.step st st2 hr hs) stE h

/-! ### The popped exit cost is a lower bound on every valid path -/

/-- The cut argument: walking any valid path from a visited coordinate `a`
whose grid cost is at most `i`, the popped cell's cost is at most `i` plus
the number of remaining edges — at the first unvisited coordinate of the
path the edge-relaxation pair and pop-minimality bound the popped cost, and
until then closed-closed relaxation keeps the grid costs in step. -/
theorem cut_walk (g : Grid) (wf : WellFormed g) (st1 : SearchState)
    (hinv : Inv g st1) (cur : Cell) (rest : List Cell)
    (hpop : heapPop st1.open_set = some (cur, rest))
    (hexitnc : coordMem st1.closed_set g.exit_location = false)
    (hent : coordMem st1.closed_set g.entrance_location = true) :
    ∀ (p : List Coordinate) (a : Coordinate) (i : Nat),
      coordMem st1.closed_set a = true →
      (lget st1.cells (idx g a)).cost ≤ i →
      List.Chain fourAdjacent a p →
      (∀ x ∈ p, inb g x) →
      (∀ x ∈ p, (lget g.cells (idx g x)).cell_type ≠ CellType.Wall) →
      (a :: p).getLast? = some g.exit_location →
      cur.cost ≤ i + p.length := by
  intro p
  induction p with
  | nil =>
    intro a i ha _ _ _ _ hlast
    simp at hlast
    rw [hlast, hexitnc] at ha
    cases ha
  | cons b p2 ih =>
    intro a i ha hcost hchain hinb hnw hlast
    rw [List.chain_cons] at hchain
    rw [List.getLast?_cons_cons] at hlast
    have hbinb : inb g b := hinb b (List.mem_cons_self b p2)
    have hbw : (lget st1.cells (idx g b)).cell_type ≠ CellType.Wall := by
      rw [hinv.types (idx g b)]
      exact hnw b (List.mem_cons_self b p2)
    have hbent' : b ≠ g.entrance_location →
        (lget st1.cells (idx g b)).cell_type ≠ CellType.Entrance := by
      intro hbne hty
      apply hbne
      rw [hinv.types (idx g b)] at hty
      have hieq := wf.ent_unique (idx g b)
        (by rw [wf.size]; exact idx_lt g b hbinb) hty
      have hco := congrArg (coordOf g) hieq
      rwa [coordOf_idx g b hbinb, coordOf_idx g _ wf.ent_inb] at hco
    cases hbc : coordMem st1.closed_set b with
    | false =>
      have hbne : b ≠ g.entrance_location := by
        intro he
        rw [he, hent] at hbc
        cases hbc
      obtain ⟨c0, hc0mem, _, hc0cost⟩ :=
        hinv.er a ha b hbinb hchain.1 hbw (hbent' hbne) hbc
      have hmin := heapPop_min st1.open_set cur rest hinv.ho hpop c0 hc0mem
      simp only [List.length_cons]
      omega
    | true =>
      have hbcost : (lget st1.cells (idx g b)).cost ≤ i + 1 := by
        by_cases hbe : b = g.entrance_location
        · rw [hbe, hinv.ent0]
          omega
        · have := hinv.clo a b ha hbc hbinb hchain.1 hbw (hbent' hbe)
          omega
      have hrec := ih b (i + 1) hbc hbcost hchain.2
        (fun x hx => hinb x (List.mem_cons_of_mem b hx))
        (fun x hx => hnw x (List.mem_cons_of_mem b hx)) hlast
      simp only [List.length_cons]
      omega

/-- When the search pops the exit, the popped cost plus one is a lower
bound on the length of every valid entrance-to-exit path. -/
theorem exit_pop_min (g : Grid) (wf : WellFormed g) (st1 : SearchState)
    (hinv : Inv g st1) (cur : Cell) (rest : List Cell)
    (hpop : heapPop st1.open_set = some (cur, rest))
    (hexitnc : coordMem st1.closed_set g.exit_location = false)
    (l : List Coordinate) (hl : IsMazePath g l) :
    cur.cost + 1 ≤ l.length := by
  obtain ⟨hhead, hlast, hchain, hinb, hnw⟩ := hl
  cases l with
  | nil => cases hhead
  | cons a p =>
    have ha : a = g.entrance_location := by simpa using hhead
    rcases hinv.start with hent | ⟨c, hcmem, _, hccost0⟩
    · have hac : coordMem st1.closed_set a = true := by
        rw [ha]
        exact hent
      have hcost : (lget st1.cells (idx g a)).cost ≤ 0 := by
        rw [ha, hinv.ent0]
      have := cut_walk g wf st1 hinv cur rest hpop hexitnc hent p a 0 hac hcost
        hchain (fun x hx => hinb x (List.mem_cons_of_mem a hx))
        (fun x hx => hnw x (List.mem_cons_of_mem a hx)) hlast
      simp only [List.length_cons]
      omega
    · have hmin := heapPop_min st1.open_set cur rest hinv.ho hpop c hcmem
      simp only [List.length_cons]
      omega

/-- When the search loop reaches the exit, the backtracking reconstruction
(run with at least `cost(exit)` fuel) succeeds and yields a path of length
`cost(exit) + 1` from the entrance to the exit whose consecutive
coordinates are 4-adjacent and whose cells are never Walls. -/
theorem foundExit_reconstruct (g : Grid) (wf : WellFormed g)
    (fuel fuel2 : Nat) (st0 stF : SearchState) (cur : Cell)
    (hi : initState g = some st0)
    (hloop : searchLoop g fuel st0 = SearchOutcome.foundExit cur stF)
    (hfuel2 : (lget stF.cells (idx g g.exit_location)).cost ≤ fuel2) :
    ∃ p, reconstruct g stF.cells fuel2 = ReconResult.path p ∧
      p.length = (lget stF.cells (idx g g.exit_location)).cost + 1 ∧
      List.Chain' fourAdjacent p ∧
      (∀ x ∈ p, (lget stF.cells (idx g x)).cell_type ≠ CellType.Wall) ∧
      p.head? = some g.entrance_location ∧
      p.getLast? = some g.exit_location ∧
      IsMazePath g p := by
  obtain ⟨st1, rest, hr1, hpop, hex, hcells, hclosed⟩ :=
    searchLoop_foundExit g fuel st0 (Reachable.init st0 hi) cur stF hloop
  have hinv1 : Inv g st1 := reachable_inv g wf st1 hr1
  have hfresh : coordMem st1.closed_set cur.coordinate = false := by
    rw [hex]
    exact reachable_exit_not_closed g st1 hr1
  have hpc : (lget st1.cells (idx g cur.coordinate)).cost = cur.cost :=
    pop_cost g st1 cur rest hinv1 hpop hfresh
  have hcur_mem := heapPop_mem_self _ _ _ hpop
  have hcpos : 1 ≤ cur.cost := by
    rcases Nat.eq_zero_or_pos cur.cost with h0 | h1
    · exfalso
      have := hinv1.open_zero cur hcur_mem h0
      rw [hex] at this
      exact wf.ent_ne_exit this.symm
    · exact h1
  have hexlt : idx g g.exit_location < st1.cells.length := by
    rw [hinv1.len]
    exact idx_lt g _ wf.exit_inb
  rw [hex] at hpc
  rw [hcells] at hfuel2 ⊢
  obtain ⟨p, hrec, hlen, hchain, hnowall, hinbP, hhead⟩ :=
    reconstructGo_chain g wf st1 hinv1
      ((lget st1.cells (idx g g.exit_location)).cost) fuel2
      (idx g g.exit_location) [] hfuel2 hexlt rfl
      (by intro h0; rw [hpc] at h0; omega)
  have hget : st1.cells.get?
      (g.exit_location.y * g.width + g.exit_location.x) =
      some (lget st1.cells (idx g g.exit_location)) :=
    get?_eq_some_lget _ _ hexlt
  refine ⟨p ++ [coordOf g (idx g g.exit_location)], ?_, ?_, hchain, hnowall,
    hhead, ?_, ?_⟩
  · unfold reconstruct
    rw [hget]
    dsimp only
    rw [hrec]
  · rw [List.length_append, hlen]
    rfl
  · rw [List.getLast?_concat, coordOf_idx g _ wf.exit_inb]
  · refine ⟨hhead, ?_, hchain, hinbP, ?_⟩
    · rw [List.getLast?_concat, coordOf_idx g _ wf.exit_inb]
    · intro x hx
      have hx2 := hnowall x hx
      rwa [hinv1.types (idx g x)] at hx2

/-- Claim C6: when the search has reached the exit, the reconstructed
coordinate sequence has length equal to the exit cell's stored cost plus
one, and every pair of consecutive coordinates in it is 4-adjacent (differs
by exactly 1 in exactly one axis). Reconstruction is run with any fuel of at
least `cost(exit)`, which the source's unbounded `while` loop subsumes. -/
theorem C6_reconstruction (g : Grid) (wf : WellFormed g)
    (fuel fuel2 : Nat) (st0 stF : SearchState) (cur : Cell)
    (hi : initState g = some st0)
    (hloop : searchLoop g fuel st0 = SearchOutcome.foundExit cur stF)
    (hfuel2 : (lget stF.cells (idx g g.exit_location)).cost ≤ fuel2) :
    ∃ p, reconstruct g stF.cells fuel2 = ReconResult.path p ∧
      p.length = (lget stF.cells (idx g g.exit_location)).cost + 1 ∧
      List.Chain' fourAdjacent p := by
  obtain ⟨p, h1, h2, h3, _, _, _, _⟩ :=
    foundExit_reconstruct g wf fuel fuel2 st0 stF cur hi hloop hfuel2
  exact ⟨p, h1, h2, h3⟩

/-- Claim C7: when the search has reached the exit, no coordinate of the
reconstructed path is a Wall-typed cell of the grid — the search never sets
a Wall cell's parent or cost, so the parent chain never passes through a
wall. -/
theorem C7_no_wall_on_path (g : Grid) (wf : WellFormed g)
    (fuel fuel2 : Nat) (st0 stF : SearchState) (cur : Cell)
    (hi : initState g = some st0)
    (hloop : searchLoop g fuel st0 = SearchOutcome.foundExit cur stF)
    (hfuel2 : (lget stF.cells (idx g g.exit_location)).cost ≤ fuel2) :
    ∃ p, reconstruct g stF.cells fuel2 = ReconResult.path p ∧
      ∀ x ∈ p, (lget stF.cells (idx g x)).cell_type ≠ CellType.Wall := by
  obtain ⟨p, h1, _, _, h4, _, _, _⟩ :=
    foundExit_reconstruct g wf fuel fuel2 st0 stF cur hi hloop hfuel2
  exact ⟨p, h1, h4⟩

/-- The grid of `mazeC2` is well formed. -/
theorem wfC2 : WellFormed gridC2 :=
  ⟨by decide, by decide, by decide, by decide, by decide, by decide,
   by decide, by decide, by decide, by decide⟩

/-- The cell whose pop ends the search on `gridC2`. -/
def curC6 : Cell :=
  match searchLoop gridC2 10 (stC2 0) with
  | SearchOutcome.foundExit c _ => c
  | _ => defaultCell

/-- The state in which the search on `gridC2` ends. -/
def stFC6 : SearchState :=
  match searchLoop gridC2 10 (stC2 0) with
  | SearchOutcome.foundExit _ st => st
  | _ => emptySearchState

/-- Witness for C6 on `mazeC2`: the search reaches the exit and the
reconstruction facts hold concretely. -/
theorem C6_witness :
    ∃ p, reconstruct gridC2 stFC6.cells 10 = ReconResult.path p ∧
      p.length = (lget stFC6.cells (idx gridC2 gridC2.exit_location)).cost + 1 ∧
      List.Chain' fourAdjacent p :=
  C6_reconstruction gridC2 wfC2 10 10 (stC2 0) stFC6 curC6
    (by decide) (by decide) (by decide)

/-- Witness for C7 on `mazeC2`. -/
theorem C7_witness :
    ∃ p, reconstruct gridC2 stFC6.cells 10 = ReconResult.path p ∧
      ∀ x ∈ p,
        (lget stFC6.cells (idx gridC2 x)).cell_type ≠ CellType.Wall :=
  C7_no_wall_on_path gridC2 wfC2 10 10 (stC2 0) stFC6 curC6
    (by decide) (by decide) (by decide)

/-! ### Claim C1 -/

/-- A maze text whose rows have different lengths (the parser accepts it:
no row-length check exists). Width is taken from the first row, so the
short middle row shifts the last row's cells to lower indices: the cell
stored at the exit's row-major index (7) is the cell that believes it is at
`(2,2)`. -/
def mazeC1 : List Char := "#-#\n#-\n#--".toList

/-- The grid `mazeC1` parses to. -/
def gC1 : Grid :=
  { width := 3, height := 3, entrance_location := ⟨1, 0⟩,
    exit_location := ⟨1, 2⟩,
    cells :=
      [Cell.new ⟨0, 0⟩ CellType.Wall, Cell.new ⟨1, 0⟩ CellType.Entrance,
       Cell.new ⟨2, 0⟩ CellType.Wall, Cell.new ⟨0, 1⟩ CellType.Wall,
       Cell.new ⟨1, 1⟩ CellType.Path, Cell.new ⟨0, 2⟩ CellType.Wall,
       Cell.new ⟨1, 2⟩ CellType.Exit, Cell.new ⟨2, 2⟩ CellType.Exit] }

/-- The cell stored at index 7 of `gC1` once the search has started feeding
on itself: probing the exit coordinate `(1,2)` yields index `7`, which
holds the `(2,2)` cell, whose own left neighbour `(1,2)` probes index `7`
again. -/
def cellS (k : Nat) : Cell :=
  { cell_type := CellType.Exit, coordinate := ⟨2, 2⟩,
    parent_coord := ⟨2, 2⟩, manhattan_from_exit := 1, cost := k }

/-- The search state on `gC1` after `k` iterations (`k ≥ 3`): the frontier
holds exactly one copy of the `(2,2)` cell, at cost `k`, and each further
iteration reproduces the same shape with the cost increased by one — the
loop never terminates. -/
def stS (k : Nat) : SearchState :=
  { cells :=
      [Cell.new ⟨0, 0⟩ CellType.Wall, Cell.new ⟨1, 0⟩ CellType.Entrance,
       Cell.new ⟨2, 0⟩ CellType.Wall, Cell.new ⟨0, 1⟩ CellType.Wall,
       { cell_type := CellType.Path, coordinate := ⟨1, 1⟩,
         parent_coord := ⟨1, 0⟩, manhattan_from_exit := 1, cost := 1 },
       Cell.new ⟨0, 2⟩ CellType.Wall, Cell.new ⟨1, 2⟩ CellType.Exit,
       cellS k],
    open_set := [cellS k],
    closed_set := [⟨1, 1⟩, ⟨1, 0⟩] }

theorem stS_step (k : Nat) :
    searchStep gC1 (stS (k + 3)) = StepResult.next (stS (k + 4)) := rfl

theorem stS_loop : ∀ (fuel k : Nat),
    searchLoop gC1 fuel (stS (k + 3)) =
      SearchOutcome.outOfFuel (stS (k + 3 + fuel)) := by
  intro fuel
  induction fuel with
  | zero => intro k; rfl
  | succ fuel ih =>
    intro k
    show searchLoop gC1 (fuel + 1) (stS (k + 3)) = _
    unfold searchLoop
    rw [stS_step k]
    rw [show k + 3 + (fuel + 1) = (k + 1) + 3 + fuel from by omega]
    exact ih (k + 1)

/-- The first three iterations on `gC1` are concrete; afterwards the loop is
in the self-feeding family. -/
theorem searchLoop_gC1_shift (m : Nat) :
    searchLoop gC1 (m + 3)
      { cells := gC1.cells
        open_set := [Cell.new ⟨1, 0⟩ CellType.Entrance]
        closed_set := [] } =
    searchLoop gC1 m (stS 3) := rfl

theorem solve_mazeC1_diverges : ∀ fuel,
    solve fuel mazeC1 = SolveResult.outOfFuel := by
  intro fuel
  match fuel with
  | 0 => decide
  | 1 => decide
  | 2 => decide
  | (m + 3) =>
    show solve (m + 3) mazeC1 = SolveResult.outOfFuel
    unfold solve
    rw [show Grid.new mazeC1 = some gC1 from by decide]
    dsimp only
    rw [show initState gC1 = some
      { cells := gC1.cells
        open_set := [Cell.new ⟨1, 0⟩ CellType.Entrance]
        closed_set := [] } from by decide]
    dsimp only
    rw [searchLoop_gC1_shift m]
    have h30 := stS_loop m 0
    rw [show (0 : Nat) + 3 = 3 from rfl] at h30
    rw [h30]

/-- Claim C1, counterexample: the ragged maze text with rows `#-#`, `#-`
and `#--` parses into
a Grid (no row-length check exists) that contains the valid 4-connected open
path `(1,0) → (1,1) → (1,2)` from the entrance to the exit, yet the solve
produces no coordinate sequence at all, for any amount of loop fuel: the
search loop runs forever. Probing the exit `(1,2)` yields row-major index
`7`, which (because the short middle row shifts the storage) holds the cell
that stores coordinate `(2,2)`; the copy popped at `(2,2)` probes its left
neighbour `(1,2)` — index `7` again, the very cell just popped — finds no
copy of it in the now-empty frontier, re-pushes it with cost increased by
one and removes it from the visited set, forever. -/
theorem C1_counterexample :
    Grid.new mazeC1 = some gC1 ∧
    IsMazePath gC1 [⟨1, 0⟩, ⟨1, 1⟩, ⟨1, 2⟩] ∧
    ∀ fuel, solve fuel mazeC1 = SolveResult.outOfFuel :=
  ⟨by decide,
   ⟨rfl, rfl,
    by
      rw [List.chain'_cons, List.chain'_cons]
      exact ⟨by decide, by decide, List.chain'_singleton _⟩,
    by decide, by decide⟩,
   solve_mazeC1_diverges⟩

/-- Claim C1, amended: restricted to rectangular maze texts (all rows the
same length) made only of `'-'` and `'#'` characters — on ragged texts the
search can diverge, see the counterexample — whenever such a text parses
into a grid that admits a valid entrance-to-exit path, the search loop
never exhausts its frontier and never panics, and whenever it reaches the
exit (the fuel parameters are finitization artifacts of the embedding; the
source's loops are unbounded) the reconstructed coordinate sequence is
itself a valid entrance-to-exit path whose length is minimal among all
valid entrance-to-exit paths, i.e. it equals the true shortest 4-connected
path length (number of coordinates = shortest edge count + 1). -/
theorem C1_amended_shortest_path (text : List Char) (g : Grid)
    (hg : Grid.new text = some g)
    (hrect : ∀ r1 ∈ linesOf (trimChars (removeSpaces text)),
      ∀ r2 ∈ linesOf (trimChars (removeSpaces text)), r1.length = r2.length)
    (hch : ∀ r ∈ linesOf (trimChars (removeSpaces text)),
      ∀ c ∈ r, c = '-' ∨ c = '#')
    (l : List Coordinate) (hl : IsMazePath g l) :
    ∃ st0, initState g = some st0 ∧
      (∀ fuel stE, searchLoop g fuel st0 ≠ SearchOutcome.emptied stE) ∧
      (∀ fuel, searchLoop g fuel st0 ≠ SearchOutcome.panic) ∧
      (∀ fuel fuel2 cur stF,
        searchLoop g fuel st0 = SearchOutcome.foundExit cur stF →
        (lget stF.cells (idx g g.exit_location)).cost ≤ fuel2 →
        ∃ p, reconstruct g stF.cells fuel2 = ReconResult.path p ∧
          IsMazePath g p ∧
          p.length = (lget stF.cells (idx g g.exit_location)).cost + 1 ∧
          ∀ l2, IsMazePath g l2 → p.length ≤ l2.length) := by
  have wf := Grid_new_wellFormed text g hg hrect hch
  have hidx : g.entrance_location.y * g.width + g.entrance_location.x <
      g.cells.length := by
    rw [wf.size]
    exact idx_lt g _ wf.ent_inb
  have hi : initState g = some
      { cells := g.cells
        open_set := heapPush [] (lget g.cells
          (g.entrance_location.y * g.width + g.entrance_location.x))
        closed_set := [] } := by
    unfold initState
    rw [get?_eq_some_lget _ _ hidx]
  refine ⟨_, hi, ?_, ?_, ?_⟩
  · intro fuel stE
    exact searchLoop_not_emptied g wf l hl fuel _ (Reachable.init _ hi) stE
  · intro fuel
    apply searchLoop_npinv
    have hinv0 := initState_inv g wf _ hi
    exact ⟨hinv0.len, hinv0.coords, hinv0.open_inb⟩
  · intro fuel fuel2 cur stF hloop hfuel2
    obtain ⟨p, hrec, hlen, hchain, hnw, hhead, hlast, hmp⟩ :=
      foundExit_reconstruct g wf fuel fuel2 _ stF cur hi hloop hfuel2
    refine ⟨p, hrec, hmp, hlen, ?_⟩
    intro l2 hl2
    obtain ⟨st1, rest, hr1, hpop, hex, hcells, hclosed⟩ :=
      searchLoop_foundExit g fuel _ (Reachable.init _ hi) cur stF hloop
    have hinv1 := reachable_inv g wf st1 hr1
    have hexitnc := reachable_exit_not_closed g st1 hr1
    have hfresh : coordMem st1.closed_set cur.coordinate = false := by
      rw [hex]
      exact hexitnc
    have hpc := pop_cost g st1 cur rest hinv1 hpop hfresh
    rw [hex] at hpc
    have hmin := exit_pop_min g wf st1 hinv1 cur rest hpop hexitnc l2 hl2
    rw [hlen, hcells, hpc]
    exact hmin

/-- Witness for C1's amended theorem on the rectangular maze `mazeC2`: all
hypotheses hold concretely, with the straight corridor walk as the valid
path. -/
theorem C1_amended_witness :
    ∃ st0, initState gridC2 = some st0 ∧
      (∀ fuel stE, searchLoop gridC2 fuel st0 ≠ SearchOutcome.emptied stE) ∧
      (∀ fuel, searchLoop gridC2 fuel st0 ≠ SearchOutcome.panic) ∧
      (∀ fuel fuel2 cur stF,
        searchLoop gridC2 fuel st0 = SearchOutcome.foundExit cur stF →
        (lget stF.cells (idx gridC2 gridC2.exit_location)).cost ≤ fuel2 →
        ∃ p, reconstruct gridC2 stF.cells fuel2 = ReconResult.path p ∧
          IsMazePath gridC2 p ∧
          p.length = (lget stF.cells (idx gridC2 gridC2.exit_location)).cost + 1 ∧
          ∀ l2, IsMazePath gridC2 l2 → p.length ≤ l2.length) :=
  C1_amended_shortest_path mazeC2 gridC2 (by decide) (by decide) (by decide)
    [⟨2, 0⟩, ⟨2, 1⟩, ⟨3, 1⟩, ⟨3, 2⟩, ⟨3, 3⟩]
    ⟨by decide, by decide,
     by
       rw [List.chain'_cons, List.chain'_cons, List.chain'_cons]
       exact ⟨by decide, by decide, by decide,
         by
           rw [List.chain'_cons]
           exact ⟨by decide, List.chain'_singleton _⟩⟩,
     by decide, by decide⟩

/-- Witness for C10's amended theorem on the parsed grid of `mazeNoPath`. -/
theorem C10_amended_witness :
    gridNP.cells.length = gridNP.width * gridNP.height ∧
    (∀ i, i < gridNP.cells.length →
      (lget gridNP.cells i).coordinate = coordOf gridNP i) ∧
    inb gridNP gridNP.entrance_location ∧
    ∃ st0, initState gridNP = some st0 ∧
      ∀ fuel, searchLoop gridNP fuel st0 ≠ SearchOutcome.panic :=
  ⟨by decide, by decide, by decide,
   C10_amended_no_panic gridNP (by decide) (by decide) (by decide)⟩

end Maze
